import Mathlib

/-!
# Verification of the `comment_cleaner` scanning engine

A shallow embedding of the comment-stripping core of `comment_cleaner.py`
(`strip_comments_c_like`, `strip_comments_python`, `strip_comments_sql`,
`strip_comments_html`, `strip_comments_ruby`,
`strip_comments_hash_and_semicolon` and the `strip_comments` dispatcher),
together with proofs and refutations of the specified properties.

Source text is a `List Char`; each scanner mirrors the branch structure of its
Python original.  The two regex passes (`<!--[\s\S]*?-->` for HTML and
`(?m)^[ \t]*=begin[\s\S]*?^[ \t]*=end[ \t]*\r?\n?` for Ruby) are embedded as
executable leftmost-shortest match scans.
-/

set_option linter.unusedVariables false

namespace CommentCleaner

/-- Result record of one scan, mirroring the `Result` class of `comment_cleaner.py`. -/
structure Result where
  text : List Char
  comments_found : Nat
  comments_removed_chars : Nat
deriving DecidableEq, Repr

/-- Prepend copied characters to the text of a partial result. -/
def Result.consText (l : List Char) (r : Result) : Result :=
  ⟨l ++ r.text, r.comments_found, r.comments_removed_chars⟩

@[simp] theorem Result.consText_text (l : List Char) (r : Result) :
    (Result.consText l r).text = l ++ r.text := rfl

@[simp] theorem Result.consText_comments (l : List Char) (r : Result) :
    (Result.consText l r).comments_found = r.comments_found := rfl

@[simp] theorem Result.consText_removed (l : List Char) (r : Result) :
    (Result.consText l r).comments_removed_chars = r.comments_removed_chars := rfl

/-- Characters that end a line comment: the scans loop `while src[j] not in "\n\r"`. -/
def notNL (c : Char) : Bool := !(c == '\n' || c == '\r')

/-- Index of the first adjacent `*/` pair, mirroring the loop
`while j < n - 1 and not (src[j] == "*" and src[j+1] == "/")`. -/
def findStarSlash : List Char → Option Nat
  | '*' :: '/' :: _ => some 0
  | _ :: c :: rest => (findStarSlash (c :: rest)).map (· + 1)
  | _ => none

/-- Given the characters after a `/*` opener, the removed-character increment and
the remaining input, mirroring `j = j + 2 if j < n else n; removed_chars += (j - i)`.
(When the comment is unterminated and at least one character follows the opener,
the recorded increment is one more than the number of characters actually
discarded, because `j` has run to `n - 1` and is still bumped by `2`.) -/
def blockEnd (rest : List Char) : Nat × List Char :=
  match findStarSlash rest with
  | some k => (k + 4, rest.drop (k + 2))
  | none => if rest.isEmpty then (2, []) else (rest.length + 3, [])

theorem length_dropWhile_le (p : Char → Bool) (l : List Char) :
    (l.dropWhile p).length ≤ l.length := by
  induction l with
  | nil => simp
  | cons c cs ih => by_cases h : p c <;> simp [List.dropWhile_cons, h] <;> omega

theorem blockEnd_length_le (rest : List Char) : (blockEnd rest).2.length ≤ rest.length := by
  unfold blockEnd
  cases h : findStarSlash rest with
  | some k => simp
  | none => cases rest <;> simp

/-- Scanner state of `strip_comments_c_like`:
`state = 0 / IN_STR_SGL / IN_STR_DBL / IN_TEMPLATE`. -/
inductive CMode | code | inStrSgl | inStrDbl | inTemplate
deriving DecidableEq, Repr

/-- The character loop of `strip_comments_c_like`.  `d` is `template_brace_depth`;
`first` records whether the scan is at offset `i == 0` (for the shebang test).
Branch order and conditions mirror the Python loop: string states copy their
characters (with backslash consuming the following character), and in code
state the checks are `'` (only without backtick support!), `"`, backtick,
`//`, `/*`, then `#` (when enabled, exempting `#!` at offset 0). -/
def clikeAux (hash bt : Bool) : CMode → Nat → Bool → List Char → Result
  | _, _, _, [] => ⟨[], 0, 0⟩
  | .inStrSgl, d, _, '\\' :: c :: rest => .consText ['\\', c] (clikeAux hash bt .inStrSgl d false rest)
  | .inStrSgl, d, _, '\'' :: rest => .consText ['\''] (clikeAux hash bt .code d false rest)
  | .inStrSgl, d, _, c :: rest => .consText [c] (clikeAux hash bt .inStrSgl d false rest)
  | .inStrDbl, d, _, '\\' :: c :: rest => .consText ['\\', c] (clikeAux hash bt .inStrDbl d false rest)
  | .inStrDbl, d, _, '"' :: rest => .consText ['"'] (clikeAux hash bt .code d false rest)
  | .inStrDbl, d, _, c :: rest => .consText [c] (clikeAux hash bt .inStrDbl d false rest)
  | .inTemplate, d, _, '\\' :: c :: rest => .consText ['\\', c] (clikeAux hash bt .inTemplate d false rest)
  | .inTemplate, d, _, '`' :: rest => .consText ['`'] (clikeAux hash bt .code d false rest)
  | .inTemplate, d, _, '$' :: '{' :: rest => .consText ['$', '{'] (clikeAux hash bt .inTemplate (d + 1) false rest)
  | .inTemplate, d, _, '}' :: rest =>
      .consText ['}'] (clikeAux hash bt .inTemplate (if 0 < d then d - 1 else d) false rest)
  | .inTemplate, d, _, c :: rest => .consText [c] (clikeAux hash bt .inTemplate d false rest)
  | .code, d, _, '\'' :: rest =>
      if bt then .consText ['\''] (clikeAux hash bt .code d false rest)
      else .consText ['\''] (clikeAux hash bt .inStrSgl d false rest)
  | .code, d, _, '"' :: rest => .consText ['"'] (clikeAux hash bt .inStrDbl d false rest)
  | .code, d, _, '`' :: rest =>
      if bt then .consText ['`'] (clikeAux hash bt .inTemplate 0 false rest)
      else .consText ['`'] (clikeAux hash bt .code d false rest)
  | .code, d, _, '/' :: '/' :: rest =>
      let r := clikeAux hash bt .code d false (rest.dropWhile notNL)
      ⟨r.text, r.comments_found + 1, r.comments_removed_chars + (2 + (rest.takeWhile notNL).length)⟩
  | .code, d, _, '/' :: '*' :: rest =>
      let r := clikeAux hash bt .code d false (blockEnd rest).2
      ⟨r.text, r.comments_found + 1, r.comments_removed_chars + (blockEnd rest).1⟩
  | .code, d, first, '#' :: rest =>
      if hash then
        if first ∧ rest.head? = some '!' then
          .consText ['#'] (clikeAux hash bt .code d false rest)
        else
          let r := clikeAux hash bt .code d false (rest.dropWhile notNL)
          ⟨r.text, r.comments_found + 1, r.comments_removed_chars + (1 + (rest.takeWhile notNL).length)⟩
      else .consText ['#'] (clikeAux hash bt .code d false rest)
  | .code, d, _, c :: rest => .consText [c] (clikeAux hash bt .code d false rest)
termination_by _ _ _ s => s.length
decreasing_by
  all_goals simp_wf
  all_goals (first
    | omega
    | (have h1 := length_dropWhile_le notNL rest
       have h2 := blockEnd_length_le rest
       omega))

/-- `strip_comments_c_like` from `comment_cleaner.py`. -/
def strip_comments_c_like (src : List Char) (treat_hash_as_line_comment : Bool := false)
    (support_backtick : Bool := false) : Result :=
  clikeAux treat_hash_as_line_comment support_backtick .code 0 true src

/-- Scanner state of `strip_comments_python`:
`state = 0 / IN_SGL / IN_DBL / IN_TSQ / IN_TDQ`. -/
inductive PMode | code | inSgl | inDbl | inTsq | inTdq
deriving DecidableEq, Repr

/-- The character loop of `strip_comments_python`; `first` records `i == 0`.
In code state the triple-quote checks precede the single-character quote
checks, then `#` (exempting `#!` at offset 0). -/
def pyAux : PMode → Bool → List Char → Result
  | _, _, [] => ⟨[], 0, 0⟩
  | .inSgl, _, '\\' :: c :: rest => .consText ['\\', c] (pyAux .inSgl false rest)
  | .inSgl, _, '\'' :: rest => .consText ['\''] (pyAux .code false rest)
  | .inSgl, _, c :: rest => .consText [c] (pyAux .inSgl false rest)
  | .inDbl, _, '\\' :: c :: rest => .consText ['\\', c] (pyAux .inDbl false rest)
  | .inDbl, _, '"' :: rest => .consText ['"'] (pyAux .code false rest)
  | .inDbl, _, c :: rest => .consText [c] (pyAux .inDbl false rest)
  | .inTsq, _, '\'' :: '\'' :: '\'' :: rest => .consText ['\'', '\'', '\''] (pyAux .code false rest)
  | .inTsq, _, c :: rest => .consText [c] (pyAux .inTsq false rest)
  | .inTdq, _, '"' :: '"' :: '"' :: rest => .consText ['"', '"', '"'] (pyAux .code false rest)
  | .inTdq, _, c :: rest => .consText [c] (pyAux .inTdq false rest)
  | .code, _, '\'' :: '\'' :: '\'' :: rest => .consText ['\'', '\'', '\''] (pyAux .inTsq false rest)
  | .code, _, '"' :: '"' :: '"' :: rest => .consText ['"', '"', '"'] (pyAux .inTdq false rest)
  | .code, _, '\'' :: rest => .consText ['\''] (pyAux .inSgl false rest)
  | .code, _, '"' :: rest => .consText ['"'] (pyAux .inDbl false rest)
  | .code, first, '#' :: rest =>
      if first ∧ rest.head? = some '!' then
        .consText ['#'] (pyAux .code false rest)
      else
        let r := pyAux .code false (rest.dropWhile notNL)
        ⟨r.text, r.comments_found + 1, r.comments_removed_chars + (1 + (rest.takeWhile notNL).length)⟩
  | .code, _, c :: rest => .consText [c] (pyAux .code false rest)
termination_by _ _ s => s.length
decreasing_by
  all_goals simp_wf
  all_goals (first
    | omega
    | (have h1 := length_dropWhile_le notNL rest; omega))

/-- `strip_comments_python` from `comment_cleaner.py`. -/
def strip_comments_python (src : List Char) : Result :=
  pyAux .code true src

/-- Scanner state of `strip_comments_sql`: `state = 0 / IN_SGL / IN_DBL / IN_BKT`. -/
inductive SMode | code | inSgl | inDbl | inBkt
deriving DecidableEq, Repr

/-- The character loop of `strip_comments_sql`: `'`, `"` with escapes, backtick
as a plain quote without escapes, `/* */` blocks and `--` line comments. -/
def sqlAux : SMode → List Char → Result
  | _, [] => ⟨[], 0, 0⟩
  | .inSgl, '\\' :: c :: rest => .consText ['\\', c] (sqlAux .inSgl rest)
  | .inSgl, '\'' :: rest => .consText ['\''] (sqlAux .code rest)
  | .inSgl, c :: rest => .consText [c] (sqlAux .inSgl rest)
  | .inDbl, '\\' :: c :: rest => .consText ['\\', c] (sqlAux .inDbl rest)
  | .inDbl, '"' :: rest => .consText ['"'] (sqlAux .code rest)
  | .inDbl, c :: rest => .consText [c] (sqlAux .inDbl rest)
  | .inBkt, '`' :: rest => .consText ['`'] (sqlAux .code rest)
  | .inBkt, c :: rest => .consText [c] (sqlAux .inBkt rest)
  | .code, '\'' :: rest => .consText ['\''] (sqlAux .inSgl rest)
  | .code, '"' :: rest => .consText ['"'] (sqlAux .inDbl rest)
  | .code, '`' :: rest => .consText ['`'] (sqlAux .inBkt rest)
  | .code, '/' :: '*' :: rest =>
      let r := sqlAux .code (blockEnd rest).2
      ⟨r.text, r.comments_found + 1, r.comments_removed_chars + (blockEnd rest).1⟩
  | .code, '-' :: '-' :: rest =>
      let r := sqlAux .code (rest.dropWhile notNL)
      ⟨r.text, r.comments_found + 1, r.comments_removed_chars + (2 + (rest.takeWhile notNL).length)⟩
  | .code, c :: rest => .consText [c] (sqlAux .code rest)
termination_by _ s => s.length
decreasing_by
  all_goals simp_wf
  all_goals (first
    | omega
    | (have h1 := length_dropWhile_le notNL rest
       have h2 := blockEnd_length_le rest
       omega))

/-- `strip_comments_sql` from `comment_cleaner.py`. -/
def strip_comments_sql (src : List Char) : Result :=
  sqlAux .code src

/-- Index of the first `-->` occurrence, mirroring the lazy `[\s\S]*?-->` of the
HTML comment pattern. -/
def findArrow : List Char → Option Nat
  | '-' :: '-' :: '>' :: _ => some 0
  | _ :: rest => (findArrow rest).map (· + 1)
  | [] => none

/-- `strip_comments_html` from `comment_cleaner.py`: repeated leftmost shortest
replacement of `<!--[\s\S]*?-->` by the empty string (an opener with no later
closer matches nothing and is copied through). -/
def strip_comments_html (src : List Char) : Result :=
  match src with
  | '<' :: '!' :: '-' :: '-' :: rest =>
      match findArrow rest with
      | some k =>
          let r := strip_comments_html (rest.drop (k + 3))
          ⟨r.text, r.comments_found + 1, r.comments_removed_chars + (4 + k + 3)⟩
      | none => .consText ['<'] (strip_comments_html ('!' :: '-' :: '-' :: rest))
  | c :: rest => .consText [c] (strip_comments_html rest)
  | [] => ⟨[], 0, 0⟩
termination_by src.length
decreasing_by
  all_goals simp_wf
  all_goals (try simp [List.length_drop])
  all_goals omega

/-- Whitespace accepted by the `[ \t]*` parts of the Ruby block-comment pattern. -/
def isWS (c : Char) : Bool := c == ' ' || c == '\t'

/-- Not a line feed; `^` in a Python multiline pattern matches only just after `\n`. -/
def notLF (c : Char) : Bool := !(c == '\n')

/-- Try to match `[ \t]*=end[ \t]*\r?\n?` at the current position.  Returns the
number of characters consumed and whether the match ended just after a `\n`
(so the continuation is at a line start). -/
def tryRubyEnd (s : List Char) : Option (Nat × Bool) :=
  let w := s.takeWhile isWS
  match s.dropWhile isWS with
  | '=' :: 'e' :: 'n' :: 'd' :: u =>
      let w2 := u.takeWhile isWS
      match u.dropWhile isWS with
      | '\r' :: '\n' :: _ => some (w.length + 4 + w2.length + 2, true)
      | '\r' :: _ => some (w.length + 4 + w2.length + 1, false)
      | '\n' :: _ => some (w.length + 4 + w2.length + 1, true)
      | _ => some (w.length + 4 + w2.length, false)
  | _ => none

/-- Scan for the earliest line start (position just after a `\n`) at which
`[ \t]*=end[ \t]*\r?\n?` matches; the lazy `[\s\S]*?` of the Ruby block pattern.
Returns the total number of characters consumed from here through the end of
the closer match. -/
def findRubyEnd : List Char → Option (Nat × Bool)
  | [] => none
  | '\n' :: rest =>
      match tryRubyEnd rest with
      | some (k, b) => some (1 + k, b)
      | none => (findRubyEnd rest).map (fun p => (1 + p.1, p.2))
  | _ :: rest => (findRubyEnd rest).map (fun p => (1 + p.1, p.2))

theorem findRubyEnd_pos (s : List Char) (k : Nat) (b : Bool)
    (h : findRubyEnd s = some (k, b)) : 0 < k := by
  unfold findRubyEnd at h
  split at h
  · exact absurd h (by simp)
  · split at h
    · simp at h; omega
    · simp only [Option.map_eq_some'] at h
      obtain ⟨p, hp, hpe⟩ := h
      have : k = 1 + p.1 := by
        have := congrArg Prod.fst hpe
        simpa using this.symm
      omega
  · simp only [Option.map_eq_some'] at h
    obtain ⟨p, hp, hpe⟩ := h
    have : k = 1 + p.1 := by
      have := congrArg Prod.fst hpe
      simpa using this.symm
    omega

/-- The Ruby block-comment pass: the global substitution
`re.sub(r"(?m)^[ \t]*=begin[\s\S]*?^[ \t]*=end[ \t]*\r?\n?", "", src)`,
processed line start by line start.  At each line start, a match begins iff
`[ \t]*=begin` matches here and a closer exists at some later line start;
otherwise the line is copied and scanning resumes at the next line start. -/
def rubyBlockAux : List Char → Result
  | [] => ⟨[], 0, 0⟩
  | s@(c0 :: rest0) =>
    let w := s.takeWhile isWS
    let t := s.dropWhile isWS
    if hb : t.take 6 = ['=', 'b', 'e', 'g', 'i', 'n'] then
      match findRubyEnd (t.drop 6) with
      | some (k, atLS) =>
        let v := (t.drop 6).drop k
        if atLS then
          let r := rubyBlockAux v
          ⟨r.text, r.comments_found + 1, r.comments_removed_chars + (w.length + 6 + k)⟩
        else
          let body := v.takeWhile notLF
          match h2 : v.dropWhile notLF with
          | '\n' :: r2 =>
            let r := rubyBlockAux r2
            ⟨body ++ '\n' :: r.text, r.comments_found + 1,
              r.comments_removed_chars + (w.length + 6 + k)⟩
          | _ => ⟨body, 1, w.length + 6 + k⟩
      | none =>
        let body := s.takeWhile notLF
        match h3 : s.dropWhile notLF with
        | '\n' :: r3 => .consText (body ++ ['\n']) (rubyBlockAux r3)
        | _ => ⟨body, 0, 0⟩
    else
      let body := s.takeWhile notLF
      match h4 : s.dropWhile notLF with
      | '\n' :: r4 => .consText (body ++ ['\n']) (rubyBlockAux r4)
      | _ => ⟨body, 0, 0⟩
termination_by s => s.length
decreasing_by
  all_goals simp_wf
  all_goals (have hs : s.length = rest0.length + 1 := by rw [‹s = c0 :: rest0›]; simp)
  · have h6 : t.length ≥ 6 := by
      have := congrArg List.length hb
      simp [List.length_take] at this
      omega
    have hts : t.length ≤ s.length := length_dropWhile_le isWS s
    have hteq : t.length = (List.dropWhile isWS s).length := rfl
    omega
  · have h6 : t.length ≥ 6 := by
      have := congrArg List.length hb
      simp [List.length_take] at this
      omega
    have hts : t.length ≤ s.length := length_dropWhile_le isWS s
    have hteq : t.length = (List.dropWhile isWS s).length := rfl
    have hdw : (v.dropWhile notLF).length ≤ v.length := length_dropWhile_le notLF v
    have hv : v.length = t.length - 6 - k := by
      show ((t.drop 6).drop k).length = t.length - 6 - k
      simp
      omega
    rw [h2] at hdw
    simp at hdw
    omega
  · have hdw : (s.dropWhile notLF).length ≤ s.length := length_dropWhile_le notLF s
    rw [h3] at hdw
    simp at hdw
    omega
  · have hdw : (s.dropWhile notLF).length ≤ s.length := length_dropWhile_le notLF s
    rw [h4] at hdw
    simp at hdw
    omega

/-- Shared quote-tracking state for the Ruby line scan and the INI/TOML/YAML
per-line cut scan: `state = 0 / IN_SGL / IN_DBL`. -/
inductive QMode | code | inSgl | inDbl
deriving DecidableEq, Repr

/-- The `#` line-comment scan of `strip_comments_ruby`, run on the output of the
block pass (no shebang exemption here). -/
def rubyLineAux : QMode → List Char → Result
  | _, [] => ⟨[], 0, 0⟩
  | .inSgl, '\\' :: c :: rest => .consText ['\\', c] (rubyLineAux .inSgl rest)
  | .inSgl, '\'' :: rest => .consText ['\''] (rubyLineAux .code rest)
  | .inSgl, c :: rest => .consText [c] (rubyLineAux .inSgl rest)
  | .inDbl, '\\' :: c :: rest => .consText ['\\', c] (rubyLineAux .inDbl rest)
  | .inDbl, '"' :: rest => .consText ['"'] (rubyLineAux .code rest)
  | .inDbl, c :: rest => .consText [c] (rubyLineAux .inDbl rest)
  | .code, '\'' :: rest => .consText ['\''] (rubyLineAux .inSgl rest)
  | .code, '"' :: rest => .consText ['"'] (rubyLineAux .inDbl rest)
  | .code, '#' :: rest =>
      let r := rubyLineAux .code (rest.dropWhile notNL)
      ⟨r.text, r.comments_found + 1, r.comments_removed_chars + (1 + (rest.takeWhile notNL).length)⟩
  | .code, c :: rest => .consText [c] (rubyLineAux .code rest)
termination_by _ s => s.length
decreasing_by
  all_goals simp_wf
  all_goals (first
    | omega
    | (have h1 := length_dropWhile_le notNL rest; omega))

/-- `strip_comments_ruby` from `comment_cleaner.py`: block pass, then line scan;
the counters of the two passes are added. -/
def strip_comments_ruby (src : List Char) : Result :=
  let b := rubyBlockAux src
  let l := rubyLineAux .code b.text
  ⟨l.text, b.comments_found + l.comments_found,
    b.comments_removed_chars + l.comments_removed_chars⟩

/-- Line-break characters recognized by Python `str.splitlines`. -/
def isLineBreakChar (c : Char) : Bool :=
  c == '\n' || c == '\r' || c == '\x0b' || c == '\x0c' ||
  c == '\x1c' || c == '\x1d' || c == '\x1e' || c == '\x85' ||
  c == ' ' || c == ' '

/-- `src.splitlines(True)`: split into lines, keeping the terminators
(`\r\n` counts as a single terminator). -/
def splitLinesKeep : List Char → List (List Char)
  | [] => []
  | s@(c0 :: rest0) =>
    let body := s.takeWhile (fun c => !isLineBreakChar c)
    match h : s.dropWhile (fun c => !isLineBreakChar c) with
    | '\r' :: '\n' :: r => (body ++ ['\r', '\n']) :: splitLinesKeep r
    | c :: r => (body ++ [c]) :: splitLinesKeep r
    | [] => [s]
termination_by s => s.length
decreasing_by
  all_goals simp_wf
  all_goals (have hs : s.length = rest0.length + 1 := by rw [‹s = c0 :: rest0›]; simp)
  all_goals (have hdw : (s.dropWhile (fun c => !isLineBreakChar c)).length ≤ s.length :=
    length_dropWhile_le _ s)
  · rw [h] at hdw; simp at hdw; omega
  · rw [h] at hdw; simp at hdw; omega

/-- Whitespace stripped by Python `str.rstrip()`. -/
def isPySpace (c : Char) : Bool :=
  c == ' ' || c == '\t' || c == '\n' || c == '\r' || c == '\x0b' || c == '\x0c' ||
  c == '\x1c' || c == '\x1d' || c == '\x1e' || c == '\x85' || c == '\xa0' ||
  c == ' ' || (0x2000 ≤ c.toNat && c.toNat ≤ 0x200a) ||
  c == ' ' || c == ' ' || c == ' ' || c == ' ' || c == '　'

/-- `l.rstrip()`. -/
def rstripPy (l : List Char) : List Char :=
  (l.reverse.dropWhile isPySpace).reverse

/-- The per-line cut finder of `strip_comments_hash_and_semicolon`: index of the
first unquoted `#` (or `;` when allowed), if any; quoted strings track `'` and
`"` with backslash escapes. -/
def iniCut (semi : Bool) : QMode → List Char → Option Nat
  | _, [] => none
  | .inSgl, '\\' :: _ :: rest => (iniCut semi .inSgl rest).map (· + 2)
  | .inSgl, '\'' :: rest => (iniCut semi .code rest).map (· + 1)
  | .inSgl, _ :: rest => (iniCut semi .inSgl rest).map (· + 1)
  | .inDbl, '\\' :: _ :: rest => (iniCut semi .inDbl rest).map (· + 2)
  | .inDbl, '"' :: rest => (iniCut semi .code rest).map (· + 1)
  | .inDbl, _ :: rest => (iniCut semi .inDbl rest).map (· + 1)
  | .code, '\'' :: rest => (iniCut semi .inSgl rest).map (· + 1)
  | .code, '"' :: rest => (iniCut semi .inDbl rest).map (· + 1)
  | .code, '#' :: _ => some 0
  | .code, ';' :: rest =>
      if semi then some 0 else (iniCut semi .code rest).map (· + 1)
  | .code, _ :: rest => (iniCut semi .code rest).map (· + 1)

/-- Processing of one kept-terminator line by `strip_comments_hash_and_semicolon`:
`out_lines.append(line[:cut].rstrip() + ("\n" if line.endswith("\n") else ""))`,
`removed += len(line) - cut`. -/
def iniLine (semi : Bool) (line : List Char) : Result :=
  match iniCut semi .code line with
  | none => ⟨line, 0, 0⟩
  | some cut =>
      ⟨rstripPy (line.take cut) ++ (if line.getLast? = some '\n' then ['\n'] else []),
        1, line.length - cut⟩

/-- `strip_comments_hash_and_semicolon` from `comment_cleaner.py`. -/
def strip_comments_hash_and_semicolon (src : List Char)
    (allow_semicolon : Bool := true) : Result :=
  (splitLinesKeep src).foldr
    (fun line acc =>
      let r := iniLine allow_semicolon line
      ⟨r.text ++ acc.text, r.comments_found + acc.comments_found,
        r.comments_removed_chars + acc.comments_removed_chars⟩)
    ⟨[], 0, 0⟩

/-- `lang.lower()` (the language identifiers are ASCII). -/
def lowerStr (s : String) : String := ⟨s.data.map Char.toLower⟩

/-- The dispatcher `strip_comments(src, lang)` from `comment_cleaner.py`. -/
def strip_comments (src : List Char) (lang : String) : Result :=
  let l := lowerStr lang
  if l ∈ (["c", "cpp", "csharp", "java", "css", "rust", "go", "jsonc", "php"] : List String) then
    strip_comments_c_like src (l == "php") false
  else if l ∈ (["js", "ts"] : List String) then
    strip_comments_c_like src false true
  else if l = "python" then strip_comments_python src
  else if l = "sql" then strip_comments_sql src
  else if l ∈ (["html", "xml"] : List String) then strip_comments_html src
  else if l = "ruby" then strip_comments_ruby src
  else if l = "bash" then strip_comments_c_like src true false
  else if l = "yaml" then strip_comments_hash_and_semicolon src false
  else if l ∈ (["toml", "ini"] : List String) then strip_comments_hash_and_semicolon src true
  else strip_comments_c_like src false false

/-! ## String-mode passthrough lemmas

In every quote state each scanner copies the characters of the literal
verbatim, counts nothing, and leaves the state on the closing delimiter. -/

theorem clike_sglPass (hash bt : Bool) (d : Nat) (lit rest : List Char)
    (hq : '\'' ∉ lit) (he : '\\' ∉ lit) :
    clikeAux hash bt .inStrSgl d false (lit ++ '\'' :: rest) =
      .consText (lit ++ ['\'']) (clikeAux hash bt .code d false rest) := by
  induction lit with
  | nil => simp [clikeAux]
  | cons c cs ih =>
    have hc1 : c ≠ '\'' := fun h => hq (h ▸ List.mem_cons_self c cs)
    have hc2 : c ≠ '\\' := fun h => he (h ▸ List.mem_cons_self c cs)
    have hq' : '\'' ∉ cs := fun h => hq (List.mem_cons_of_mem c h)
    have he' : '\\' ∉ cs := fun h => he (List.mem_cons_of_mem c h)
    rw [List.cons_append]
    rw [clikeAux]
    · rw [ih hq' he']
      simp [Result.consText]
    · exact fun c1 r1 hc _ => hc2 hc
    · exact fun hc => hc1 hc

theorem clike_dblPass (hash bt : Bool) (d : Nat) (lit rest : List Char)
    (hq : '"' ∉ lit) (he : '\\' ∉ lit) :
    clikeAux hash bt .inStrDbl d false (lit ++ '"' :: rest) =
      .consText (lit ++ ['"']) (clikeAux hash bt .code d false rest) := by
  induction lit with
  | nil => simp [clikeAux]
  | cons c cs ih =>
    have hc1 : c ≠ '"' := fun h => hq (h ▸ List.mem_cons_self c cs)
    have hc2 : c ≠ '\\' := fun h => he (h ▸ List.mem_cons_self c cs)
    have hq' : '"' ∉ cs := fun h => hq (List.mem_cons_of_mem c h)
    have he' : '\\' ∉ cs := fun h => he (List.mem_cons_of_mem c h)
    rw [List.cons_append]
    rw [clikeAux]
    · rw [ih hq' he']
      simp [Result.consText]
    · exact fun c1 r1 hc _ => hc2 hc
    · exact fun hc => hc1 hc

theorem consText_peel (a : Char) (l : List Char) (r1 r2 : Result)
    (h : Result.consText [a] r1 = Result.consText (a :: l) r2) :
    r1 = Result.consText l r2 := by
  obtain ⟨t1, c1, m1⟩ := r1
  obtain ⟨t2, c2, m2⟩ := r2
  simp [Result.consText] at h ⊢
  exact h

/-- In template state all characters are copied verbatim; only the brace depth
evolves.  Nothing is removed and nothing is counted. -/
theorem clike_tmplCopy (hash bt : Bool) (lit : List Char) : ∀ (d : Nat) (rest : List Char),
    '`' ∉ lit → '\\' ∉ lit → rest.head? ≠ some '{' →
    ∃ d2, clikeAux hash bt .inTemplate d false (lit ++ rest) =
      .consText lit (clikeAux hash bt .inTemplate d2 false rest) := by
  induction lit with
  | nil => exact fun d rest _ _ _ => ⟨d, by simp [Result.consText]⟩
  | cons c cs ih =>
    intro d rest hbq he hnb
    have hcq : c ≠ '`' := fun h => hbq (h ▸ List.mem_cons_self c cs)
    have hce : c ≠ '\\' := fun h => he (h ▸ List.mem_cons_self c cs)
    have hbq' : '`' ∉ cs := fun h => hbq (List.mem_cons_of_mem c h)
    have he' : '\\' ∉ cs := fun h => he (List.mem_cons_of_mem c h)
    by_cases hcd : c = '$'
    · subst hcd
      cases cs with
      | nil =>
        -- boundary: `$` followed directly by `rest`, whose head is not `{`
        refine ⟨d, ?_⟩
        rw [List.cons_append, List.nil_append, clikeAux]
        · simp
        all_goals (intros; simp_all)
      | cons c2 cs2 =>
        by_cases hc2 : c2 = '{'
        · subst hc2
          obtain ⟨d2, h2⟩ := ih (d + 1) rest hbq' he' hnb
          -- `ih` talks about `'{' :: cs2`; peel the leading `{` off both sides
          rw [List.cons_append, clikeAux] at h2
          case _ => have h3 := consText_peel '{' cs2 _ _ h2
                    refine ⟨d2, ?_⟩
                    rw [List.cons_append, List.cons_append, clikeAux, h3]
                    · simp [Result.consText]
                    all_goals (intros; simp_all)
          all_goals (intros; simp_all)
        · -- `$` not followed by `{`: plain copy
          obtain ⟨d2, h2⟩ := ih d rest hbq' he' hnb
          refine ⟨d2, ?_⟩
          rw [List.cons_append, clikeAux]
          · rw [h2]; simp [Result.consText]
          all_goals (intros; simp_all)
    · by_cases hcr : c = '}'
      · subst hcr
        obtain ⟨d2, h2⟩ := ih (if 0 < d then d - 1 else d) rest hbq' he' hnb
        refine ⟨d2, ?_⟩
        rw [List.cons_append, clikeAux]
        · rw [h2]; simp [Result.consText]
        all_goals (intros; simp_all)
      · obtain ⟨d2, h2⟩ := ih d rest hbq' he' hnb
        refine ⟨d2, ?_⟩
        rw [List.cons_append, clikeAux]
        · rw [h2]; simp [Result.consText]
        all_goals (intros; simp_all)

/-- Outside template state, `template_brace_depth` has no influence on the scan:
it is only read in template state, and entering a template resets it to `0`. -/
theorem clike_depthIrrel (hash bt : Bool) (st : CMode) (d : Nat) (f : Bool) (s : List Char) :
    ∀ d2, st ≠ .inTemplate → clikeAux hash bt st d f s = clikeAux hash bt st d2 f s := by
  induction st, d, f, s using clikeAux.induct hash bt
  · intro d2 hst; rw [clikeAux, clikeAux]
  · rename_i d x c rest ih
    intro d2 hst
    rw [clikeAux, clikeAux, ih d2 hst]
  · rename_i d x rest ih
    intro d2 hst
    rw [clikeAux, clikeAux, ih d2 (by decide)]
  · rename_i d x c rest hne1 hne2 ih
    intro d2 hst
    rw [clikeAux, clikeAux, ih d2 hst]
    all_goals assumption
  · rename_i d x c rest ih
    intro d2 hst
    rw [clikeAux, clikeAux, ih d2 hst]
  · rename_i d x rest ih
    intro d2 hst
    rw [clikeAux, clikeAux, ih d2 (by decide)]
  · rename_i d x c rest hne1 hne2 ih
    intro d2 hst
    rw [clikeAux, clikeAux, ih d2 hst]
    all_goals assumption
  · intro d2 hst; exact absurd rfl hst
  · intro d2 hst; exact absurd rfl hst
  · intro d2 hst; exact absurd rfl hst
  · intro d2 hst; exact absurd rfl hst
  · intro d2 hst; exact absurd rfl hst
  · rename_i d x rest hbt ih
    intro d2 hst
    rw [clikeAux, clikeAux, if_pos hbt, if_pos hbt, ih d2 (by decide)]
  · rename_i d x rest hbt ih
    intro d2 hst
    rw [clikeAux, clikeAux, if_neg hbt, if_neg hbt, ih d2 (by decide)]
  · rename_i d x rest ih
    intro d2 hst
    rw [clikeAux, clikeAux, ih d2 (by decide)]
  · rename_i d x rest hbt ih
    intro d2 hst
    rw [clikeAux, clikeAux, if_pos hbt, if_pos hbt]
  · rename_i d x rest hbt ih
    intro d2 hst
    rw [clikeAux, clikeAux, if_neg hbt, if_neg hbt, ih d2 (by decide)]
  · rename_i d x rest ih
    intro d2 hst
    rw [clikeAux, clikeAux, ih d2 (by decide)]
  · rename_i d x rest ih
    intro d2 hst
    rw [clikeAux, clikeAux, ih d2 (by decide)]
  · rename_i d first rest hhash hcond ih
    intro d2 hst
    rw [clikeAux, clikeAux, if_pos hhash, if_pos hhash, if_pos hcond, if_pos hcond,
      ih d2 (by decide)]
  · rename_i d first rest hhash hcond ih
    intro d2 hst
    rw [clikeAux, clikeAux, if_pos hhash, if_pos hhash, if_neg hcond, if_neg hcond,
      ih d2 (by decide)]
  · rename_i d first rest hhash ih
    intro d2 hst
    rw [clikeAux, clikeAux, if_neg hhash, if_neg hhash, ih d2 (by decide)]
  · rename_i d x c rest hne1 hne2 hne3 hne4 hne5 hne6 ih
    intro d2 hst
    rw [clikeAux, clikeAux, ih d2 (by decide)]
    all_goals assumption

theorem py_sglPass (lit rest : List Char)
    (hq : '\'' ∉ lit) (he : '\\' ∉ lit) :
    pyAux .inSgl false (lit ++ '\'' :: rest) =
      .consText (lit ++ ['\'']) (pyAux .code false rest) := by
  induction lit with
  | nil => simp [pyAux]
  | cons c cs ih =>
    have hc1 : c ≠ '\'' := fun h => hq (h ▸ List.mem_cons_self c cs)
    have hc2 : c ≠ '\\' := fun h => he (h ▸ List.mem_cons_self c cs)
    have hq' : '\'' ∉ cs := fun h => hq (List.mem_cons_of_mem c h)
    have he' : '\\' ∉ cs := fun h => he (List.mem_cons_of_mem c h)
    rw [List.cons_append, pyAux]
    · rw [ih hq' he']
      simp [Result.consText]
    all_goals (intros; simp_all)

theorem py_dblPass (lit rest : List Char)
    (hq : '"' ∉ lit) (he : '\\' ∉ lit) :
    pyAux .inDbl false (lit ++ '"' :: rest) =
      .consText (lit ++ ['"']) (pyAux .code false rest) := by
  induction lit with
  | nil => simp [pyAux]
  | cons c cs ih =>
    have hc1 : c ≠ '"' := fun h => hq (h ▸ List.mem_cons_self c cs)
    have hc2 : c ≠ '\\' := fun h => he (h ▸ List.mem_cons_self c cs)
    have hq' : '"' ∉ cs := fun h => hq (List.mem_cons_of_mem c h)
    have he' : '\\' ∉ cs := fun h => he (List.mem_cons_of_mem c h)
    rw [List.cons_append, pyAux]
    · rw [ih hq' he']
      simp [Result.consText]
    all_goals (intros; simp_all)

/-- Whether three consecutive copies of `q` occur somewhere in the list. -/
def hasRun3 (q : Char) : List Char → Bool
  | a :: b :: c :: r => (a == q && b == q && c == q) || hasRun3 q (b :: c :: r)
  | _ => false

theorem hasRun3_tail (q c : Char) (cs : List Char)
    (h : hasRun3 q (c :: cs) = false) : hasRun3 q cs = false := by
  match cs with
  | [] => rfl
  | [c2] => rfl
  | c2 :: c3 :: r =>
    rw [hasRun3] at h
    simp at h
    exact h.2

theorem py_tsqPass (lit : List Char) : ∀ (rest : List Char),
    hasRun3 '\'' lit = false → lit.getLast? ≠ some '\'' →
    pyAux .inTsq false (lit ++ '\'' :: '\'' :: '\'' :: rest) =
      .consText (lit ++ ['\'', '\'', '\'']) (pyAux .code false rest) := by
  induction lit with
  | nil => intro rest _ _; rw [List.nil_append, pyAux]; simp
  | cons c cs ih =>
    intro rest h3 hlast
    have h3' : hasRun3 '\'' cs = false := hasRun3_tail _ _ _ h3
    by_cases hc : c = '\''
    · subst hc
      cases cs with
      | nil => simp at hlast
      | cons c2 cs2 =>
        have hlast' : (c2 :: cs2).getLast? ≠ some '\'' := by
          rwa [List.getLast?_cons_cons] at hlast
        by_cases hc2 : c2 = '\''
        · subst hc2
          cases cs2 with
          | nil => simp at hlast
          | cons c3 cs3 =>
            have hc3 : c3 ≠ '\'' := by
              intro h
              subst h
              simp [hasRun3] at h3
            rw [List.cons_append, pyAux]
            · rw [ih rest h3' hlast']
              simp [Result.consText]
            all_goals (intros; simp_all)
        · rw [List.cons_append, pyAux]
          · rw [ih rest h3' hlast']
            simp [Result.consText]
          all_goals (intros; simp_all)
    · have hlast2 : cs.getLast? ≠ some '\'' := by
        cases cs with
        | nil => simp
        | cons a b => rwa [List.getLast?_cons_cons] at hlast
      rw [List.cons_append, pyAux]
      · rw [ih rest h3' hlast2]
        simp [Result.consText]
      all_goals (intros; simp_all)

theorem py_tdqPass (lit : List Char) : ∀ (rest : List Char),
    hasRun3 '"' lit = false → lit.getLast? ≠ some '"' →
    pyAux .inTdq false (lit ++ '"' :: '"' :: '"' :: rest) =
      .consText (lit ++ ['"', '"', '"']) (pyAux .code false rest) := by
  induction lit with
  | nil => intro rest _ _; rw [List.nil_append, pyAux]; simp
  | cons c cs ih =>
    intro rest h3 hlast
    have h3' : hasRun3 '"' cs = false := hasRun3_tail _ _ _ h3
    by_cases hc : c = '"'
    · subst hc
      cases cs with
      | nil => simp at hlast
      | cons c2 cs2 =>
        have hlast' : (c2 :: cs2).getLast? ≠ some '"' := by
          rwa [List.getLast?_cons_cons] at hlast
        by_cases hc2 : c2 = '"'
        · subst hc2
          cases cs2 with
          | nil => simp at hlast
          | cons c3 cs3 =>
            have hc3 : c3 ≠ '"' := by
              intro h
              subst h
              simp [hasRun3] at h3
            rw [List.cons_append, pyAux]
            · rw [ih rest h3' hlast']
              simp [Result.consText]
            all_goals (intros; simp_all)
        · rw [List.cons_append, pyAux]
          · rw [ih rest h3' hlast']
            simp [Result.consText]
          all_goals (intros; simp_all)
    · have hlast2 : cs.getLast? ≠ some '"' := by
        cases cs with
        | nil => simp
        | cons a b => rwa [List.getLast?_cons_cons] at hlast
      rw [List.cons_append, pyAux]
      · rw [ih rest h3' hlast2]
        simp [Result.consText]
      all_goals (intros; simp_all)

theorem sql_sglPass (lit rest : List Char)
    (hq : '\'' ∉ lit) (he : '\\' ∉ lit) :
    sqlAux .inSgl (lit ++ '\'' :: rest) =
      .consText (lit ++ ['\'']) (sqlAux .code rest) := by
  induction lit with
  | nil => simp [sqlAux]
  | cons c cs ih =>
    have hc1 : c ≠ '\'' := fun h => hq (h ▸ List.mem_cons_self c cs)
    have hc2 : c ≠ '\\' := fun h => he (h ▸ List.mem_cons_self c cs)
    have hq' : '\'' ∉ cs := fun h => hq (List.mem_cons_of_mem c h)
    have he' : '\\' ∉ cs := fun h => he (List.mem_cons_of_mem c h)
    rw [List.cons_append, sqlAux]
    · rw [ih hq' he']
      simp [Result.consText]
    all_goals (intros; simp_all)

theorem sql_dblPass (lit rest : List Char)
    (hq : '"' ∉ lit) (he : '\\' ∉ lit) :
    sqlAux .inDbl (lit ++ '"' :: rest) =
      .consText (lit ++ ['"']) (sqlAux .code rest) := by
  induction lit with
  | nil => simp [sqlAux]
  | cons c cs ih =>
    have hc1 : c ≠ '"' := fun h => hq (h ▸ List.mem_cons_self c cs)
    have hc2 : c ≠ '\\' := fun h => he (h ▸ List.mem_cons_self c cs)
    have hq' : '"' ∉ cs := fun h => hq (List.mem_cons_of_mem c h)
    have he' : '\\' ∉ cs := fun h => he (List.mem_cons_of_mem c h)
    rw [List.cons_append, sqlAux]
    · rw [ih hq' he']
      simp [Result.consText]
    all_goals (intros; simp_all)

/-- Backtick-quoted SQL strings have no escape handling at all: everything up
to the next backtick (including backslashes) is copied verbatim. -/
theorem sql_bktPass (lit rest : List Char) (hq : '`' ∉ lit) :
    sqlAux .inBkt (lit ++ '`' :: rest) =
      .consText (lit ++ ['`']) (sqlAux .code rest) := by
  induction lit with
  | nil => simp [sqlAux]
  | cons c cs ih =>
    have hc1 : c ≠ '`' := fun h => hq (h ▸ List.mem_cons_self c cs)
    have hq' : '`' ∉ cs := fun h => hq (List.mem_cons_of_mem c h)
    rw [List.cons_append, sqlAux]
    · rw [ih hq']
      simp [Result.consText]
    all_goals (intros; simp_all)

theorem ruby_sglPass (lit rest : List Char)
    (hq : '\'' ∉ lit) (he : '\\' ∉ lit) :
    rubyLineAux .inSgl (lit ++ '\'' :: rest) =
      .consText (lit ++ ['\'']) (rubyLineAux .code rest) := by
  induction lit with
  | nil => simp [rubyLineAux]
  | cons c cs ih =>
    have hc1 : c ≠ '\'' := fun h => hq (h ▸ List.mem_cons_self c cs)
    have hc2 : c ≠ '\\' := fun h => he (h ▸ List.mem_cons_self c cs)
    have hq' : '\'' ∉ cs := fun h => hq (List.mem_cons_of_mem c h)
    have he' : '\\' ∉ cs := fun h => he (List.mem_cons_of_mem c h)
    rw [List.cons_append, rubyLineAux]
    · rw [ih hq' he']
      simp [Result.consText]
    all_goals (intros; simp_all)

theorem ruby_dblPass (lit rest : List Char)
    (hq : '"' ∉ lit) (he : '\\' ∉ lit) :
    rubyLineAux .inDbl (lit ++ '"' :: rest) =
      .consText (lit ++ ['"']) (rubyLineAux .code rest) := by
  induction lit with
  | nil => simp [rubyLineAux]
  | cons c cs ih =>
    have hc1 : c ≠ '"' := fun h => hq (h ▸ List.mem_cons_self c cs)
    have hc2 : c ≠ '\\' := fun h => he (h ▸ List.mem_cons_self c cs)
    have hq' : '"' ∉ cs := fun h => hq (List.mem_cons_of_mem c h)
    have he' : '\\' ∉ cs := fun h => he (List.mem_cons_of_mem c h)
    rw [List.cons_append, rubyLineAux]
    · rw [ih hq' he']
      simp [Result.consText]
    all_goals (intros; simp_all)

theorem ini_sglPass (semi : Bool) (lit rest : List Char)
    (hq : '\'' ∉ lit) (he : '\\' ∉ lit) :
    iniCut semi .inSgl (lit ++ '\'' :: rest) =
      (iniCut semi .code rest).map (· + (lit.length + 1)) := by
  induction lit with
  | nil =>
    rw [List.nil_append, iniCut]
    simp
  | cons c cs ih =>
    have hc1 : c ≠ '\'' := fun h => hq (h ▸ List.mem_cons_self c cs)
    have hc2 : c ≠ '\\' := fun h => he (h ▸ List.mem_cons_self c cs)
    have hq' : '\'' ∉ cs := fun h => hq (List.mem_cons_of_mem c h)
    have he' : '\\' ∉ cs := fun h => he (List.mem_cons_of_mem c h)
    rw [List.cons_append, iniCut]
    · rw [ih hq' he']
      cases iniCut semi QMode.code rest <;> simp <;> omega
    all_goals (intros; simp_all)

theorem ini_dblPass (semi : Bool) (lit rest : List Char)
    (hq : '"' ∉ lit) (he : '\\' ∉ lit) :
    iniCut semi .inDbl (lit ++ '"' :: rest) =
      (iniCut semi .code rest).map (· + (lit.length + 1)) := by
  induction lit with
  | nil =>
    rw [List.nil_append, iniCut]
    simp
  | cons c cs ih =>
    have hc1 : c ≠ '"' := fun h => hq (h ▸ List.mem_cons_self c cs)
    have hc2 : c ≠ '\\' := fun h => he (h ▸ List.mem_cons_self c cs)
    have hq' : '"' ∉ cs := fun h => hq (List.mem_cons_of_mem c h)
    have he' : '\\' ∉ cs := fun h => he (List.mem_cons_of_mem c h)
    rw [List.cons_append, iniCut]
    · rw [ih hq' he']
      cases iniCut semi QMode.code rest <;> simp <;> omega
    all_goals (intros; simp_all)

/-! ## A scan that finds no comments is the identity -/

theorem clike_zero (hash bt : Bool) (st : CMode) (d : Nat) (f : Bool) (s : List Char) :
    (clikeAux hash bt st d f s).comments_found = 0 →
    clikeAux hash bt st d f s = ⟨s, 0, 0⟩ := by
  induction st, d, f, s using clikeAux.induct hash bt
  case case21 d first rest hhash hcond ih =>
    intro h
    rw [clikeAux, if_pos hhash, if_neg hcond] at h
    simp at h
  all_goals intro h
  all_goals simp_all [clikeAux, Result.consText]

theorem py_zero (st : PMode) (f : Bool) (s : List Char) :
    (pyAux st f s).comments_found = 0 → pyAux st f s = ⟨s, 0, 0⟩ := by
  induction st, f, s using pyAux.induct
  case case17 first rest hcond ih =>
    intro h
    rw [pyAux, if_neg hcond] at h
    simp at h
  all_goals intro h
  all_goals simp_all [pyAux, Result.consText]

theorem sql_zero (st : SMode) (s : List Char) :
    (sqlAux st s).comments_found = 0 → sqlAux st s = ⟨s, 0, 0⟩ := by
  induction st, s using sqlAux.induct
  all_goals intro h
  all_goals simp_all [sqlAux, Result.consText]

theorem rubyLine_zero (st : QMode) (s : List Char) :
    (rubyLineAux st s).comments_found = 0 → rubyLineAux st s = ⟨s, 0, 0⟩ := by
  induction st, s using rubyLineAux.induct
  all_goals intro h
  all_goals simp_all [rubyLineAux, Result.consText]

theorem html_zero (s : List Char) :
    (strip_comments_html s).comments_found = 0 → strip_comments_html s = ⟨s, 0, 0⟩ := by
  induction s using strip_comments_html.induct
  all_goals intro h
  all_goals rw [strip_comments_html] at h ⊢
  all_goals simp_all [Result.consText]

theorem dropWhile_head_false (p : Char → Bool) (l : List Char) (c : Char) (r : List Char)
    (h : l.dropWhile p = c :: r) : p c = false := by
  induction l with
  | nil => simp at h
  | cons a as ih =>
    by_cases hp : p a
    · rw [List.dropWhile_cons, if_pos hp] at h
      exact ih h
    · rw [List.dropWhile_cons, if_neg hp] at h
      obtain ⟨h1, h2⟩ := List.cons.inj h
      rw [← h1]
      exact Bool.of_not_eq_true hp

theorem takeWhile_of_dropWhile_nil (p : Char → Bool) (l : List Char)
    (h : l.dropWhile p = []) : l.takeWhile p = l := by
  have := List.takeWhile_append_dropWhile (p := p) (l := l)
  rw [h] at this
  simpa using this

theorem dropWhile_notLF_nil (l : List Char)
    (hne : ∀ r, l.dropWhile notLF = '\n' :: r → False) : l.dropWhile notLF = [] := by
  rcases hd : l.dropWhile notLF with _ | ⟨c, r⟩
  · rfl
  · have hc := dropWhile_head_false notLF l c r hd
    have : c = '\n' := by simpa [notLF] using hc
    subst this
    exact ((hne r hd).elim)

/-! Evaluation lemmas for the branches of `rubyBlockAux`. -/

theorem rubyBlockAux_beginLS (c0 : Char) (rest0 : List Char) (k : Nat)
    (hb : ((c0 :: rest0).dropWhile isWS).take 6 = ['=', 'b', 'e', 'g', 'i', 'n'])
    (hf : findRubyEnd (((c0 :: rest0).dropWhile isWS).drop 6) = some (k, true)) :
    rubyBlockAux (c0 :: rest0) =
      ⟨(rubyBlockAux ((((c0 :: rest0).dropWhile isWS).drop 6).drop k)).text,
        (rubyBlockAux ((((c0 :: rest0).dropWhile isWS).drop 6).drop k)).comments_found + 1,
        (rubyBlockAux ((((c0 :: rest0).dropWhile isWS).drop 6).drop k)).comments_removed_chars +
          (((c0 :: rest0).takeWhile isWS).length + 6 + k)⟩ := by
  conv_lhs => rw [rubyBlockAux.eq_def]
  simp only [dif_pos hb, hf, if_true]

theorem rubyBlockAux_beginMid (c0 : Char) (rest0 : List Char) (k : Nat) (r2 : List Char)
    (hb : ((c0 :: rest0).dropWhile isWS).take 6 = ['=', 'b', 'e', 'g', 'i', 'n'])
    (hf : findRubyEnd (((c0 :: rest0).dropWhile isWS).drop 6) = some (k, false))
    (h2 : ((((c0 :: rest0).dropWhile isWS).drop 6).drop k).dropWhile notLF = '\n' :: r2) :
    rubyBlockAux (c0 :: rest0) =
      ⟨((((c0 :: rest0).dropWhile isWS).drop 6).drop k).takeWhile notLF ++
          '\n' :: (rubyBlockAux r2).text,
        (rubyBlockAux r2).comments_found + 1,
        (rubyBlockAux r2).comments_removed_chars +
          (((c0 :: rest0).takeWhile isWS).length + 6 + k)⟩ := by
  conv_lhs => rw [rubyBlockAux.eq_def]
  simp only [dif_pos hb, hf, Bool.false_eq_true, if_false]
  split
  · rename_i r2' h2'
    rw [h2] at h2'
    obtain ⟨h3, h4⟩ := List.cons.inj h2'
    subst h4
    rfl
  · rename_i hx
    exact absurd h2 (hx r2)

theorem rubyBlockAux_beginMidEnd (c0 : Char) (rest0 : List Char) (k : Nat)
    (hb : ((c0 :: rest0).dropWhile isWS).take 6 = ['=', 'b', 'e', 'g', 'i', 'n'])
    (hf : findRubyEnd (((c0 :: rest0).dropWhile isWS).drop 6) = some (k, false))
    (h2 : ((((c0 :: rest0).dropWhile isWS).drop 6).drop k).dropWhile notLF = []) :
    rubyBlockAux (c0 :: rest0) =
      ⟨((((c0 :: rest0).dropWhile isWS).drop 6).drop k).takeWhile notLF, 1,
        ((c0 :: rest0).takeWhile isWS).length + 6 + k⟩ := by
  conv_lhs => rw [rubyBlockAux.eq_def]
  simp only [dif_pos hb, hf, Bool.false_eq_true, if_false]
  split
  · rename_i r2' h2'
    rw [h2] at h2'
    simp at h2'
  · rfl

theorem rubyBlockAux_copyLine (c0 : Char) (rest0 : List Char) (r3 : List Char)
    (hcase : ((c0 :: rest0).dropWhile isWS).take 6 ≠ ['=', 'b', 'e', 'g', 'i', 'n'] ∨
      findRubyEnd (((c0 :: rest0).dropWhile isWS).drop 6) = none)
    (h3 : (c0 :: rest0).dropWhile notLF = '\n' :: r3) :
    rubyBlockAux (c0 :: rest0) =
      .consText ((c0 :: rest0).takeWhile notLF ++ ['\n']) (rubyBlockAux r3) := by
  rcases hcase with hnb | hfn
  · conv_lhs => rw [rubyBlockAux.eq_def]
    simp only [dif_neg hnb]
    split
    · rename_i r' h'
      rw [h3] at h'
      obtain ⟨h4, h5⟩ := List.cons.inj h'
      subst h5
      rfl
    · rename_i hx
      exact absurd h3 (hx r3)
  · by_cases hb : ((c0 :: rest0).dropWhile isWS).take 6 = ['=', 'b', 'e', 'g', 'i', 'n']
    · conv_lhs => rw [rubyBlockAux.eq_def]
      simp only [dif_pos hb, hfn]
      split
      · rename_i r' h'
        rw [h3] at h'
        obtain ⟨h4, h5⟩ := List.cons.inj h'
        subst h5
        rfl
      · rename_i hx
        exact absurd h3 (hx r3)
    · conv_lhs => rw [rubyBlockAux.eq_def]
      simp only [dif_neg hb]
      split
      · rename_i r' h'
        rw [h3] at h'
        obtain ⟨h4, h5⟩ := List.cons.inj h'
        subst h5
        rfl
      · rename_i hx
        exact absurd h3 (hx r3)

theorem rubyBlockAux_lastLine (c0 : Char) (rest0 : List Char)
    (hcase : ((c0 :: rest0).dropWhile isWS).take 6 ≠ ['=', 'b', 'e', 'g', 'i', 'n'] ∨
      findRubyEnd (((c0 :: rest0).dropWhile isWS).drop 6) = none)
    (h3 : (c0 :: rest0).dropWhile notLF = []) :
    rubyBlockAux (c0 :: rest0) = ⟨c0 :: rest0, 0, 0⟩ := by
  have hbody : (c0 :: rest0).takeWhile notLF = c0 :: rest0 :=
    takeWhile_of_dropWhile_nil notLF _ h3
  rcases hcase with hnb | hfn
  · conv_lhs => rw [rubyBlockAux.eq_def]
    simp only [dif_neg hnb]
    split
    · rename_i r' h'
      rw [h3] at h'
      simp at h'
    · rw [hbody]
  · by_cases hb : ((c0 :: rest0).dropWhile isWS).take 6 = ['=', 'b', 'e', 'g', 'i', 'n']
    · conv_lhs => rw [rubyBlockAux.eq_def]
      simp only [dif_pos hb, hfn]
      split
      · rename_i r' h'
        rw [h3] at h'
        simp at h'
      · rw [hbody]
    · conv_lhs => rw [rubyBlockAux.eq_def]
      simp only [dif_neg hb]
      split
      · rename_i r' h'
        rw [h3] at h'
        simp at h'
      · rw [hbody]

theorem rubyBlock_zero (s : List Char) :
    (rubyBlockAux s).comments_found = 0 → rubyBlockAux s = ⟨s, 0, 0⟩ := by
  induction s using rubyBlockAux.induct
  case case1 => intro h; simp [rubyBlockAux]
  case case2 c0 rest0 t hb k v hf ih =>
    intro h
    rw [rubyBlockAux_beginLS c0 rest0 k hb hf] at h
    simp at h
  case case3 c0 rest0 t hb k b hf v hLS r2 h2 ih =>
    intro h
    have hb2 : b = false := by
      cases b
      · rfl
      · exact absurd rfl hLS
    subst hb2
    rw [rubyBlockAux_beginMid c0 rest0 k r2 hb hf h2] at h
    simp at h
  case case4 c0 rest0 t hb k b hf v hLS hne =>
    intro h
    have hb2 : b = false := by
      cases b
      · rfl
      · exact absurd rfl hLS
    subst hb2
    have h2 : ((((c0 :: rest0).dropWhile isWS).drop 6).drop k).dropWhile notLF = [] :=
      dropWhile_notLF_nil _ (fun r hr => hne r hr)
    rw [rubyBlockAux_beginMidEnd c0 rest0 k hb hf h2] at h
    simp at h
  case case5 c0 rest0 t hb hf r2 h2 ih =>
    intro h
    rw [rubyBlockAux_copyLine c0 rest0 r2 (Or.inr hf) h2] at h ⊢
    simp only [Result.consText_comments] at h
    rw [ih h]
    have hs : (c0 :: rest0).takeWhile notLF ++ '\n' :: r2 = c0 :: rest0 := by
      have := List.takeWhile_append_dropWhile (p := notLF) (l := c0 :: rest0)
      rw [h2] at this
      exact this
    simp [Result.consText, hs]
  case case6 c0 rest0 t hb hf hne =>
    intro h
    exact rubyBlockAux_lastLine c0 rest0 (Or.inr hf) (dropWhile_notLF_nil _ hne)
  case case7 c0 rest0 t hb r2 h2 ih =>
    intro h
    rw [rubyBlockAux_copyLine c0 rest0 r2 (Or.inl hb) h2] at h ⊢
    simp only [Result.consText_comments] at h
    rw [ih h]
    have hs : (c0 :: rest0).takeWhile notLF ++ '\n' :: r2 = c0 :: rest0 := by
      have := List.takeWhile_append_dropWhile (p := notLF) (l := c0 :: rest0)
      rw [h2] at this
      exact this
    simp [Result.consText, hs]
  case case8 c0 rest0 t hb hne =>
    intro h
    exact rubyBlockAux_lastLine c0 rest0 (Or.inl hb) (dropWhile_notLF_nil _ hne)

/-! Evaluation lemmas for `splitLinesKeep`, and the join property. -/

set_option maxHeartbeats 1000000 in
theorem splitLinesKeep_crlf (c0 : Char) (rest0 r : List Char)
    (h : (c0 :: rest0).dropWhile (fun c => !isLineBreakChar c) = '\r' :: '\n' :: r) :
    splitLinesKeep (c0 :: rest0) =
      ((c0 :: rest0).takeWhile (fun c => !isLineBreakChar c) ++ ['\r', '\n']) ::
        splitLinesKeep r := by
  conv_lhs => rw [splitLinesKeep.eq_def]
  split
  · rename_i heq
    exact absurd heq (by simp)
  · rename_i c1 r1 heq
    obtain ⟨e1, e2⟩ := List.cons.inj heq
    subst e1
    subst e2
    split
    · rename_i r2 heq2
      rw [h] at heq2
      obtain ⟨f1, f2⟩ := List.cons.inj heq2
      obtain ⟨f3, f4⟩ := List.cons.inj f2
      subst f4
      rfl
    · rename_i c2 r2 hdis heq2
      rw [h] at heq2
      obtain ⟨f1, f2⟩ := List.cons.inj heq2
      exact (hdis r f1.symm f2.symm).elim
    · rename_i heq2
      rw [h] at heq2
      simp at heq2

set_option maxHeartbeats 1000000 in
theorem splitLinesKeep_single (c0 : Char) (rest0 : List Char) (c : Char) (r : List Char)
    (h : (c0 :: rest0).dropWhile (fun c => !isLineBreakChar c) = c :: r)
    (hne : ∀ r2, c :: r ≠ '\r' :: '\n' :: r2) :
    splitLinesKeep (c0 :: rest0) =
      ((c0 :: rest0).takeWhile (fun c => !isLineBreakChar c) ++ [c]) :: splitLinesKeep r := by
  conv_lhs => rw [splitLinesKeep.eq_def]
  split
  · rename_i heq
    exact absurd heq (by simp)
  · rename_i c1 r1 heq
    obtain ⟨e1, e2⟩ := List.cons.inj heq
    subst e1
    subst e2
    split
    · rename_i r2 heq2
      rw [h] at heq2
      exact absurd heq2 (hne r2)
    · rename_i c2 r2 hdis heq2
      rw [h] at heq2
      obtain ⟨f1, f2⟩ := List.cons.inj heq2
      subst f1
      subst f2
      rfl
    · rename_i heq2
      rw [h] at heq2
      simp at heq2

set_option maxHeartbeats 1000000 in
theorem splitLinesKeep_last (c0 : Char) (rest0 : List Char)
    (h : (c0 :: rest0).dropWhile (fun c => !isLineBreakChar c) = []) :
    splitLinesKeep (c0 :: rest0) = [c0 :: rest0] := by
  conv_lhs => rw [splitLinesKeep.eq_def]
  split
  · rename_i heq
    exact absurd heq (by simp)
  · rename_i c1 r1 heq
    obtain ⟨e1, e2⟩ := List.cons.inj heq
    subst e1
    subst e2
    split
    · rename_i r2 heq2
      rw [h] at heq2
      simp at heq2
    · rename_i c2 r2 hdis heq2
      rw [h] at heq2
      simp at heq2
    · rfl

theorem splitLinesKeep_join (s : List Char) : (splitLinesKeep s).join = s := by
  induction s using splitLinesKeep.induct
  case case1 => simp [splitLinesKeep]
  case case2 c0 rest0 r h ih =>
    rw [splitLinesKeep_crlf c0 rest0 r h]
    have hs := List.takeWhile_append_dropWhile (p := fun c => !isLineBreakChar c)
      (l := c0 :: rest0)
    rw [h] at hs
    conv_rhs => rw [← hs]
    simp [ih]
  case case3 c0 rest0 c r hdis heq ih =>
    have hne : ∀ r2, c :: r ≠ '\r' :: '\n' :: r2 := by
      intro r2 hcc
      obtain ⟨a, b⟩ := List.cons.inj hcc
      exact hdis r2 a b
    rw [splitLinesKeep_single c0 rest0 c r heq hne]
    have hs := List.takeWhile_append_dropWhile (p := fun c => !isLineBreakChar c)
      (l := c0 :: rest0)
    rw [heq] at hs
    conv_rhs => rw [← hs]
    simp [ih]
  case case4 c0 rest0 h =>
    rw [splitLinesKeep_last c0 rest0 h]
    simp

theorem iniLine_zero (semi : Bool) (line : List Char) :
    (iniLine semi line).comments_found = 0 → iniLine semi line = ⟨line, 0, 0⟩ := by
  intro h
  unfold iniLine at h ⊢
  cases hc : iniCut semi .code line with
  | none => rfl
  | some cut => rw [hc] at h; simp at h

/-- The per-line fold of `strip_comments_hash_and_semicolon` as a plain recursion. -/
def iniFold (semi : Bool) : List (List Char) → Result
  | [] => ⟨[], 0, 0⟩
  | line :: L =>
      let r := iniLine semi line
      let acc := iniFold semi L
      ⟨r.text ++ acc.text, r.comments_found + acc.comments_found,
        r.comments_removed_chars + acc.comments_removed_chars⟩

theorem hashSemi_as_fold (semi : Bool) (src : List Char) :
    strip_comments_hash_and_semicolon src semi = iniFold semi (splitLinesKeep src) := by
  unfold strip_comments_hash_and_semicolon
  generalize splitLinesKeep src = L
  induction L with
  | nil => rfl
  | cons line L ih =>
    simp only [List.foldr_cons, iniFold]
    rw [← ih]

theorem iniFold_zero (semi : Bool) (L : List (List Char)) :
    (iniFold semi L).comments_found = 0 → iniFold semi L = ⟨L.join, 0, 0⟩ := by
  induction L with
  | nil => intro h; rfl
  | cons line L ih =>
    intro h
    rw [iniFold] at h ⊢
    simp only at h ⊢
    have h1 : (iniLine semi line).comments_found = 0 := by omega
    have h2 : (iniFold semi L).comments_found = 0 := by omega
    rw [iniLine_zero semi line h1, ih h2]
    simp

theorem ini_zero (semi : Bool) (src : List Char) :
    (strip_comments_hash_and_semicolon src semi).comments_found = 0 →
    strip_comments_hash_and_semicolon src semi = ⟨src, 0, 0⟩ := by
  rw [hashSemi_as_fold]
  intro h
  rw [iniFold_zero semi _ h, splitLinesKeep_join]

theorem ruby_zero (src : List Char) :
    (strip_comments_ruby src).comments_found = 0 → strip_comments_ruby src = ⟨src, 0, 0⟩ := by
  intro h
  unfold strip_comments_ruby at h ⊢
  simp only at h ⊢
  have hb : (rubyBlockAux src).comments_found = 0 := by omega
  have hl : (rubyLineAux .code (rubyBlockAux src).text).comments_found = 0 := by omega
  rw [rubyBlock_zero src hb] at hl ⊢
  rw [rubyLine_zero _ _ hl]
  simp [rubyBlock_zero src hb]

/-! ## Claim C9: triple-quote priority in the Python scanner -/

/-- C9: for the Python profile a triple-quote opener takes priority over a
single-character quote opener at the same position (the scanner checks `'''`
and `"""` before `'` and `"`), and on the input `s = '''# not a comment'''`
the scan returns the input unchanged with zero comments found. -/
theorem claim_C9 :
    (∀ (f : Bool) (rest : List Char), pyAux .code f ('\'' :: '\'' :: '\'' :: rest) =
      .consText ['\'', '\'', '\''] (pyAux .inTsq false rest)) ∧
    (∀ (f : Bool) (rest : List Char), pyAux .code f ('"' :: '"' :: '"' :: rest) =
      .consText ['"', '"', '"'] (pyAux .inTdq false rest)) ∧
    strip_comments "s = '''# not a comment'''".toList "python" =
      ⟨"s = '''# not a comment'''".toList, 0, 0⟩ := by
  refine ⟨fun f rest => by rw [pyAux], fun f rest => by rw [pyAux], ?_⟩
  have hl : lowerStr "python" = "python" := by decide
  have hs : "s = '''# not a comment'''".toList =
      ['s', ' ', '=', ' ', '\'', '\'', '\'', '#', ' ', 'n', 'o', 't', ' ', 'a', ' ',
       'c', 'o', 'm', 'm', 'e', 'n', 't', '\'', '\'', '\''] := rfl
  rw [hs]
  simp [strip_comments, hl, strip_comments_python, pyAux, Result.consText]

/-! ## Claim C6: the Bash profile is dispatched to the full C-like scanner -/

/-- C6: contrary to the specification (`only # line comments, no quote kinds
tracked`), the dispatcher sends `bash` to `strip_comments_c_like` with hash
comments enabled, so `//` and `/* */` are removed and counted, and `'`/`"`
strings are tracked; on `a // b` the scan removes `// b` and reports one
comment. -/
theorem claim_C6 :
    (∀ src : List Char, strip_comments src "bash" = strip_comments_c_like src true false) ∧
    strip_comments "a // b".toList "bash" = ⟨"a ".toList, 1, 4⟩ ∧
    strip_comments "x/*y*/z".toList "bash" = ⟨"xz".toList, 1, 5⟩ := by
  have hl : lowerStr "bash" = "bash" := by decide
  refine ⟨fun src => by simp [strip_comments, hl], ?_, ?_⟩
  · have hs : "a // b".toList = ['a', ' ', '/', '/', ' ', 'b'] := rfl
    rw [hs]
    simp [strip_comments, hl, strip_comments_c_like, clikeAux, blockEnd, findStarSlash,
      List.takeWhile, List.dropWhile, notNL, Result.consText]
  · have hs : "x/*y*/z".toList = ['x', '/', '*', 'y', '*', '/', 'z'] := rfl
    rw [hs]
    simp [strip_comments, hl, strip_comments_c_like, clikeAux, blockEnd, findStarSlash,
      List.takeWhile, List.dropWhile, notNL, Result.consText]

/-! ## Claim C10: a scan that finds no comments is the identity -/

set_option maxHeartbeats 2000000 in
/-- C10: for every language identifier and every input, if the scan reports
`commentsFound = 0` then the cleaned text equals the input and
`charactersRemoved = 0`. -/
theorem claim_C10 (src : List Char) (lang : String)
    (h : (strip_comments src lang).comments_found = 0) :
    (strip_comments src lang).text = src ∧
      (strip_comments src lang).comments_removed_chars = 0 := by
  have hz : strip_comments src lang = ⟨src, 0, 0⟩ := by
    simp only [strip_comments] at h ⊢
    split_ifs at h ⊢
    · exact clike_zero _ _ _ _ _ _ h
    · exact clike_zero _ _ _ _ _ _ h
    · exact py_zero _ _ _ h
    · exact sql_zero _ _ h
    · exact html_zero _ h
    · exact ruby_zero _ h
    · exact clike_zero _ _ _ _ _ _ h
    · exact ini_zero _ _ h
    · exact ini_zero _ _ h
    · exact clike_zero _ _ _ _ _ _ h
  rw [hz]
  exact ⟨rfl, rfl⟩

theorem claim_C10_witness :
    (strip_comments "int x;".toList "c").comments_found = 0 ∧
    ((strip_comments "int x;".toList "c").text = "int x;".toList ∧
      (strip_comments "int x;".toList "c").comments_removed_chars = 0) := by
  have hl : lowerStr "c" = "c" := by decide
  have hz : (strip_comments "int x;".toList "c").comments_found = 0 := by
    have hs : "int x;".toList = ['i', 'n', 't', ' ', 'x', ';'] := rfl
    rw [hs]
    simp [strip_comments, hl, strip_comments_c_like, clikeAux, Result.consText]
  exact ⟨hz, claim_C10 "int x;".toList "c" hz⟩

/-! ## Counterexamples -/

/-- C1 counterexample: for the JS/TS profile single quotes are not tracked at
all (the scanner only enters `IN_STR_SGL` when backtick support is off), so a
`//` inside a single-quoted string is removed and counted; and for Ruby the
`=begin`/`=end` regex pass runs before any string tracking, so a line-start
`=begin` block inside a double-quoted string is removed and counted. -/
theorem counterexample_C1 :
    ((strip_comments "x = 'a // b';".toList "js").text = "x = 'a ".toList ∧
      (strip_comments "x = 'a // b';".toList "js").comments_found = 1) ∧
    ((strip_comments "x = \"a\n=begin\nb\n=end\n\"\n".toList "ruby").text =
        "x = \"a\n\"\n".toList ∧
      (strip_comments "x = \"a\n=begin\nb\n=end\n\"\n".toList "ruby").comments_found = 1) := by
  constructor
  · have hl : lowerStr "js" = "js" := by decide
    have hs : "x = 'a // b';".toList =
        ['x', ' ', '=', ' ', '\'', 'a', ' ', '/', '/', ' ', 'b', '\'', ';'] := rfl
    rw [hs]
    constructor <;>
      simp [strip_comments, hl, strip_comments_c_like, clikeAux, List.takeWhile,
        List.dropWhile, notNL, Result.consText]
  · have hl : lowerStr "ruby" = "ruby" := by decide
    have hs : "x = \"a\n=begin\nb\n=end\n\"\n".toList =
        ['x', ' ', '=', ' ', '"', 'a', '\n', '=', 'b', 'e', 'g', 'i', 'n', '\n', 'b', '\n',
         '=', 'e', 'n', 'd', '\n', '"', '\n'] := rfl
    have hb1 : rubyBlockAux
        ['x', ' ', '=', ' ', '"', 'a', '\n', '=', 'b', 'e', 'g', 'i', 'n', '\n', 'b', '\n',
         '=', 'e', 'n', 'd', '\n', '"', '\n'] =
        ⟨['x', ' ', '=', ' ', '"', 'a', '\n', '"', '\n'], 1, 14⟩ := by
      rw [rubyBlockAux_copyLine _ _
        ['=', 'b', 'e', 'g', 'i', 'n', '\n', 'b', '\n', '=', 'e', 'n', 'd', '\n', '"', '\n']
        (Or.inl (by decide)) (by decide)]
      rw [rubyBlockAux_beginLS _ _ 8 (by decide) (by decide)]
      have hv : ((
        (['=', 'b', 'e', 'g', 'i', 'n', '\n', 'b', '\n', '=', 'e', 'n', 'd', '\n', '"',
          '\n'] : List Char).dropWhile isWS).drop 6).drop 8 = ['"', '\n'] := by decide
      rw [hv]
      rw [rubyBlockAux_copyLine _ _ [] (Or.inl (by decide)) (by decide)]
      simp [rubyBlockAux, Result.consText]
      decide
    rw [hs]
    have hrb : strip_comments
        ['x', ' ', '=', ' ', '"', 'a', '\n', '=', 'b', 'e', 'g', 'i', 'n', '\n', 'b', '\n',
         '=', 'e', 'n', 'd', '\n', '"', '\n'] "ruby" =
        strip_comments_ruby
        ['x', ' ', '=', ' ', '"', 'a', '\n', '=', 'b', 'e', 'g', 'i', 'n', '\n', 'b', '\n',
         '=', 'e', 'n', 'd', '\n', '"', '\n'] := by
      simp [strip_comments, hl]
    rw [hrb]
    unfold strip_comments_ruby
    rw [hb1]
    constructor <;>
      simp [rubyLineAux, List.takeWhile, List.dropWhile, notNL, Result.consText, ruby_dblPass]

/-- C2 counterexample: inside a `${...}` interpolation the JS/TS scanner stays
in template mode and copies everything verbatim, so a `//` comment inside the
interpolated expression is neither removed nor counted. -/
theorem counterexample_C2 :
    (strip_comments "`${//x}`".toList "js").text = "`${//x}`".toList ∧
    (strip_comments "`${//x}`".toList "js").comments_found = 0 := by
  have hl : lowerStr "js" = "js" := by decide
  have hs : "`${//x}`".toList = ['`', '$', '{', '/', '/', 'x', '}', '`'] := rfl
  rw [hs]
  constructor <;> simp [strip_comments, hl, strip_comments_c_like, clikeAux, Result.consText]

/-- C3 counterexample: for the HTML/XML profile an unterminated `<!--` is not
removed at all (the regex `<!--[\s\S]*?-->` requires a closer), so nothing is
discarded and no comment is counted. -/
theorem counterexample_C3 :
    (strip_comments "<!--x".toList "html").text = "<!--x".toList ∧
    (strip_comments "<!--x".toList "html").comments_found = 0 := by
  have hl : lowerStr "html" = "html" := by decide
  have hs : "<!--x".toList = ['<', '!', '-', '-', 'x'] := rfl
  rw [hs]
  constructor <;> simp [strip_comments, hl, strip_comments_html, findArrow, Result.consText]

/-- C4 counterexample: `charactersRemoved` is not `len(src) - len(cleaned)`.
For C-like `/*x` the counter is bumped to `4` although only `3` characters
exist (and were discarded); for INI `a; b` + newline the counter is `4` while
the length difference is `3` (the kept part is whitespace-stripped and the
newline is re-appended, but `removed` counts from the marker to the end of the
line). -/
theorem counterexample_C4 :
    ((strip_comments "/*x".toList "c").comments_removed_chars = 4 ∧
      "/*x".toList.length = 3 ∧
      (strip_comments "/*x".toList "c").text = [] ∧
      "/*x".toList.length < (strip_comments "/*x".toList "c").comments_removed_chars) ∧
    ((strip_comments "a; b\n".toList "ini").comments_removed_chars = 4 ∧
      (strip_comments "a; b\n".toList "ini").text = "a\n".toList ∧
      "a; b\n".toList.length - (strip_comments "a; b\n".toList "ini").text.length = 3) := by
  constructor
  · have hl : lowerStr "c" = "c" := by decide
    have hs : "/*x".toList = ['/', '*', 'x'] := rfl
    rw [hs]
    refine ⟨?_, rfl, ?_, ?_⟩ <;>
      simp [strip_comments, hl, strip_comments_c_like, clikeAux, blockEnd, findStarSlash,
        Result.consText]
  · have hl : lowerStr "ini" = "ini" := by decide
    have hs : "a; b\n".toList = ['a', ';', ' ', 'b', '\n'] := rfl
    rw [hs]
    refine ⟨?_, ?_, ?_⟩ <;>
      simp [strip_comments, hl, hashSemi_as_fold, iniFold, iniLine, iniCut, splitLinesKeep,
        rstripPy, isPySpace, isLineBreakChar, List.takeWhile, List.dropWhile, Result.consText]

/-- C5 counterexample: the HTML profile is not idempotent.  Removing the first
comment of `<!<!-- c -->-- x -->` splices the remaining text into a fresh
`<!-- x -->`, which a second scan removes (one more comment, changed text). -/
theorem counterexample_C5 :
    (strip_comments "<!<!-- c -->-- x -->".toList "html").text = "<!-- x -->".toList ∧
    (strip_comments ((strip_comments "<!<!-- c -->-- x -->".toList "html").text)
        "html").comments_found = 1 ∧
    (strip_comments ((strip_comments "<!<!-- c -->-- x -->".toList "html").text)
        "html").text = [] := by
  have hl : lowerStr "html" = "html" := by decide
  have hs : "<!<!-- c -->-- x -->".toList =
      ['<', '!', '<', '!', '-', '-', ' ', 'c', ' ', '-', '-', '>', '-', '-', ' ', 'x',
       ' ', '-', '-', '>'] := rfl
  have h1 : (strip_comments "<!<!-- c -->-- x -->".toList "html").text =
      "<!-- x -->".toList := by
    rw [hs]
    simp [strip_comments, hl, strip_comments_html, findArrow, Result.consText]
  refine ⟨h1, ?_, ?_⟩ <;> rw [h1] <;>
    simp [strip_comments, hl, strip_comments_html, findArrow, Result.consText]

/-- C7 counterexample: in the line-truncation profiles (INI/TOML/YAML) quote
state does not persist across lines: after a line that leaves a single-quoted
string open, a `#` on the next line is still removed. -/
theorem counterexample_C7 :
    (strip_comments "x = 'a\n# b\n".toList "ini").text = "x = 'a\n\n".toList ∧
    (strip_comments "x = 'a\n# b\n".toList "ini").comments_found = 1 := by
  have hl : lowerStr "ini" = "ini" := by decide
  have hs : "x = 'a\n# b\n".toList =
      ['x', ' ', '=', ' ', '\'', 'a', '\n', '#', ' ', 'b', '\n'] := rfl
  rw [hs]
  constructor <;>
    simp [strip_comments, hl, hashSemi_as_fold, iniFold, iniLine, iniCut, splitLinesKeep,
      rstripPy, isPySpace, isLineBreakChar, List.takeWhile, List.dropWhile, Result.consText]

/-- C8 counterexample: for the INI profile a cut line's `\r\n` terminator does
not survive: the output line is re-terminated with a bare `\n`, so the `\r`
(which was not inside the removed comment span) disappears. -/
theorem counterexample_C8 :
    '\r' ∈ "a ; b\r\n".toList ∧
    (strip_comments "a ; b\r\n".toList "ini").text = "a\n".toList ∧
    '\r' ∉ (strip_comments "a ; b\r\n".toList "ini").text := by
  have hl : lowerStr "ini" = "ini" := by decide
  have hs : "a ; b\r\n".toList = ['a', ' ', ';', ' ', 'b', '\r', '\n'] := rfl
  have h1 : (strip_comments "a ; b\r\n".toList "ini").text = "a\n".toList := by
    rw [hs]
    simp [strip_comments, hl, hashSemi_as_fold, iniFold, iniLine, iniCut, splitLinesKeep,
      rstripPy, isPySpace, isLineBreakChar, List.takeWhile, List.dropWhile, Result.consText]
  refine ⟨by rw [hs]; decide, h1, by rw [h1]; decide⟩

/-! ## Suffix and counting helpers -/

theorem dropWhile_eq_drop (p : Char → Bool) (l : List Char) :
    l.dropWhile p = l.drop (l.takeWhile p).length := by
  induction l with
  | nil => rfl
  | cons c cs ih =>
    by_cases h : p c <;>
      simp [List.dropWhile_cons, List.takeWhile_cons, h, ih]

theorem findRubyEnd_none_of (s : List Char)
    (h : ∀ i, tryRubyEnd (s.drop i) = none) : findRubyEnd s = none := by
  induction s with
  | nil => rfl
  | cons c r ih =>
    have hr : ∀ i, tryRubyEnd (r.drop i) = none := by
      intro i
      have := h (i + 1)
      simpa using this
    have h0 : tryRubyEnd r = none := by simpa using h 1
    by_cases hc : c = '\n'
    · subst hc
      rw [findRubyEnd]
      simp [h0, ih hr]
    · rw [findRubyEnd]
      · simp [ih hr]
      · intros; simp_all

theorem suffix_tryNone (s r : List Char) (h : ∀ i, tryRubyEnd (s.drop i) = none)
    (hsub : ∃ m, s.drop m = r) : ∀ i, tryRubyEnd (r.drop i) = none := by
  obtain ⟨m, hm⟩ := hsub
  intro i
  rw [← hm, List.drop_drop]
  exact h _

theorem begin_suffix (s : List Char) :
    s.drop (6 + (s.takeWhile isWS).length) = (s.dropWhile isWS).drop 6 := by
  rw [dropWhile_eq_drop isWS s, List.drop_drop, Nat.add_comm]

theorem nl_suffix (s r : List Char) (h2 : s.dropWhile notLF = '\n' :: r) :
    s.drop ((s.takeWhile notLF).length + 1) = r := by
  have hd : s.drop ((s.takeWhile notLF).length) = '\n' :: r := by
    rw [← dropWhile_eq_drop]
    exact h2
  have := congrArg List.tail hd
  simpa [List.tail_drop] using this

/-- With no `=end` closer anywhere in the input, the Ruby block pass is the
identity: in particular an unterminated `=begin` block is not removed. -/
theorem rubyBlock_noEnd : ∀ s : List Char,
    (∀ i, tryRubyEnd (s.drop i) = none) → rubyBlockAux s = ⟨s, 0, 0⟩ := by
  intro s
  induction s using rubyBlockAux.induct
  case case1 => intro h; simp [rubyBlockAux]
  case case2 c0 rest0 t hb k v hf ih =>
    intro h
    have hno : findRubyEnd (((c0 :: rest0).dropWhile isWS).drop 6) = none :=
      findRubyEnd_none_of _ (suffix_tryNone _ _ h ⟨_, begin_suffix (c0 :: rest0)⟩)
    rw [hno] at hf
    cases hf
  case case3 c0 rest0 t hb k b hf v hLS r2 h2 ih =>
    intro h
    have hno : findRubyEnd (((c0 :: rest0).dropWhile isWS).drop 6) = none :=
      findRubyEnd_none_of _ (suffix_tryNone _ _ h ⟨_, begin_suffix (c0 :: rest0)⟩)
    rw [hno] at hf
    cases hf
  case case4 c0 rest0 t hb k b hf v hLS hne =>
    intro h
    have hno : findRubyEnd (((c0 :: rest0).dropWhile isWS).drop 6) = none :=
      findRubyEnd_none_of _ (suffix_tryNone _ _ h ⟨_, begin_suffix (c0 :: rest0)⟩)
    rw [hno] at hf
    cases hf
  case case5 c0 rest0 t hb hf r2 h2 ih =>
    intro h
    rw [rubyBlockAux_copyLine c0 rest0 r2 (Or.inr hf) h2]
    have hr2 : ∀ i, tryRubyEnd (r2.drop i) = none :=
      suffix_tryNone _ _ h ⟨_, nl_suffix (c0 :: rest0) r2 h2⟩
    rw [ih hr2]
    have hs : (c0 :: rest0).takeWhile notLF ++ '\n' :: r2 = c0 :: rest0 := by
      have := List.takeWhile_append_dropWhile (p := notLF) (l := c0 :: rest0)
      rw [h2] at this
      exact this
    simp [Result.consText, hs]
  case case6 c0 rest0 t hb hf hne =>
    intro h
    exact rubyBlockAux_lastLine c0 rest0 (Or.inr hf) (dropWhile_notLF_nil _ hne)
  case case7 c0 rest0 t hb r2 h2 ih =>
    intro h
    rw [rubyBlockAux_copyLine c0 rest0 r2 (Or.inl hb) h2]
    have hr2 : ∀ i, tryRubyEnd (r2.drop i) = none :=
      suffix_tryNone _ _ h ⟨_, nl_suffix (c0 :: rest0) r2 h2⟩
    rw [ih hr2]
    have hs : (c0 :: rest0).takeWhile notLF ++ '\n' :: r2 = c0 :: rest0 := by
      have := List.takeWhile_append_dropWhile (p := notLF) (l := c0 :: rest0)
      rw [h2] at this
      exact this
    simp [Result.consText, hs]
  case case8 c0 rest0 t hb hne =>
    intro h
    exact rubyBlockAux_lastLine c0 rest0 (Or.inl hb) (dropWhile_notLF_nil _ hne)

theorem findArrow_tail (c : Char) (r : List Char) (h : findArrow (c :: r) = none) :
    findArrow r = none := by
  rw [findArrow.eq_def] at h
  split at h
  · exact absurd h (by simp)
  · rename_i c1 rest heq
    obtain ⟨h1, h2⟩ := List.cons.inj heq
    subst h2
    simpa using h
  · simp_all

/-- With no `-->` anywhere in the input, the HTML pass is the identity: an
unterminated `<!--` opener is copied through, not removed. -/
theorem html_noArrow : ∀ s : List Char, findArrow s = none → strip_comments_html s = ⟨s, 0, 0⟩ := by
  intro s
  induction s using strip_comments_html.induct
  case case1 rest k hk ih =>
    intro h
    have h1 := findArrow_tail _ _ h
    have h2 := findArrow_tail _ _ h1
    have h3 := findArrow_tail _ _ h2
    have h4 := findArrow_tail _ _ h3
    rw [h4] at hk
    cases hk
  case case2 rest hk ih =>
    intro h
    rw [strip_comments_html]
    have h1 := findArrow_tail _ _ h
    rw [hk, ih h1]
    simp [Result.consText]
  case case3 c rest hne ih =>
    intro h
    rw [strip_comments_html]
    · rw [ih (findArrow_tail _ _ h)]
      simp [Result.consText]
    · intros; simp_all
  case case4 => intro h; simp [strip_comments_html]

/-! ## Claim C1: literal preservation, per tracked quote kind -/

/-- C1 (amended): each scanner copies the content of the quote kinds it
actually tracks verbatim and counts nothing there — C-like `'` (only when
backtick support is off) and `"`; Python `'`, `"` and both triple quotes; SQL
`'`, `"` and backtick; the Ruby line pass `'` and `"`; the INI cut scan `'`
and `"`.  For the JS/TS profile a `'` in code is NOT a string opener (bt =
true keeps the scanner in code state), which is why `//` inside a
single-quoted JS string is removed (see the counterexample). -/
theorem claim_C1 :
    (∀ (hash : Bool) (d : Nat) (lit rest : List Char), '\'' ∉ lit → '\\' ∉ lit →
      clikeAux hash false .inStrSgl d false (lit ++ '\'' :: rest) =
        .consText (lit ++ ['\'']) (clikeAux hash false .code d false rest)) ∧
    (∀ (hash bt : Bool) (d : Nat) (lit rest : List Char), '"' ∉ lit → '\\' ∉ lit →
      clikeAux hash bt .inStrDbl d false (lit ++ '"' :: rest) =
        .consText (lit ++ ['"']) (clikeAux hash bt .code d false rest)) ∧
    (∀ (hash : Bool) (d : Nat) (f : Bool) (rest : List Char),
      clikeAux hash true .code d f ('\'' :: rest) =
        .consText ['\''] (clikeAux hash true .code d false rest)) ∧
    (∀ lit rest : List Char, '\'' ∉ lit → '\\' ∉ lit →
      pyAux .inSgl false (lit ++ '\'' :: rest) =
        .consText (lit ++ ['\'']) (pyAux .code false rest)) ∧
    (∀ lit rest : List Char, '"' ∉ lit → '\\' ∉ lit →
      pyAux .inDbl false (lit ++ '"' :: rest) =
        .consText (lit ++ ['"']) (pyAux .code false rest)) ∧
    (∀ lit rest : List Char, hasRun3 '\'' lit = false → lit.getLast? ≠ some '\'' →
      pyAux .inTsq false (lit ++ '\'' :: '\'' :: '\'' :: rest) =
        .consText (lit ++ ['\'', '\'', '\'']) (pyAux .code false rest)) ∧
    (∀ lit rest : List Char, hasRun3 '"' lit = false → lit.getLast? ≠ some '"' →
      pyAux .inTdq false (lit ++ '"' :: '"' :: '"' :: rest) =
        .consText (lit ++ ['"', '"', '"']) (pyAux .code false rest)) ∧
    (∀ lit rest : List Char, '\'' ∉ lit → '\\' ∉ lit →
      sqlAux .inSgl (lit ++ '\'' :: rest) = .consText (lit ++ ['\'']) (sqlAux .code rest)) ∧
    (∀ lit rest : List Char, '"' ∉ lit → '\\' ∉ lit →
      sqlAux .inDbl (lit ++ '"' :: rest) = .consText (lit ++ ['"']) (sqlAux .code rest)) ∧
    (∀ lit rest : List Char, '`' ∉ lit →
      sqlAux .inBkt (lit ++ '`' :: rest) = .consText (lit ++ ['`']) (sqlAux .code rest)) ∧
    (∀ lit rest : List Char, '\'' ∉ lit → '\\' ∉ lit →
      rubyLineAux .inSgl (lit ++ '\'' :: rest) =
        .consText (lit ++ ['\'']) (rubyLineAux .code rest)) ∧
    (∀ lit rest : List Char, '"' ∉ lit → '\\' ∉ lit →
      rubyLineAux .inDbl (lit ++ '"' :: rest) =
        .consText (lit ++ ['"']) (rubyLineAux .code rest)) ∧
    (∀ (semi : Bool) (lit rest : List Char), '\'' ∉ lit → '\\' ∉ lit →
      iniCut semi .inSgl (lit ++ '\'' :: rest) =
        (iniCut semi .code rest).map (· + (lit.length + 1))) ∧
    (∀ (semi : Bool) (lit rest : List Char), '"' ∉ lit → '\\' ∉ lit →
      iniCut semi .inDbl (lit ++ '"' :: rest) =
        (iniCut semi .code rest).map (· + (lit.length + 1))) := by
  refine ⟨fun hash d lit rest hq he => clike_sglPass hash false d lit rest hq he,
    fun hash bt d lit rest hq he => clike_dblPass hash bt d lit rest hq he,
    fun hash d f rest => by rw [clikeAux]; simp,
    fun lit rest hq he => py_sglPass lit rest hq he,
    fun lit rest hq he => py_dblPass lit rest hq he,
    fun lit rest h3 hl => py_tsqPass lit rest h3 hl,
    fun lit rest h3 hl => py_tdqPass lit rest h3 hl,
    fun lit rest hq he => sql_sglPass lit rest hq he,
    fun lit rest hq he => sql_dblPass lit rest hq he,
    fun lit rest hq => sql_bktPass lit rest hq,
    fun lit rest hq he => ruby_sglPass lit rest hq he,
    fun lit rest hq he => ruby_dblPass lit rest hq he,
    fun semi lit rest hq he => ini_sglPass semi lit rest hq he,
    fun semi lit rest hq he => ini_dblPass semi lit rest hq he⟩

/-! ## Claim C2: template interpolation -/

/-- C2 (amended): inside `${...}` the JS/TS scanner does NOT behave as code —
it stays in template mode, copying the interpolated expression verbatim (no
comment inside it is removed or counted), and the brace-depth counter has no
observable effect outside template mode. -/
theorem claim_C2 :
    (∀ (hash bt : Bool) (st : CMode) (d : Nat) (f : Bool) (s : List Char) (d2 : Nat),
      st ≠ .inTemplate → clikeAux hash bt st d f s = clikeAux hash bt st d2 f s) ∧
    (∀ (hash bt : Bool) (d : Nat) (expr rest : List Char),
      '`' ∉ expr → '\\' ∉ expr → rest.head? ≠ some '{' →
      ∃ d2, clikeAux hash bt .inTemplate d false ('$' :: '{' :: (expr ++ rest)) =
        .consText ('$' :: '{' :: expr) (clikeAux hash bt .inTemplate d2 false rest)) := by
  constructor
  · exact fun hash bt st d f s d2 h => clike_depthIrrel hash bt st d f s d2 h
  · intro hash bt d expr rest hbq he hnb
    obtain ⟨d2, hcp⟩ := clike_tmplCopy hash bt expr (d + 1) rest hbq he hnb
    refine ⟨d2, ?_⟩
    rw [clikeAux, hcp]
    simp [Result.consText]

/-! ## Claim C3: unterminated block openers -/

/-- C3 (amended): an unterminated block opener is discarded to end of input
only for the C-like and SQL scanners (everything after the opener is dropped
and one comment is counted, though the recorded character count overshoots by
one when anything follows the opener — see C4); for HTML and Ruby an opener
with no closer is NOT removed: the HTML pass is the identity when the input
has no `-->`, and the Ruby block pass is the identity when no `=end` line
matches anywhere. -/
theorem claim_C3 :
    (∀ (hash bt : Bool) (d : Nat) (f : Bool) (rest : List Char),
      findStarSlash rest = none →
      clikeAux hash bt .code d f ('/' :: '*' :: rest) =
        ⟨[], 1, if rest.isEmpty then 2 else rest.length + 3⟩) ∧
    (∀ rest : List Char, findStarSlash rest = none →
      sqlAux .code ('/' :: '*' :: rest) =
        ⟨[], 1, if rest.isEmpty then 2 else rest.length + 3⟩) ∧
    (∀ s : List Char, findArrow s = none → strip_comments_html s = ⟨s, 0, 0⟩) ∧
    (∀ s : List Char, (∀ i, tryRubyEnd (s.drop i) = none) → rubyBlockAux s = ⟨s, 0, 0⟩) := by
  refine ⟨?_, ?_, html_noArrow, rubyBlock_noEnd⟩
  · intro hash bt d f rest hnone
    rw [clikeAux]
    simp only [blockEnd, hnone]
    by_cases hr : rest.isEmpty
    · simp only [if_pos hr]
      rw [clikeAux]
    · simp only [if_neg hr]
      rw [clikeAux]
      simp [hr]
  · intro rest hnone
    rw [sqlAux]
    simp only [blockEnd, hnone]
    by_cases hr : rest.isEmpty
    · simp only [if_pos hr]
      rw [sqlAux]
    · simp only [if_neg hr]
      rw [sqlAux]
      simp [hr]

/-! ## Claim C7: strings stay open across newlines -/

/-- C7 (amended): in the character scanners (C-like, Python, SQL, Ruby line
pass) an open single- or double-quoted string does consume newlines — a
literal containing `\n` is still copied verbatim up to the closing quote, with
comment markers on the later lines preserved and uncounted.  The INI/TOML/YAML
profiles are the exception: their quote state resets at each line (see the
counterexample). -/
theorem claim_C7 :
    (∀ (hash bt : Bool) (d : Nat) (lit rest : List Char),
      '\n' ∈ lit → '\'' ∉ lit → '\\' ∉ lit →
      clikeAux hash bt .inStrSgl d false (lit ++ '\'' :: rest) =
        .consText (lit ++ ['\'']) (clikeAux hash bt .code d false rest)) ∧
    (∀ (hash bt : Bool) (d : Nat) (lit rest : List Char),
      '\n' ∈ lit → '"' ∉ lit → '\\' ∉ lit →
      clikeAux hash bt .inStrDbl d false (lit ++ '"' :: rest) =
        .consText (lit ++ ['"']) (clikeAux hash bt .code d false rest)) ∧
    (∀ lit rest : List Char, '\n' ∈ lit → '\'' ∉ lit → '\\' ∉ lit →
      pyAux .inSgl false (lit ++ '\'' :: rest) =
        .consText (lit ++ ['\'']) (pyAux .code false rest)) ∧
    (∀ lit rest : List Char, '\n' ∈ lit → '"' ∉ lit → '\\' ∉ lit →
      pyAux .inDbl false (lit ++ '"' :: rest) =
        .consText (lit ++ ['"']) (pyAux .code false rest)) ∧
    (∀ lit rest : List Char, '\n' ∈ lit → '\'' ∉ lit → '\\' ∉ lit →
      sqlAux .inSgl (lit ++ '\'' :: rest) = .consText (lit ++ ['\'']) (sqlAux .code rest)) ∧
    (∀ lit rest : List Char, '\n' ∈ lit → '"' ∉ lit → '\\' ∉ lit →
      sqlAux .inDbl (lit ++ '"' :: rest) = .consText (lit ++ ['"']) (sqlAux .code rest)) ∧
    (∀ lit rest : List Char, '\n' ∈ lit → '\'' ∉ lit → '\\' ∉ lit →
      rubyLineAux .inSgl (lit ++ '\'' :: rest) =
        .consText (lit ++ ['\'']) (rubyLineAux .code rest)) ∧
    (∀ lit rest : List Char, '\n' ∈ lit → '"' ∉ lit → '\\' ∉ lit →
      rubyLineAux .inDbl (lit ++ '"' :: rest) =
        .consText (lit ++ ['"']) (rubyLineAux .code rest)) ∧
    strip_comments "a = 'x\n// y\n';".toList "c" = ⟨"a = 'x\n// y\n';".toList, 0, 0⟩ := by
  refine ⟨fun hash bt d lit rest hn hq he => clike_sglPass hash bt d lit rest hq he,
    fun hash bt d lit rest hn hq he => clike_dblPass hash bt d lit rest hq he,
    fun lit rest hn hq he => py_sglPass lit rest hq he,
    fun lit rest hn hq he => py_dblPass lit rest hq he,
    fun lit rest hn hq he => sql_sglPass lit rest hq he,
    fun lit rest hn hq he => sql_dblPass lit rest hq he,
    fun lit rest hn hq he => ruby_sglPass lit rest hq he,
    fun lit rest hn hq he => ruby_dblPass lit rest hq he, ?_⟩
  have hl : lowerStr "c" = "c" := by decide
  have hs : "a = 'x\n// y\n';".toList =
      ['a', ' ', '=', ' ', '\'', 'x', '\n', '/', '/', ' ', 'y', '\n', '\'', ';'] := rfl
  rw [hs]
  simp [strip_comments, hl, strip_comments_c_like, clikeAux, Result.consText]

/-! ## Length accounting -/

theorem tw_dw_len (p : Char → Bool) (l : List Char) :
    (l.takeWhile p).length + (l.dropWhile p).length = l.length := by
  conv_rhs => rw [← List.takeWhile_append_dropWhile (p := p) (l := l)]
  rw [List.length_append]

theorem findStarSlash_le (l : List Char) : ∀ k, findStarSlash l = some k → k + 2 ≤ l.length := by
  induction l with
  | nil => intro k h; simp [findStarSlash] at h
  | cons c1 tl ih =>
    cases tl with
    | nil => intro k h; simp [findStarSlash] at h
    | cons c2 tl2 =>
      intro k h
      by_cases hs : c1 = '*' ∧ c2 = '/'
      · obtain ⟨h1, h2⟩ := hs
        subst h1; subst h2
        rw [findStarSlash] at h
        simp at h
        simp
        omega
      · rw [findStarSlash] at h
        · simp only [Option.map_eq_some'] at h
          obtain ⟨k2, hk2, he⟩ := h
          have hle := ih k2 hk2
          simp at hle ⊢
          omega
        · intros; simp_all

theorem blockEnd_spec (rest : List Char) :
    rest.length + 2 ≤ (blockEnd rest).2.length + (blockEnd rest).1 ∧
    (blockEnd rest).2.length + (blockEnd rest).1 ≤ rest.length + 3 := by
  unfold blockEnd
  cases h : findStarSlash rest with
  | some k =>
    have hk := findStarSlash_le rest k h
    simp [List.length_drop]
    omega
  | none => cases rest <;> simp

theorem clike_len (hash bt : Bool) : ∀ (st : CMode) (d : Nat) (f : Bool) (s : List Char),
    s.length ≤ (clikeAux hash bt st d f s).text.length +
      (clikeAux hash bt st d f s).comments_removed_chars ∧
    (clikeAux hash bt st d f s).text.length +
      (clikeAux hash bt st d f s).comments_removed_chars ≤ s.length + 1 := by
  intro st d f s
  induction st, d, f, s using clikeAux.induct hash bt
  case case18 d x rest ih =>
    simp_all [clikeAux, Result.consText]
    obtain ⟨ih1, ih2⟩ := ih
    have htw := tw_dw_len notNL rest
    omega
  case case19 d x rest ih =>
    simp_all [clikeAux, Result.consText]
    cases hfs : findStarSlash rest with
    | some k =>
      have hk := findStarSlash_le rest k hfs
      simp only [blockEnd, hfs, List.length_drop] at ih ⊢
      obtain ⟨ih1, ih2⟩ := ih
      omega
    | none =>
      simp only [blockEnd, hfs] at ih ⊢
      cases rest with
      | nil => simp_all [clikeAux]
      | cons c tl => simp_all [clikeAux]
  case case21 d first rest hhash hcond ih =>
    simp_all [clikeAux, Result.consText]
    have hcnd : ¬(first = true ∧ rest.head? = some '!') := fun hc => hcond hc.1 hc.2
    simp only [if_neg hcnd]
    obtain ⟨ih1, ih2⟩ := ih
    have htw := tw_dw_len notNL rest
    omega
  all_goals simp_all [clikeAux, Result.consText]
  all_goals omega

theorem py_len : ∀ (st : PMode) (f : Bool) (s : List Char),
    (pyAux st f s).text.length + (pyAux st f s).comments_removed_chars = s.length := by
  intro st f s
  induction st, f, s using pyAux.induct
  case case17 first rest hcond ih =>
    simp_all [pyAux, Result.consText]
    have hcnd : ¬(first = true ∧ rest.head? = some '!') := fun hc => hcond hc.1 hc.2
    simp only [if_neg hcnd]
    have htw := tw_dw_len notNL rest
    omega
  all_goals simp_all [pyAux, Result.consText]
  all_goals omega

theorem findArrow_le : ∀ (l : List Char) (k : Nat), findArrow l = some k → k + 3 ≤ l.length := by
  intro l
  induction l using findArrow.induct
  case case1 u => intro k h; rw [findArrow] at h; simp at h; simp; omega
  case case2 c rest hne ih =>
    intro k h
    rw [findArrow] at h
    · simp only [Option.map_eq_some'] at h
      obtain ⟨k2, hk2, he⟩ := h
      have hle := ih k2 hk2
      simp
      omega
    · intros; simp_all
  case case3 => intro k h; simp [findArrow] at h

theorem html_len : ∀ s : List Char,
    (strip_comments_html s).text.length +
      (strip_comments_html s).comments_removed_chars = s.length := by
  intro s
  induction s using strip_comments_html.induct
  case case1 rest k hk ih =>
    rw [strip_comments_html]
    have hle := findArrow_le rest k hk
    simp [hk, List.length_drop] at ih ⊢
    omega
  case case2 rest hk ih =>
    rw [strip_comments_html]
    simp [hk, Result.consText]
    simp at ih
    omega
  case case3 c rest hne ih =>
    rw [strip_comments_html]
    · simp [Result.consText]
      omega
    · intros; simp_all
  case case4 => simp [strip_comments_html]

theorem sql_len : ∀ (st : SMode) (s : List Char),
    s.length ≤ (sqlAux st s).text.length + (sqlAux st s).comments_removed_chars ∧
    (sqlAux st s).text.length + (sqlAux st s).comments_removed_chars ≤ s.length + 1 := by
  intro st s
  induction st, s using sqlAux.induct
  case case1 => constructor <;> simp [sqlAux]
  case case13 rest ih =>
    simp_all [sqlAux, Result.consText]
    cases hfs : findStarSlash rest with
    | some k =>
      have hk := findStarSlash_le rest k hfs
      simp only [blockEnd, hfs, List.length_drop] at ih ⊢
      obtain ⟨ih1, ih2⟩ := ih
      omega
    | none =>
      simp only [blockEnd, hfs] at ih ⊢
      cases rest with
      | nil => simp_all [sqlAux]
      | cons c tl => simp_all [sqlAux]
  case case14 rest ih =>
    simp_all [sqlAux, Result.consText]
    obtain ⟨ih1, ih2⟩ := ih
    have htw := tw_dw_len notNL rest
    omega
  all_goals simp_all [sqlAux, Result.consText]
  all_goals omega

theorem tryRubyEnd_le (s : List Char) (k : Nat) (b : Bool)
    (h : tryRubyEnd s = some (k, b)) : k ≤ s.length := by
  unfold tryRubyEnd at h
  have h1 := tw_dw_len isWS s
  split at h
  · rename_i u heq
    have h4 : (s.dropWhile isWS).length = 4 + u.length := by
      rw [heq]
      simp only [List.length_cons]
      omega
    have h2 := tw_dw_len isWS u
    split at h
    all_goals simp at h
    · rename_i r2 heq2
      have h5 : 2 ≤ (u.dropWhile isWS).length := by
        rw [heq2]
        simp only [List.length_cons]
        omega
      omega
    · rename_i x hdis heq2
      have h5 : 1 ≤ (u.dropWhile isWS).length := by
        rw [heq2]
        simp only [List.length_cons]
        omega
      omega
    · rename_i x heq2
      have h5 : 1 ≤ (u.dropWhile isWS).length := by
        rw [heq2]
        simp only [List.length_cons]
        omega
      omega
    · omega
  · exact absurd h (by simp)

theorem findRubyEnd_le : ∀ (s : List Char) (k : Nat) (b : Bool),
    findRubyEnd s = some (k, b) → k ≤ s.length := by
  intro s
  induction s with
  | nil => intro k b h; simp [findRubyEnd] at h
  | cons c r ih =>
    intro k b h
    by_cases hc : c = '\n'
    · subst hc
      rw [findRubyEnd] at h
      cases htr : tryRubyEnd r with
      | some p =>
        rw [htr] at h
        simp at h
        have := tryRubyEnd_le r p.1 p.2 (by rw [htr])
        simp only [List.length_cons]
        omega
      | none =>
        rw [htr] at h
        simp only [Option.map_eq_some'] at h
        obtain ⟨p, hp, he⟩ := h
        have := ih p.1 p.2 (by rw [hp])
        have hk : k = 1 + p.1 := by
          have := congrArg Prod.fst he
          simpa using this.symm
        simp only [List.length_cons]
        omega
    · rw [findRubyEnd] at h
      · simp only [Option.map_eq_some'] at h
        obtain ⟨p, hp, he⟩ := h
        have := ih p.1 p.2 (by rw [hp])
        have hk : k = 1 + p.1 := by
          have := congrArg Prod.fst he
          simpa using this.symm
        simp only [List.length_cons]
        omega
      · intros; simp_all

theorem rubyBlock_len : ∀ s : List Char,
    (rubyBlockAux s).text.length + (rubyBlockAux s).comments_removed_chars = s.length := by
  intro s
  induction s using rubyBlockAux.induct
  case case1 => simp [rubyBlockAux]
  case case2 c0 rest0 t hb k v hf ih =>
    rw [rubyBlockAux_beginLS c0 rest0 k hb hf]
    have hv : v = (((c0 :: rest0).dropWhile isWS).drop 6).drop k := rfl
    rw [← hv]
    have hvlen : v.length = ((c0 :: rest0).dropWhile isWS).length - 6 - k := by
      rw [hv]
      simp [List.length_drop]
      omega
    have htw := tw_dw_len isWS (c0 :: rest0)
    have hb2 : ((c0 :: rest0).dropWhile isWS).take 6 = ['=', 'b', 'e', 'g', 'i', 'n'] := hb
    have hlen6 : 6 ≤ ((c0 :: rest0).dropWhile isWS).length := by
      have := congrArg List.length hb2
      simp [List.length_take] at this
      omega
    have hk : k ≤ ((c0 :: rest0).dropWhile isWS).length - 6 := by
      have h5 := findRubyEnd_le (((c0 :: rest0).dropWhile isWS).drop 6) k true hf
      simpa [List.length_drop] using h5
    simp only [List.length_cons] at htw ⊢
    omega
  case case3 c0 rest0 t hb k b hf v hLS r2 h2 ih =>
    have hb3 : b = false := by
      cases b
      · rfl
      · exact absurd rfl hLS
    subst hb3
    rw [rubyBlockAux_beginMid c0 rest0 k r2 hb hf h2]
    have hv : v = (((c0 :: rest0).dropWhile isWS).drop 6).drop k := rfl
    rw [← hv]
    have hvlen : v.length = ((c0 :: rest0).dropWhile isWS).length - 6 - k := by
      rw [hv]
      simp [List.length_drop]
      omega
    have htw := tw_dw_len isWS (c0 :: rest0)
    have hb2 : ((c0 :: rest0).dropWhile isWS).take 6 = ['=', 'b', 'e', 'g', 'i', 'n'] := hb
    have hlen6 : 6 ≤ ((c0 :: rest0).dropWhile isWS).length := by
      have := congrArg List.length hb2
      simp [List.length_take] at this
      omega
    have hk : k ≤ ((c0 :: rest0).dropWhile isWS).length - 6 := by
      have h5 := findRubyEnd_le (((c0 :: rest0).dropWhile isWS).drop 6) k false hf
      simpa [List.length_drop] using h5
    have htv := tw_dw_len notLF v
    rw [h2] at htv
    simp only [List.length_cons] at htv
    simp only [List.length_cons, List.length_append] at htw ⊢
    omega
  case case4 c0 rest0 t hb k b hf v hLS hne =>
    have hb3 : b = false := by
      cases b
      · rfl
      · exact absurd rfl hLS
    subst hb3
    have h2 : v.dropWhile notLF = [] := dropWhile_notLF_nil _ (fun r hr => hne r hr)
    rw [rubyBlockAux_beginMidEnd c0 rest0 k hb hf h2]
    have hv : v = (((c0 :: rest0).dropWhile isWS).drop 6).drop k := rfl
    rw [← hv]
    have hvlen : v.length = ((c0 :: rest0).dropWhile isWS).length - 6 - k := by
      rw [hv]
      simp [List.length_drop]
      omega
    have htw := tw_dw_len isWS (c0 :: rest0)
    have hb2 : ((c0 :: rest0).dropWhile isWS).take 6 = ['=', 'b', 'e', 'g', 'i', 'n'] := hb
    have hlen6 : 6 ≤ ((c0 :: rest0).dropWhile isWS).length := by
      have := congrArg List.length hb2
      simp [List.length_take] at this
      omega
    have hk : k ≤ ((c0 :: rest0).dropWhile isWS).length - 6 := by
      have h5 := findRubyEnd_le (((c0 :: rest0).dropWhile isWS).drop 6) k false hf
      simpa [List.length_drop] using h5
    have htv := tw_dw_len notLF v
    rw [h2] at htv
    simp only [List.length_nil] at htv
    simp only [List.length_cons] at htw ⊢
    omega
  case case5 c0 rest0 t hb hf r2 h2 ih =>
    rw [rubyBlockAux_copyLine c0 rest0 r2 (Or.inr hf) h2]
    have htv := tw_dw_len notLF (c0 :: rest0)
    rw [h2] at htv
    simp only [List.length_cons] at htv ⊢
    simp only [Result.consText_text, Result.consText_removed, List.length_append,
      List.length_cons, List.length_nil]
    omega
  case case6 c0 rest0 t hb hf hne =>
    rw [rubyBlockAux_lastLine c0 rest0 (Or.inr hf) (dropWhile_notLF_nil _ hne)]
    simp
  case case7 c0 rest0 t hb r2 h2 ih =>
    rw [rubyBlockAux_copyLine c0 rest0 r2 (Or.inl hb) h2]
    have htv := tw_dw_len notLF (c0 :: rest0)
    rw [h2] at htv
    simp only [List.length_cons] at htv ⊢
    simp only [Result.consText_text, Result.consText_removed, List.length_append,
      List.length_cons, List.length_nil]
    omega
  case case8 c0 rest0 t hb hne =>
    rw [rubyBlockAux_lastLine c0 rest0 (Or.inl hb) (dropWhile_notLF_nil _ hne)]
    simp

theorem rubyLine_len : ∀ (st : QMode) (s : List Char),
    (rubyLineAux st s).text.length + (rubyLineAux st s).comments_removed_chars = s.length := by
  intro st s
  induction st, s using rubyLineAux.induct
  case case10 rest ih =>
    simp_all [rubyLineAux, Result.consText]
    have htw := tw_dw_len notNL rest
    omega
  all_goals simp_all [rubyLineAux, Result.consText]
  all_goals omega

theorem iniLine_rm_le (semi : Bool) (line : List Char) :
    (iniLine semi line).comments_removed_chars ≤ line.length := by
  unfold iniLine
  cases h : iniCut semi .code line <;> simp

theorem iniFold_rm_le (semi : Bool) : ∀ L : List (List Char),
    (iniFold semi L).comments_removed_chars ≤ L.join.length := by
  intro L
  induction L with
  | nil => simp [iniFold]
  | cons line L ih =>
    have h1 := iniLine_rm_le semi line
    have hj : (line :: L).join.length = line.length + L.join.length := by
      show (line ++ L.join).length = line.length + L.join.length
      rw [List.length_append]
    rw [hj, iniFold]
    simp only []
    omega

/-! ## Claim C4: the removed-character accounting -/

/-- C4 (amended): `charactersRemoved = len(src) - len(cleaned)` holds exactly
for the Python, HTML and Ruby profiles.  For the C-like and SQL scanners the
sum `len(cleaned) + charactersRemoved` lies between `len(src)` and
`len(src) + 1` (the overshoot is the unterminated-block bump of C4's sources);
for the INI/TOML/YAML profiles the counter tallies marker-to-end-of-line spans
and is bounded by `len(src)`, but need not equal the length difference because
the kept part is additionally right-stripped and re-terminated. -/
theorem claim_C4 :
    (∀ (st : PMode) (f : Bool) (s : List Char),
      (pyAux st f s).text.length + (pyAux st f s).comments_removed_chars = s.length) ∧
    (∀ s : List Char,
      (strip_comments_html s).text.length +
        (strip_comments_html s).comments_removed_chars = s.length) ∧
    (∀ s : List Char,
      (strip_comments_ruby s).text.length +
        (strip_comments_ruby s).comments_removed_chars = s.length) ∧
    (∀ (hash bt : Bool) (st : CMode) (d : Nat) (f : Bool) (s : List Char),
      s.length ≤ (clikeAux hash bt st d f s).text.length +
          (clikeAux hash bt st d f s).comments_removed_chars ∧
        (clikeAux hash bt st d f s).text.length +
          (clikeAux hash bt st d f s).comments_removed_chars ≤ s.length + 1) ∧
    (∀ (st : SMode) (s : List Char),
      s.length ≤ (sqlAux st s).text.length + (sqlAux st s).comments_removed_chars ∧
        (sqlAux st s).text.length + (sqlAux st s).comments_removed_chars ≤ s.length + 1) ∧
    (∀ (semi : Bool) (src : List Char),
      (strip_comments_hash_and_semicolon src semi).comments_removed_chars ≤ src.length) := by
  refine ⟨py_len, html_len, ?_, fun hash bt => clike_len hash bt, sql_len, ?_⟩
  · intro s
    unfold strip_comments_ruby
    have h1 := rubyBlock_len s
    have h2 := rubyLine_len .code (rubyBlockAux s).text
    simp only []
    omega
  · intro semi src
    rw [hashSemi_as_fold]
    have h := iniFold_rm_le semi (splitLinesKeep src)
    rwa [splitLinesKeep_join] at h

/-! Span partitions -/

def Spans (s t : List Char) : Prop :=
  ∃ segs : List (Bool × List Char),
    s = (segs.map Prod.snd).join ∧
    t = ((segs.filter Prod.fst).map Prod.snd).join ∧
    ∀ p ∈ segs, p.1 = false → p.2 ≠ []

theorem spans_nil : Spans [] [] :=
  ⟨[], by simp, by simp, by simp⟩

theorem spans_keep (chunk : List Char) (s t : List Char) (h : Spans s t) :
    Spans (chunk ++ s) (chunk ++ t) := by
  obtain ⟨segs, h1, h2, h3⟩ := h
  refine ⟨(true, chunk) :: segs, ?_, ?_, ?_⟩
  · simp [h1]
  · simp [h2]
  · intro p hp hf
    rcases List.mem_cons.mp hp with hp | hp
    · rw [hp] at hf
      simp at hf
    · exact h3 p hp hf

theorem spans_drop (chunk : List Char) (s t : List Char) (hne : chunk ≠ [])
    (h : Spans s t) : Spans (chunk ++ s) t := by
  obtain ⟨segs, h1, h2, h3⟩ := h
  refine ⟨(false, chunk) :: segs, ?_, ?_, ?_⟩
  · simp [h1]
  · simp [h2]
  · intro p hp hf
    rcases List.mem_cons.mp hp with hp | hp
    · rw [hp]
      exact hne
    · exact h3 p hp hf

theorem spans_refl (s : List Char) : Spans s s := by
  have := spans_keep s [] [] spans_nil
  simpa using this

theorem spans_keep1 (c : Char) (s t : List Char) (h : Spans s t) : Spans (c :: s) (c :: t) :=
  spans_keep [c] s t h

theorem spans_keep2 (c1 c2 : Char) (s t : List Char) (h : Spans s t) :
    Spans (c1 :: c2 :: s) (c1 :: c2 :: t) :=
  spans_keep [c1, c2] s t h

theorem spans_keep3 (c1 c2 c3 : Char) (s t : List Char) (h : Spans s t) :
    Spans (c1 :: c2 :: c3 :: s) (c1 :: c2 :: c3 :: t) :=
  spans_keep [c1, c2, c3] s t h

theorem clike_spans (hash bt : Bool) : ∀ (st : CMode) (d : Nat) (f : Bool) (s : List Char),
    Spans s (clikeAux hash bt st d f s).text := by
  intro st d f s
  induction st, d, f, s using clikeAux.induct hash bt
  all_goals try (rw [clikeAux])
  all_goals try (intros; simp_all)
  all_goals first
    | exact spans_nil
    | (rename_i ih; first
        | exact spans_keep1 _ _ _ ih
        | exact spans_keep2 _ _ _ _ ih)
    | skip
  case case18 d x rest ih =>
    have hdec : '/' :: '/' :: rest =
        ('/' :: '/' :: rest.takeWhile notNL) ++ rest.dropWhile notNL := by
      simp
    rw [hdec]
    exact spans_drop _ _ _ (by simp) ih
  case case19 d x rest ih =>
    cases hfs : findStarSlash rest with
    | some k =>
      have hdec : '/' :: '*' :: rest =
          ('/' :: '*' :: rest.take (k + 2)) ++ rest.drop (k + 2) := by
        simp
      have hbe : (blockEnd rest).2 = rest.drop (k + 2) := by simp [blockEnd, hfs]
      rw [hbe] at ih ⊢
      rw [hdec]
      exact spans_drop _ _ _ (by simp) ih
    | none =>
      have hbe : (blockEnd rest).2 = [] := by
        unfold blockEnd
        rw [hfs]
        by_cases hre : rest.isEmpty <;> simp [hre]
      rw [hbe] at ih
      have h0 : clikeAux hash bt .code d false ([] : List Char) = ⟨[], 0, 0⟩ := by
        rw [clikeAux]
      rw [hbe, h0]
      have hsp := spans_drop ('/' :: '*' :: rest) [] [] (by simp) spans_nil
      simpa using hsp
  case case21 d first rest hhash hcond ih =>
    have hcnd : ¬(first = true ∧ rest.head? = some '!') := fun hc => hcond hc.1 hc.2
    rw [if_neg hcnd]
    have hdec : '#' :: rest = ('#' :: rest.takeWhile notNL) ++ rest.dropWhile notNL := by simp
    rw [hdec]
    exact spans_drop _ _ _ (by simp) ih

theorem py_spans : ∀ (st : PMode) (f : Bool) (s : List Char),
    Spans s (pyAux st f s).text := by
  intro st f s
  induction st, f, s using pyAux.induct
  all_goals try (rw [pyAux])
  all_goals try (intros; simp_all)
  all_goals first
    | exact spans_nil
    | (rename_i ih; first
        | exact spans_keep1 _ _ _ ih
        | exact spans_keep2 _ _ _ _ ih
        | exact spans_keep3 _ _ _ _ _ ih)
    | skip
  case case17 first rest hcond ih =>
    have hcnd : ¬(first = true ∧ rest.head? = some '!') := fun hc => hcond hc.1 hc.2
    rw [if_neg hcnd]
    have hdec : '#' :: rest = ('#' :: rest.takeWhile notNL) ++ rest.dropWhile notNL := by simp
    rw [hdec]
    exact spans_drop _ _ _ (by simp) ih

theorem sql_spans : ∀ (st : SMode) (s : List Char), Spans s (sqlAux st s).text := by
  intro st s
  induction st, s using sqlAux.induct
  all_goals try (rw [sqlAux])
  all_goals try (intros; simp_all)
  all_goals first
    | exact spans_nil
    | (rename_i ih; first
        | exact spans_keep1 _ _ _ ih
        | exact spans_keep2 _ _ _ _ ih)
    | skip
  case case13 rest ih =>
    cases hfs : findStarSlash rest with
    | some k =>
      have hdec : '/' :: '*' :: rest =
          ('/' :: '*' :: rest.take (k + 2)) ++ rest.drop (k + 2) := by
        simp
      have hbe : (blockEnd rest).2 = rest.drop (k + 2) := by simp [blockEnd, hfs]
      rw [hbe] at ih ⊢
      rw [hdec]
      exact spans_drop _ _ _ (by simp) ih
    | none =>
      have hbe : (blockEnd rest).2 = [] := by
        unfold blockEnd
        rw [hfs]
        by_cases hre : rest.isEmpty <;> simp [hre]
      rw [hbe] at ih
      have h0 : sqlAux .code ([] : List Char) = ⟨[], 0, 0⟩ := by rw [sqlAux]
      rw [hbe, h0]
      have hsp := spans_drop ('/' :: '*' :: rest) [] [] (by simp) spans_nil
      simpa using hsp
  case case14 rest ih =>
    have hdec : '-' :: '-' :: rest =
        ('-' :: '-' :: rest.takeWhile notNL) ++ rest.dropWhile notNL := by
      simp
    rw [hdec]
    exact spans_drop _ _ _ (by simp) ih

theorem html_spans : ∀ s : List Char, Spans s (strip_comments_html s).text := by
  intro s
  induction s using strip_comments_html.induct
  case case1 rest k hk ih =>
    rw [strip_comments_html]
    simp only [hk]
    have hdec : '<' :: '!' :: '-' :: '-' :: rest =
        ('<' :: '!' :: '-' :: '-' :: rest.take (k + 3)) ++ rest.drop (k + 3) := by
      simp
    rw [hdec]
    exact spans_drop _ _ _ (by simp) ih
  case case2 rest hk ih =>
    rw [strip_comments_html]
    simp only [hk, Result.consText_text]
    exact spans_keep1 _ _ _ ih
  case case3 c rest hne ih =>
    rw [strip_comments_html]
    · simp only [Result.consText_text]
      exact spans_keep1 _ _ _ ih
    · intros; simp_all
  case case4 =>
    rw [strip_comments_html]
    exact spans_nil

theorem rubyLine_spans : ∀ (st : QMode) (s : List Char), Spans s (rubyLineAux st s).text := by
  intro st s
  induction st, s using rubyLineAux.induct
  all_goals try (rw [rubyLineAux])
  all_goals try (intros; simp_all)
  all_goals first
    | exact spans_nil
    | (rename_i ih; first
        | exact spans_keep1 _ _ _ ih
        | exact spans_keep2 _ _ _ _ ih)
    | skip
  case case10 rest ih =>
    have hdec : '#' :: rest = ('#' :: rest.takeWhile notNL) ++ rest.dropWhile notNL := by simp
    rw [hdec]
    exact spans_drop _ _ _ (by simp) ih

theorem rubyBlock_spans : ∀ s : List Char, Spans s (rubyBlockAux s).text := by
  intro s
  induction s using rubyBlockAux.induct
  case case1 => rw [rubyBlockAux]; exact spans_nil
  case case2 c0 rest0 t hb k v hf ih =>
    have hv : v = ((((c0 :: rest0).dropWhile isWS).drop 6).drop k) := rfl
    have hdec : c0 :: rest0 =
        ((c0 :: rest0).takeWhile isWS ++ ['=', 'b', 'e', 'g', 'i', 'n'] ++
          (((c0 :: rest0).dropWhile isWS).drop 6).take k) ++ v := by
      rw [hv]
      conv_lhs => rw [← List.takeWhile_append_dropWhile (p := isWS) (l := c0 :: rest0)]
      rw [List.append_assoc, List.append_assoc]
      congr 1
      conv_lhs => rw [← List.take_append_drop 6 ((c0 :: rest0).dropWhile isWS)]
      rw [hb]
      congr 1
      rw [List.take_append_drop]
    rw [rubyBlockAux_beginLS c0 rest0 k hb hf]
    rw [← hv]
    rw [hdec]
    exact spans_drop _ _ _ (by simp) ih
  case case3 c0 rest0 t hb k b hf v hLS r2 h2 ih =>
    have hb3 : b = false := by
      cases b
      · rfl
      · exact absurd rfl hLS
    subst hb3
    have hv : v = ((((c0 :: rest0).dropWhile isWS).drop 6).drop k) := rfl
    have hvdec : v = (v.takeWhile notLF ++ ['\n']) ++ r2 := by
      conv_lhs => rw [← List.takeWhile_append_dropWhile (p := notLF) (l := v)]
      rw [h2]
      simp
    have hdec : c0 :: rest0 =
        ((c0 :: rest0).takeWhile isWS ++ ['=', 'b', 'e', 'g', 'i', 'n'] ++
          (((c0 :: rest0).dropWhile isWS).drop 6).take k) ++ v := by
      rw [hv]
      conv_lhs => rw [← List.takeWhile_append_dropWhile (p := isWS) (l := c0 :: rest0)]
      rw [List.append_assoc, List.append_assoc]
      congr 1
      conv_lhs => rw [← List.take_append_drop 6 ((c0 :: rest0).dropWhile isWS)]
      rw [hb]
      congr 1
      rw [List.take_append_drop]
    rw [rubyBlockAux_beginMid c0 rest0 k r2 hb hf h2]
    rw [← hv]
    rw [hdec]
    nth_rewrite 1 [hvdec]
    have hkeep := spans_keep (v.takeWhile notLF ++ ['\n']) r2 (rubyBlockAux r2).text ih
    have hgoal := spans_drop
      ((c0 :: rest0).takeWhile isWS ++ ['=', 'b', 'e', 'g', 'i', 'n'] ++
        (((c0 :: rest0).dropWhile isWS).drop 6).take k) _ _ (by simp) hkeep
    simpa using hgoal
  case case4 c0 rest0 t hb k b hf v hLS hne =>
    have hb3 : b = false := by
      cases b
      · rfl
      · exact absurd rfl hLS
    subst hb3
    have h2 : v.dropWhile notLF = [] := dropWhile_notLF_nil _ (fun r hr => hne r hr)
    have hv : v = ((((c0 :: rest0).dropWhile isWS).drop 6).drop k) := rfl
    have hbody : v.takeWhile notLF = v := takeWhile_of_dropWhile_nil notLF v h2
    have hdec : c0 :: rest0 =
        ((c0 :: rest0).takeWhile isWS ++ ['=', 'b', 'e', 'g', 'i', 'n'] ++
          (((c0 :: rest0).dropWhile isWS).drop 6).take k) ++ v := by
      rw [hv]
      conv_lhs => rw [← List.takeWhile_append_dropWhile (p := isWS) (l := c0 :: rest0)]
      rw [List.append_assoc, List.append_assoc]
      congr 1
      conv_lhs => rw [← List.take_append_drop 6 ((c0 :: rest0).dropWhile isWS)]
      rw [hb]
      congr 1
      rw [List.take_append_drop]
    rw [rubyBlockAux_beginMidEnd c0 rest0 k hb hf h2]
    rw [← hv]
    rw [hbody]
    rw [hdec]
    exact spans_drop _ _ _ (by simp) (spans_refl v)
  case case5 c0 rest0 t hb hf r2 h2 ih =>
    rw [rubyBlockAux_copyLine c0 rest0 r2 (Or.inr hf) h2]
    have hdec : c0 :: rest0 = ((c0 :: rest0).takeWhile notLF ++ ['\n']) ++ r2 := by
      conv_lhs => rw [← List.takeWhile_append_dropWhile (p := notLF) (l := c0 :: rest0)]
      rw [h2]
      simp
    simp only [Result.consText_text]
    nth_rewrite 1 [hdec]
    have := spans_keep ((c0 :: rest0).takeWhile notLF ++ ['\n']) r2 (rubyBlockAux r2).text ih
    simpa using this
  case case6 c0 rest0 t hb hf hne =>
    rw [rubyBlockAux_lastLine c0 rest0 (Or.inr hf) (dropWhile_notLF_nil _ hne)]
    exact spans_refl _
  case case7 c0 rest0 t hb r2 h2 ih =>
    rw [rubyBlockAux_copyLine c0 rest0 r2 (Or.inl hb) h2]
    have hdec : c0 :: rest0 = ((c0 :: rest0).takeWhile notLF ++ ['\n']) ++ r2 := by
      conv_lhs => rw [← List.takeWhile_append_dropWhile (p := notLF) (l := c0 :: rest0)]
      rw [h2]
      simp
    simp only [Result.consText_text]
    nth_rewrite 1 [hdec]
    have := spans_keep ((c0 :: rest0).takeWhile notLF ++ ['\n']) r2 (rubyBlockAux r2).text ih
    simpa using this
  case case8 c0 rest0 t hb hne =>
    rw [rubyBlockAux_lastLine c0 rest0 (Or.inl hb) (dropWhile_notLF_nil _ hne)]
    exact spans_refl _

/-! ## Claim C8: comment removal deletes whole contiguous spans -/

/-- C8 (amended): for the character scanners (C-like, Python, SQL, HTML, and
both Ruby passes) the cleaned text is the input with whole contiguous spans
deleted — there is a segmentation of the input into kept and (nonempty)
removed segments whose kept part joins to the output — so every line-ending
character outside removed spans survives and none is invented.  The INI/TOML/
YAML profiles violate this (see the counterexample): a cut line's terminator
is rewritten to a bare newline and trailing whitespace is dropped. -/
theorem claim_C8 :
    (∀ (hash bt : Bool) (st : CMode) (d : Nat) (f : Bool) (s : List Char),
      Spans s (clikeAux hash bt st d f s).text) ∧
    (∀ (st : PMode) (f : Bool) (s : List Char), Spans s (pyAux st f s).text) ∧
    (∀ (st : SMode) (s : List Char), Spans s (sqlAux st s).text) ∧
    (∀ s : List Char, Spans s (strip_comments_html s).text) ∧
    (∀ s : List Char, Spans s (rubyBlockAux s).text) ∧
    (∀ (st : QMode) (s : List Char), Spans s (rubyLineAux st s).text) :=
  ⟨clike_spans, py_spans, sql_spans, html_spans, rubyBlock_spans, rubyLine_spans⟩


/-! Idempotence of the C-like, Python, and INI scanners. -/

theorem clike_plain_head (hash bt : Bool) (d : Nat) (f : Bool) (c : Char) (r : List Char)
    (h1 : c ≠ '\'') (h2 : c ≠ '"') (h3 : c ≠ '`') (h4 : c ≠ '/') (h5 : c ≠ '#') :
    (clikeAux hash bt .code d f (c :: r)).text.head? = some c := by
  rw [clikeAux]
  · simp
  all_goals (intros; simp_all)

theorem clike_code_head (hash bt : Bool) (d : Nat) (f : Bool) (c : Char) (r : List Char)
    (h4 : c ≠ '/') :
    (clikeAux hash bt .code d f (c :: r)).text.head? = some c ∨
    (clikeAux hash bt .code d f (c :: r)).text.head? = some '\n' ∨
    (clikeAux hash bt .code d f (c :: r)).text.head? = some '\r' ∨
    (clikeAux hash bt .code d f (c :: r)).text.head? = none := by
  by_cases h1 : c = '\''
  · subst h1
    rw [clikeAux]
    split <;> simp
  by_cases h2 : c = '"'
  · subst h2
    rw [clikeAux]
    simp
  by_cases h3 : c = '`'
  · subst h3
    rw [clikeAux]
    split <;> simp
  by_cases h5 : c = '#'
  · subst h5
    rw [clikeAux]
    by_cases hh : hash
    · simp only [hh, if_true]
      by_cases hsb : f = true ∧ r.head? = some '!'
      · simp [hsb]
      · simp only [if_neg hsb]
        rcases hd : r.dropWhile notNL with _ | ⟨c2, r2⟩
        · rw [clikeAux]
          simp
        · have hc2 := dropWhile_head_false notNL r c2 r2 hd
          have hc2' : c2 = '\n' ∨ c2 = '\r' := by
            simp [notNL] at hc2
            tauto
          rcases hc2' with h | h <;> subst h <;>
            rw [clike_plain_head _ bt d false _ _ (by decide) (by decide) (by decide)
              (by decide) (by decide)] <;> simp
    · have hh2 : hash = false := by simpa using hh
      simp [hh2]
  · rw [clike_plain_head hash bt d f c r h1 h2 h3 h4 h5]
    simp

theorem clike_tmpl_head (hash bt : Bool) (d : Nat) (f : Bool) (c : Char) (r : List Char) :
    (clikeAux hash bt .inTemplate d f (c :: r)).text.head? = some c := by
  by_cases h1 : c = '\\'
  · subst h1
    cases r with
    | nil =>
      rw [clikeAux]
      · simp
      all_goals (intros; simp_all)
    | cons c2 r2 =>
      rw [clikeAux]
      simp
  by_cases h2 : c = '`'
  · subst h2
    rw [clikeAux]
    simp
  by_cases h3 : c = '$'
  · subst h3
    rcases r with _ | ⟨c2, r2⟩
    · rw [clikeAux]
      · simp
      all_goals (intros; simp_all)
    · by_cases hb : c2 = '{'
      · subst hb
        rw [clikeAux]
        simp
      · rw [clikeAux]
        · simp
        all_goals (intros; simp_all)
  by_cases h4 : c = '}'
  · subst h4
    rw [clikeAux]
    simp
  · rw [clikeAux]
    · simp
    all_goals (intros; simp_all)

theorem clike_no_hash_head (hash bt : Bool) : ∀ (st : CMode) (d : Nat) (f : Bool) (s : List Char),
    hash = true → st = .code → f = false →
    (clikeAux hash bt st d f s).text.head? ≠ some '#' := by
  intro st d f s
  induction st, d, f, s using clikeAux.induct hash bt
  all_goals intro hh hst hf
  all_goals first
    | exact CMode.noConfusion hst
    | skip
  case case18 d x rest ih =>
    rw [clikeAux]
    simp only []
    rcases hd : rest.dropWhile notNL with _ | ⟨c2, r2⟩
    · rw [clikeAux]
      simp
    · have hc2 := dropWhile_head_false notNL rest c2 r2 hd
      have hc2' : c2 = '\n' ∨ c2 = '\r' := by
        simp [notNL] at hc2
        tauto
      rcases hc2' with h | h <;> subst h <;>
        rw [clike_plain_head _ bt d false _ _ (by decide) (by decide) (by decide)
          (by decide) (by decide)] <;> simp
  case case19 d x rest ih =>
    rw [clikeAux]
    simp only []
    exact ih hh rfl rfl
  case case21 d first rest hhash hcond ih =>
    subst hf
    rw [clikeAux]
    simp only [hhash, if_true]
    have hcnd : ¬(false = true ∧ rest.head? = some '!') := by simp
    rw [if_neg hcnd]
    simp only []
    rcases hd : rest.dropWhile notNL with _ | ⟨c2, r2⟩
    · rw [clikeAux]
      simp
    · have hc2 := dropWhile_head_false notNL rest c2 r2 hd
      have hc2' : c2 = '\n' ∨ c2 = '\r' := by
        simp [notNL] at hc2
        tauto
      rcases hc2' with h | h <;> subst h <;>
        rw [clike_plain_head _ bt d false _ _ (by decide) (by decide) (by decide)
          (by decide) (by decide)] <;> simp
  all_goals simp_all [clikeAux, Result.consText]

set_option maxHeartbeats 1000000 in
theorem clike_step_tmpl (hash bt : Bool) (d : Nat) (f : Bool) (c : Char) (T : List Char)
    (h1 : c ≠ '\\') (h2 : c ≠ '`') (h3 : ∀ r', c = '$' → T = '{' :: r' → False)
    (h4 : c ≠ '}') :
    clikeAux hash bt .inTemplate d f (c :: T) =
      .consText [c] (clikeAux hash bt .inTemplate d false T) := by
  rw [clikeAux]
  all_goals (intros; simp_all)

theorem clike_step_code (hash bt : Bool) (d : Nat) (f : Bool) (c : Char) (T : List Char)
    (h1 : c ≠ '\'') (h2 : c ≠ '"') (h3 : c ≠ '`') (h5 : c ≠ '#')
    (h6 : ∀ r', c = '/' → T = '/' :: r' → False)
    (h7 : ∀ r', c = '/' → T = '*' :: r' → False) :
    clikeAux hash bt .code d f (c :: T) = .consText [c] (clikeAux hash bt .code d false T) := by
  rw [clikeAux]
  all_goals (intros; simp_all)

set_option maxHeartbeats 1000000 in
theorem clike_idem_aux (hash bt : Bool) : ∀ (st : CMode) (d : Nat) (f : Bool) (s : List Char),
    ∀ (d2 : Nat) (f2 : Bool),
    (f2 = f ∨ hash = false ∨ (clikeAux hash bt st d f s).text.head? ≠ some '#') →
    clikeAux hash bt st d2 f2 ((clikeAux hash bt st d f s).text) =
      ⟨(clikeAux hash bt st d f s).text, 0, 0⟩ := by
  intro st d f s
  induction st, d, f, s using clikeAux.induct hash bt
  case case1 =>
    intro d2 f2 hc
    simp [clikeAux]
  case case2 d x c rest ih =>
    intro d2 f2 hc
    rw [clikeAux]
    simp only [Result.consText_text, List.cons_append, List.nil_append]
    rw [clikeAux]
    rw [ih d2 false (Or.inl rfl)]
    simp [Result.consText]
  case case3 d x rest ih =>
    intro d2 f2 hc
    rw [clikeAux]
    simp only [Result.consText_text, List.cons_append, List.nil_append]
    rw [clikeAux]
    rw [ih d2 false (Or.inl rfl)]
    simp [Result.consText]
  case case4 d x c rest hdis hne ih =>
    intro d2 f2 hc
    by_cases hsl : c = '\\'
    · subst hsl
      have hrest : rest = [] := by
        rcases rest with _ | ⟨a, b⟩
        · rfl
        · exact absurd rfl (hdis a b rfl)
      subst hrest
      simp [clikeAux, Result.consText]
    · rw [clikeAux]
      · simp only [Result.consText_text, List.cons_append, List.nil_append]
        rw [clikeAux]
        · rw [ih d2 false (Or.inl rfl)]
          simp [Result.consText]
        all_goals (intros; simp_all)
      all_goals (intros; simp_all)
  case case5 d x c rest ih =>
    intro d2 f2 hc
    rw [clikeAux]
    simp only [Result.consText_text, List.cons_append, List.nil_append]
    rw [clikeAux]
    rw [ih d2 false (Or.inl rfl)]
    simp [Result.consText]
  case case6 d x rest ih =>
    intro d2 f2 hc
    rw [clikeAux]
    simp only [Result.consText_text, List.cons_append, List.nil_append]
    rw [clikeAux]
    rw [ih d2 false (Or.inl rfl)]
    simp [Result.consText]
  case case7 d x c rest hdis hne ih =>
    intro d2 f2 hc
    by_cases hsl : c = '\\'
    · subst hsl
      have hrest : rest = [] := by
        rcases rest with _ | ⟨a, b⟩
        · rfl
        · exact absurd rfl (hdis a b rfl)
      subst hrest
      simp [clikeAux, Result.consText]
    · rw [clikeAux]
      · simp only [Result.consText_text, List.cons_append, List.nil_append]
        rw [clikeAux]
        · rw [ih d2 false (Or.inl rfl)]
          simp [Result.consText]
        all_goals (intros; simp_all)
      all_goals (intros; simp_all)
  case case8 d x c rest ih =>
    intro d2 f2 hc
    rw [clikeAux]
    simp only [Result.consText_text, List.cons_append, List.nil_append]
    rw [clikeAux]
    rw [ih d2 false (Or.inl rfl)]
    simp [Result.consText]
  case case9 d x rest ih =>
    intro d2 f2 hc
    rw [clikeAux]
    simp only [Result.consText_text, List.cons_append, List.nil_append]
    rw [clikeAux]
    rw [ih d2 false (Or.inl rfl)]
    simp [Result.consText]
  case case10 d x rest ih =>
    intro d2 f2 hc
    rw [clikeAux]
    simp only [Result.consText_text, List.cons_append, List.nil_append]
    rw [clikeAux]
    rw [ih (d2 + 1) false (Or.inl rfl)]
    simp [Result.consText]
  case case11 d x rest ih =>
    intro d2 f2 hc
    rw [clikeAux]
    simp only [Result.consText_text, List.cons_append, List.nil_append]
    rw [clikeAux]
    simp only [dite_eq_ite] at ih
    rw [ih (if 0 < d2 then d2 - 1 else d2) false (Or.inl rfl)]
    simp [Result.consText]
  case case12 d x c rest hdis1 hne1 hdis2 hne2 ih =>
    intro d2 f2 hc
    by_cases hsl : c = '\\'
    · subst hsl
      have hrest : rest = [] := by
        rcases rest with _ | ⟨a, b⟩
        · rfl
        · exact absurd rfl (hdis1 a b rfl)
      subst hrest
      simp [clikeAux, Result.consText]
    · by_cases hdl : c = '$'
      · subst hdl
        rw [clikeAux]
        · simp only [Result.consText_text, List.cons_append, List.nil_append]
          rcases rest with _ | ⟨c2, r2⟩
          · simp [clikeAux, Result.consText]
          · have hc2 : c2 ≠ '{' := by
              intro h
              subst h
              exact hdis2 r2 rfl rfl
            have hhd := clike_tmpl_head hash bt d false c2 r2
            rw [clike_step_tmpl hash bt d2 f2 '$' _ (by decide) (by decide)
              (fun r' _ hT => by rw [hT] at hhd; simp at hhd; exact hc2 hhd.symm)
              (by decide)]
            rw [ih d2 false (Or.inl rfl)]
            simp [Result.consText]
        all_goals (intros; simp_all)
      · rw [clikeAux]
        · simp only [Result.consText_text, List.cons_append, List.nil_append]
          rw [clikeAux]
          · rw [ih d2 false (Or.inl rfl)]
            simp [Result.consText]
          all_goals (intros; simp_all)
        all_goals (intros; simp_all)
  case case13 d x rest hbt ih =>
    intro d2 f2 hc
    rw [clikeAux, if_pos hbt]
    simp only [Result.consText_text, List.cons_append, List.nil_append]
    rw [clikeAux, if_pos hbt]
    rw [ih d2 false (Or.inl rfl)]
    simp [Result.consText]
  case case14 d x rest hbt ih =>
    intro d2 f2 hc
    rw [clikeAux, if_neg (by simp [hbt])]
    simp only [Result.consText_text, List.cons_append, List.nil_append]
    rw [clikeAux, if_neg (by simp [hbt])]
    rw [ih d2 false (Or.inl rfl)]
    simp [Result.consText]
  case case15 d x rest ih =>
    intro d2 f2 hc
    rw [clikeAux]
    simp only [Result.consText_text, List.cons_append, List.nil_append]
    rw [clikeAux]
    rw [ih d2 false (Or.inl rfl)]
    simp [Result.consText]
  case case16 d x rest hbt ih =>
    intro d2 f2 hc
    rw [clikeAux, if_pos hbt]
    simp only [Result.consText_text, List.cons_append, List.nil_append]
    rw [clikeAux, if_pos hbt]
    rw [ih 0 false (Or.inl rfl)]
    simp [Result.consText]
  case case17 d x rest hbt ih =>
    intro d2 f2 hc
    rw [clikeAux, if_neg (by simp [hbt])]
    simp only [Result.consText_text, List.cons_append, List.nil_append]
    rw [clikeAux, if_neg (by simp [hbt])]
    rw [ih d2 false (Or.inl rfl)]
    simp [Result.consText]
  case case18 d x rest ih =>
    intro d2 f2 hc
    rw [clikeAux]
    simp only []
    have hhd : (clikeAux hash bt .code d false (rest.dropWhile notNL)).text.head? ≠
        some '#' := by
      rcases hd : rest.dropWhile notNL with _ | ⟨c2, r2⟩
      · rw [clikeAux]
        simp
      · have hc2 := dropWhile_head_false notNL rest c2 r2 hd
        have hc2' : c2 = '\n' ∨ c2 = '\r' := by
          simp [notNL] at hc2
          tauto
        rcases hc2' with h | h <;> subst h <;>
          rw [clike_plain_head _ bt d false _ _ (by decide) (by decide) (by decide)
            (by decide) (by decide)] <;> simp
    exact ih d2 f2 (Or.inr (Or.inr hhd))
  case case19 d x rest ih =>
    intro d2 f2 hc
    rw [clikeAux]
    simp only []
    by_cases hh : hash = true
    · exact ih d2 f2 (Or.inr (Or.inr
        (clike_no_hash_head hash bt .code d false (blockEnd rest).2 hh rfl rfl)))
    · exact ih d2 f2 (Or.inr (Or.inl (by simpa using hh)))
  case case20 d first rest hhash hsb ih =>
    intro d2 f2 hc
    obtain ⟨hf1, hf2⟩ := hsb
    subst hf1
    rw [clikeAux, if_pos hhash, if_pos ⟨rfl, hf2⟩]
    simp only [Result.consText_text, List.cons_append, List.nil_append]
    rcases rest with _ | ⟨cr, rrest⟩
    · simp at hf2
    · have hcr : cr = '!' := by simpa using hf2
      subst hcr
      have hT : (clikeAux hash bt .code d false ('!' :: rrest)).text.head? = some '!' :=
        clike_plain_head hash bt d false '!' rrest (by decide) (by decide) (by decide)
          (by decide) (by decide)
      have hf2' : f2 = true := by
        rcases hc with h | h | h
        · exact h
        · exact absurd hhash (by simp [h])
        · exfalso
          apply h
          rw [clikeAux, if_pos hhash, if_pos ⟨rfl, by simp⟩]
          simp
      subst hf2'
      rw [clikeAux, if_pos hhash, if_pos ⟨rfl, hT⟩]
      rw [ih d2 false (Or.inl rfl)]
      simp [Result.consText]
  case case21 d first rest hhash hcond ih =>
    intro d2 f2 hc
    have hcnd : ¬(first = true ∧ rest.head? = some '!') := hcond
    rw [clikeAux, if_pos hhash, if_neg hcnd]
    simp only []
    have hhd : (clikeAux hash bt .code d false (rest.dropWhile notNL)).text.head? ≠
        some '#' := by
      rcases hd : rest.dropWhile notNL with _ | ⟨c2, r2⟩
      · rw [clikeAux]
        simp
      · have hc2 := dropWhile_head_false notNL rest c2 r2 hd
        have hc2' : c2 = '\n' ∨ c2 = '\r' := by
          simp [notNL] at hc2
          tauto
        rcases hc2' with h | h <;> subst h <;>
          rw [clike_plain_head _ bt d false _ _ (by decide) (by decide) (by decide)
            (by decide) (by decide)] <;> simp
    exact ih d2 f2 (Or.inr (Or.inr hhd))
  case case22 d first rest hhash ih =>
    intro d2 f2 hc
    rw [clikeAux, if_neg (by simp [hhash])]
    simp only [Result.consText_text, List.cons_append, List.nil_append]
    rw [clikeAux, if_neg (by simp [hhash])]
    rw [ih d2 false (Or.inl rfl)]
    simp [Result.consText]
  case case23 d x c rest hne1 hne2 hne3 hdis1 hdis2 hne4 ih =>
    intro d2 f2 hc
    rw [clikeAux]
    · simp only [Result.consText_text, List.cons_append, List.nil_append]
      by_cases hcs : c = '/'
      · subst hcs
        rcases rest with _ | ⟨c2, r2⟩
        · simp [clikeAux, Result.consText]
        · have hc2a : c2 ≠ '/' := by
            intro h
            subst h
            exact hdis1 r2 rfl rfl
          have hc2b : c2 ≠ '*' := by
            intro h
            subst h
            exact hdis2 r2 rfl rfl
          have hhd := clike_code_head hash bt d false c2 r2 hc2a
          rw [clike_step_code hash bt d2 f2 '/' _ (by decide) (by decide) (by decide)
            (by decide)
            (fun r' _ hT => by
              rcases hhd with h | h | h | h <;> rw [hT] at h <;> simp at h
              exact hc2a h.symm)
            (fun r' _ hT => by
              rcases hhd with h | h | h | h <;> rw [hT] at h <;> simp at h
              exact hc2b h.symm)]
          rw [ih d2 false (Or.inl rfl)]
          simp [Result.consText]
      · rw [clikeAux]
        · rw [ih d2 false (Or.inl rfl)]
          simp [Result.consText]
        all_goals (intros; simp_all)
    all_goals (intros; simp_all)

theorem clike_idem (hash bt : Bool) (src : List Char) :
    strip_comments_c_like ((strip_comments_c_like src hash bt).text) hash bt =
      ⟨(strip_comments_c_like src hash bt).text, 0, 0⟩ := by
  unfold strip_comments_c_like
  exact clike_idem_aux hash bt .code 0 true src 0 true (Or.inl rfl)

/-! Python idempotence -/

theorem py_plain_head (f : Bool) (c : Char) (r : List Char)
    (h1 : c ≠ '\'') (h2 : c ≠ '"') (h5 : c ≠ '#') :
    (pyAux .code f (c :: r)).text.head? = some c := by
  rw [pyAux]
  · simp
  all_goals (intros; simp_all)

theorem py_code_head (f : Bool) (c : Char) (r : List Char) :
    (pyAux .code f (c :: r)).text.head? = some c ∨
    (pyAux .code f (c :: r)).text.head? = some '\n' ∨
    (pyAux .code f (c :: r)).text.head? = some '\r' ∨
    (pyAux .code f (c :: r)).text.head? = none := by
  by_cases h1 : c = '\''
  · subst h1
    by_cases hr : ∃ t, r = '\'' :: '\'' :: t
    · obtain ⟨t, ht⟩ := hr
      subst ht
      rw [pyAux]
      simp
    · rw [pyAux]
      · simp
      all_goals (intros; simp_all)
  by_cases h2 : c = '"'
  · subst h2
    by_cases hr : ∃ t, r = '"' :: '"' :: t
    · obtain ⟨t, ht⟩ := hr
      subst ht
      rw [pyAux]
      simp
    · rw [pyAux]
      · simp
      all_goals (intros; simp_all)
  by_cases h5 : c = '#'
  · subst h5
    rw [pyAux]
    by_cases hsb : f = true ∧ r.head? = some '!'
    · simp [hsb]
    · simp only [if_neg hsb]
      rcases hd : r.dropWhile notNL with _ | ⟨c2, r2⟩
      · rw [pyAux]
        simp
      · have hc2 := dropWhile_head_false notNL r c2 r2 hd
        have hc2' : c2 = '\n' ∨ c2 = '\r' := by
          simp [notNL] at hc2
          tauto
        rcases hc2' with h | h <;> subst h <;>
          rw [py_plain_head false _ _ (by decide) (by decide) (by decide)] <;> simp
  · rw [py_plain_head f c r h1 h2 h5]
    simp

theorem py_sgl_head (f : Bool) (c : Char) (r : List Char) :
    (pyAux .inSgl f (c :: r)).text.head? = some c := by
  by_cases h1 : c = '\\'
  · subst h1
    cases r with
    | nil =>
      rw [pyAux]
      · simp
      all_goals (intros; simp_all)
    | cons c2 r2 =>
      rw [pyAux]
      simp
  by_cases h2 : c = '\''
  · subst h2
    rw [pyAux]
    simp
  · rw [pyAux]
    · simp
    all_goals (intros; simp_all)

theorem py_dbl_head (f : Bool) (c : Char) (r : List Char) :
    (pyAux .inDbl f (c :: r)).text.head? = some c := by
  by_cases h1 : c = '\\'
  · subst h1
    cases r with
    | nil =>
      rw [pyAux]
      · simp
      all_goals (intros; simp_all)
    | cons c2 r2 =>
      rw [pyAux]
      simp
  by_cases h2 : c = '"'
  · subst h2
    rw [pyAux]
    simp
  · rw [pyAux]
    · simp
    all_goals (intros; simp_all)

theorem py_tsq_head (f : Bool) (c : Char) (r : List Char) :
    (pyAux .inTsq f (c :: r)).text.head? = some c := by
  by_cases h1 : c = '\''
  · subst h1
    by_cases hr : ∃ t, r = '\'' :: '\'' :: t
    · obtain ⟨t, ht⟩ := hr
      subst ht
      rw [pyAux]
      simp
    · rw [pyAux]
      · simp
      all_goals (intros; simp_all)
  · rw [pyAux]
    · simp
    all_goals (intros; simp_all)

theorem py_tdq_head (f : Bool) (c : Char) (r : List Char) :
    (pyAux .inTdq f (c :: r)).text.head? = some c := by
  by_cases h1 : c = '"'
  · subst h1
    by_cases hr : ∃ t, r = '"' :: '"' :: t
    · obtain ⟨t, ht⟩ := hr
      subst ht
      rw [pyAux]
      simp
    · rw [pyAux]
      · simp
      all_goals (intros; simp_all)
  · rw [pyAux]
    · simp
    all_goals (intros; simp_all)

theorem py_step_code (f : Bool) (c : Char) (T : List Char)
    (h1 : c ≠ '\'') (h2 : c ≠ '"') (h5 : c ≠ '#') :
    pyAux .code f (c :: T) = .consText [c] (pyAux .code false T) := by
  rw [pyAux]
  all_goals (intros; simp_all)

theorem py_step_sglopen (f : Bool) (T : List Char)
    (h : ∀ r', T = '\'' :: '\'' :: r' → False) :
    pyAux .code f ('\'' :: T) = .consText ['\''] (pyAux .inSgl false T) := by
  rw [pyAux]
  all_goals (intros; simp_all)

theorem py_step_dblopen (f : Bool) (T : List Char)
    (h : ∀ r', T = '"' :: '"' :: r' → False) :
    pyAux .code f ('"' :: T) = .consText ['"'] (pyAux .inDbl false T) := by
  rw [pyAux]
  all_goals (intros; simp_all)

theorem py_step_tsq (f : Bool) (c : Char) (T : List Char)
    (h : ∀ r', c = '\'' → T = '\'' :: '\'' :: r' → False) :
    pyAux .inTsq f (c :: T) = .consText [c] (pyAux .inTsq false T) := by
  rw [pyAux]
  all_goals (intros; simp_all)

theorem py_step_tdq (f : Bool) (c : Char) (T : List Char)
    (h : ∀ r', c = '"' → T = '"' :: '"' :: r' → False) :
    pyAux .inTdq f (c :: T) = .consText [c] (pyAux .inTdq false T) := by
  rw [pyAux]
  all_goals (intros; simp_all)

set_option maxHeartbeats 1000000 in
theorem py_idem_aux : ∀ (st : PMode) (f : Bool) (s : List Char), ∀ f2 : Bool,
    (f2 = f ∨ (pyAux st f s).text.head? ≠ some '#') →
    pyAux st f2 ((pyAux st f s).text) = ⟨(pyAux st f s).text, 0, 0⟩ := by
  intro st f s
  induction st, f, s using pyAux.induct
  case case1 =>
    intro f2 hc
    simp [pyAux]
  case case2 x c rest ih =>
    intro f2 hc
    rw [pyAux]
    simp only [Result.consText_text, List.cons_append, List.nil_append]
    rw [pyAux]
    rw [ih false (Or.inl rfl)]
    simp [Result.consText]
  case case3 x rest ih =>
    intro f2 hc
    rw [pyAux]
    simp only [Result.consText_text, List.cons_append, List.nil_append]
    rw [pyAux]
    rw [ih false (Or.inl rfl)]
    simp [Result.consText]
  case case4 x c rest hdis hne ih =>
    intro f2 hc
    by_cases hsl : c = '\\'
    · subst hsl
      have hrest : rest = [] := by
        rcases rest with _ | ⟨a, b⟩
        · rfl
        · exact absurd rfl (fun h => hdis a b rfl h)
      subst hrest
      simp [pyAux, Result.consText]
    · rw [pyAux]
      · simp only [Result.consText_text, List.cons_append, List.nil_append]
        rw [pyAux]
        · rw [ih false (Or.inl rfl)]
          simp [Result.consText]
        all_goals (intros; simp_all)
      all_goals (intros; simp_all)
  case case5 x c rest ih =>
    intro f2 hc
    rw [pyAux]
    simp only [Result.consText_text, List.cons_append, List.nil_append]
    rw [pyAux]
    rw [ih false (Or.inl rfl)]
    simp [Result.consText]
  case case6 x rest ih =>
    intro f2 hc
    rw [pyAux]
    simp only [Result.consText_text, List.cons_append, List.nil_append]
    rw [pyAux]
    rw [ih false (Or.inl rfl)]
    simp [Result.consText]
  case case7 x c rest hdis hne ih =>
    intro f2 hc
    by_cases hsl : c = '\\'
    · subst hsl
      have hrest : rest = [] := by
        rcases rest with _ | ⟨a, b⟩
        · rfl
        · exact absurd rfl (fun h => hdis a b rfl h)
      subst hrest
      simp [pyAux, Result.consText]
    · rw [pyAux]
      · simp only [Result.consText_text, List.cons_append, List.nil_append]
        rw [pyAux]
        · rw [ih false (Or.inl rfl)]
          simp [Result.consText]
        all_goals (intros; simp_all)
      all_goals (intros; simp_all)
  case case8 x rest ih =>
    intro f2 hc
    rw [pyAux]
    simp only [Result.consText_text, List.cons_append, List.nil_append]
    rw [pyAux]
    rw [ih false (Or.inl rfl)]
    simp [Result.consText]
  case case9 x c rest hdis ih =>
    intro f2 hc
    by_cases hq : c = '\''
    · subst hq
      rcases rest with _ | ⟨a, b⟩
      · simp [pyAux, Result.consText]
      · by_cases ha : a = '\''
        · subst ha
          have hb : ∀ r', b = '\'' :: r' → False := fun r' hbb => hdis r' rfl (by rw [hbb])
          have hstep1 : pyAux .inTsq false ('\'' :: b) =
              .consText ['\''] (pyAux .inTsq false b) :=
            py_step_tsq false '\'' b (fun r' _ hbb => hb ('\'' :: r') (by rw [hbb]))
          have hXhead : (pyAux .inTsq false b).text.head? ≠ some '\'' := by
            rcases b with _ | ⟨b0, b1⟩
            · rw [pyAux]
              simp
            · have hb0 : b0 ≠ '\'' := fun h => hb b1 (by rw [h])
              rw [py_tsq_head false b0 b1]
              simp [hb0]
          have hT' : (pyAux .inTsq false ('\'' :: b)).text =
              '\'' :: (pyAux .inTsq false b).text := by
            rw [hstep1]
            simp [Result.consText]
          have hcond : ∀ r', (pyAux .inTsq false ('\'' :: b)).text =
              '\'' :: '\'' :: r' → False := by
            intro r' h
            rw [hT'] at h
            obtain ⟨h1, h2⟩ := List.cons.inj h
            exact hXhead (by rw [h2]; rfl)
          rw [pyAux]
          · simp only [Result.consText_text, List.cons_append, List.nil_append]
            rw [py_step_tsq f2 '\'' _ (fun r' _ h => hcond r' h)]
            rw [ih false (Or.inl rfl)]
            simp [Result.consText]
          all_goals (intros; rename_i hx1 hx2; exact hb _ (List.cons.inj hx2).2)
        · rw [pyAux]
          · simp only [Result.consText_text, List.cons_append, List.nil_append]
            have hhd := py_tsq_head false a b
            rw [py_step_tsq f2 '\'' _ (fun r' _ h => by
              rw [h] at hhd
              simp at hhd
              exact ha hhd.symm)]
            rw [ih false (Or.inl rfl)]
            simp [Result.consText]
          all_goals (intros; rename_i hx1 hx2; exact ha (List.cons.inj hx2).1)
    · rw [pyAux]
      · simp only [Result.consText_text, List.cons_append, List.nil_append]
        rw [py_step_tsq f2 c _ (fun r' hcq _ => hq hcq)]
        rw [ih false (Or.inl rfl)]
        simp [Result.consText]
      all_goals (intros; simp_all)
  case case10 x rest ih =>
    intro f2 hc
    rw [pyAux]
    simp only [Result.consText_text, List.cons_append, List.nil_append]
    rw [pyAux]
    rw [ih false (Or.inl rfl)]
    simp [Result.consText]
  case case11 x c rest hdis ih =>
    intro f2 hc
    by_cases hq : c = '"'
    · subst hq
      rcases rest with _ | ⟨a, b⟩
      · simp [pyAux, Result.consText]
      · by_cases ha : a = '"'
        · subst ha
          have hb : ∀ r', b = '"' :: r' → False := fun r' hbb => hdis r' rfl (by rw [hbb])
          have hstep1 : pyAux .inTdq false ('"' :: b) =
              .consText ['"'] (pyAux .inTdq false b) :=
            py_step_tdq false '"' b (fun r' _ hbb => hb ('"' :: r') (by rw [hbb]))
          have hXhead : (pyAux .inTdq false b).text.head? ≠ some '"' := by
            rcases b with _ | ⟨b0, b1⟩
            · rw [pyAux]
              simp
            · have hb0 : b0 ≠ '"' := fun h => hb b1 (by rw [h])
              rw [py_tdq_head false b0 b1]
              simp [hb0]
          have hT' : (pyAux .inTdq false ('"' :: b)).text =
              '"' :: (pyAux .inTdq false b).text := by
            rw [hstep1]
            simp [Result.consText]
          have hcond : ∀ r', (pyAux .inTdq false ('"' :: b)).text =
              '"' :: '"' :: r' → False := by
            intro r' h
            rw [hT'] at h
            obtain ⟨h1, h2⟩ := List.cons.inj h
            exact hXhead (by rw [h2]; rfl)
          rw [pyAux]
          · simp only [Result.consText_text, List.cons_append, List.nil_append]
            rw [py_step_tdq f2 '"' _ (fun r' _ h => hcond r' h)]
            rw [ih false (Or.inl rfl)]
            simp [Result.consText]
          all_goals (intros; rename_i hx1 hx2; exact hb _ (List.cons.inj hx2).2)
        · rw [pyAux]
          · simp only [Result.consText_text, List.cons_append, List.nil_append]
            have hhd := py_tdq_head false a b
            rw [py_step_tdq f2 '"' _ (fun r' _ h => by
              rw [h] at hhd
              simp at hhd
              exact ha hhd.symm)]
            rw [ih false (Or.inl rfl)]
            simp [Result.consText]
          all_goals (intros; rename_i hx1 hx2; exact ha (List.cons.inj hx2).1)
    · rw [pyAux]
      · simp only [Result.consText_text, List.cons_append, List.nil_append]
        rw [py_step_tdq f2 c _ (fun r' hcq _ => hq hcq)]
        rw [ih false (Or.inl rfl)]
        simp [Result.consText]
      all_goals (intros; simp_all)
  case case12 x rest ih =>
    intro f2 hc
    rw [pyAux]
    simp only [Result.consText_text, List.cons_append, List.nil_append]
    rw [pyAux]
    rw [ih false (Or.inl rfl)]
    simp [Result.consText]
  case case13 x rest ih =>
    intro f2 hc
    rw [pyAux]
    simp only [Result.consText_text, List.cons_append, List.nil_append]
    rw [pyAux]
    rw [ih false (Or.inl rfl)]
    simp [Result.consText]
  case case14 x rest hdis ih =>
    intro f2 hc
    have hcond : ∀ r', (pyAux .inSgl false rest).text = '\'' :: '\'' :: r' → False := by
      rcases rest with _ | ⟨a, b⟩
      · intro r' h
        rw [pyAux] at h
        simp at h
      · by_cases ha : a = '\''
        · subst ha
          have hb : ∀ r', b = '\'' :: r' → False := fun r' hbb => hdis r' (by rw [hbb])
          have hstep1 : pyAux .inSgl false ('\'' :: b) =
              .consText ['\''] (pyAux .code false b) := by
            rw [pyAux]
          have hVhead : (pyAux .code false b).text.head? ≠ some '\'' := by
            rcases b with _ | ⟨b0, b1⟩
            · rw [pyAux]
              simp
            · have hb0 : b0 ≠ '\'' := fun h => hb b1 (by rw [h])
              rcases py_code_head false b0 b1 with h | h | h | h <;> rw [h] <;> simp <;>
                exact fun hx => hb0 hx
          intro r' h
          rw [hstep1] at h
          simp [Result.consText] at h
          exact hVhead (by rw [h]; rfl)
        · intro r' h
          have hhd := py_sgl_head false a b
          rw [h] at hhd
          simp at hhd
          exact ha hhd.symm
    rw [pyAux]
    · simp only [Result.consText_text, List.cons_append, List.nil_append]
      rw [py_step_sglopen f2 _ hcond]
      rw [ih false (Or.inl rfl)]
      simp [Result.consText]
    all_goals (intros; simp_all)
  case case15 x rest hdis ih =>
    intro f2 hc
    have hcond : ∀ r', (pyAux .inDbl false rest).text = '"' :: '"' :: r' → False := by
      rcases rest with _ | ⟨a, b⟩
      · intro r' h
        rw [pyAux] at h
        simp at h
      · by_cases ha : a = '"'
        · subst ha
          have hb : ∀ r', b = '"' :: r' → False := fun r' hbb => hdis r' (by rw [hbb])
          have hstep1 : pyAux .inDbl false ('"' :: b) =
              .consText ['"'] (pyAux .code false b) := by
            rw [pyAux]
          have hVhead : (pyAux .code false b).text.head? ≠ some '"' := by
            rcases b with _ | ⟨b0, b1⟩
            · rw [pyAux]
              simp
            · have hb0 : b0 ≠ '"' := fun h => hb b1 (by rw [h])
              rcases py_code_head false b0 b1 with h | h | h | h <;> rw [h] <;> simp <;>
                exact fun hx => hb0 hx
          intro r' h
          rw [hstep1] at h
          simp [Result.consText] at h
          exact hVhead (by rw [h]; rfl)
        · intro r' h
          have hhd := py_dbl_head false a b
          rw [h] at hhd
          simp at hhd
          exact ha hhd.symm
    rw [pyAux]
    · simp only [Result.consText_text, List.cons_append, List.nil_append]
      rw [py_step_dblopen f2 _ hcond]
      rw [ih false (Or.inl rfl)]
      simp [Result.consText]
    all_goals (intros; simp_all)
  case case16 first rest hsb ih =>
    intro f2 hc
    obtain ⟨hf1, hf2⟩ := hsb
    subst hf1
    rw [pyAux, if_pos ⟨rfl, hf2⟩]
    simp only [Result.consText_text, List.cons_append, List.nil_append]
    rcases rest with _ | ⟨cr, rrest⟩
    · simp at hf2
    · have hcr : cr = '!' := by simpa using hf2
      subst hcr
      have hT : (pyAux .code false ('!' :: rrest)).text.head? = some '!' :=
        py_plain_head false '!' rrest (by decide) (by decide) (by decide)
      have hf2' : f2 = true := by
        rcases hc with h | h
        · exact h
        · exfalso
          apply h
          rw [pyAux, if_pos ⟨rfl, by simp⟩]
          simp
      subst hf2'
      rw [pyAux, if_pos ⟨rfl, hT⟩]
      rw [ih false (Or.inl rfl)]
      simp [Result.consText]
  case case17 first rest hcnd ih =>
    intro f2 hc
    rw [pyAux, if_neg hcnd]
    simp only []
    have hhd : (pyAux .code false (rest.dropWhile notNL)).text.head? ≠ some '#' := by
      rcases hd : rest.dropWhile notNL with _ | ⟨c2, r2⟩
      · rw [pyAux]
        simp
      · have hc2 := dropWhile_head_false notNL rest c2 r2 hd
        have hc2' : c2 = '\n' ∨ c2 = '\r' := by
          simp [notNL] at hc2
          tauto
        rcases hc2' with h | h <;> subst h <;>
          rw [py_plain_head false _ _ (by decide) (by decide) (by decide)] <;> simp
    exact ih f2 (Or.inr hhd)
  case case18 x c rest hdis1 hdis2 hne1 hne2 hne3 ih =>
    intro f2 hc
    rw [pyAux]
    · simp only [Result.consText_text, List.cons_append, List.nil_append]
      rw [py_step_code f2 c _ (fun h => hne1 h) (fun h => hne2 h) (fun h => hne3 h)]
      rw [ih false (Or.inl rfl)]
      simp [Result.consText]
    all_goals (intros; simp_all)

theorem py_idem (src : List Char) :
    strip_comments_python ((strip_comments_python src).text) =
      ⟨(strip_comments_python src).text, 0, 0⟩ := by
  unfold strip_comments_python
  exact py_idem_aux .code true src true (Or.inl rfl)

/-! INI idempotence -/

theorem pySpace_ne (c : Char) (h : isPySpace c = true) :
    c ≠ '\\' ∧ c ≠ '\'' ∧ c ≠ '"' ∧ c ≠ '#' ∧ c ≠ ';' := by
  refine ⟨?_, ?_, ?_, ?_, ?_⟩ <;> intro he <;> subst he <;> exact absurd h (by decide)

theorem break_pySpace (c : Char) (h : isLineBreakChar c = true) : isPySpace c = true := by
  simp only [isLineBreakChar, Bool.or_eq_true, beq_iff_eq] at h
  simp only [isPySpace, Bool.or_eq_true, beq_iff_eq]
  tauto

/-- Python-whitespace characters are scanned one at a time in every quote
state, find no marker, and leave the state unchanged. -/
theorem ws_neutral (semi : Bool) : ∀ (ws : List Char) (st : QMode) (b : List Char),
    (∀ c ∈ ws, isPySpace c = true) →
    iniCut semi st (ws ++ b) = (iniCut semi st b).map (· + ws.length) := by
  intro ws
  induction ws with
  | nil =>
    intro st b h
    simp
  | cons c rest ih =>
    intro st b h
    obtain ⟨h1, h2, h3, h4, h5⟩ := pySpace_ne c (h c (List.mem_cons_self c rest))
    have hr : ∀ x ∈ rest, isPySpace x = true := fun x hx => h x (List.mem_cons_of_mem c hx)
    have hih := ih st b hr
    cases st <;> rw [List.cons_append, iniCut] <;> first
      | (rw [hih]
         cases hb : iniCut semi _ b <;> simp <;> omega)
      | (intros; simp_all)

/-- A found cut always points at a `#` or `;` of the line. -/
theorem iniCut_marker (semi : Bool) : ∀ (st : QMode) (l : List Char) (cut : Nat),
    iniCut semi st l = some cut →
    (l.drop cut).head? = some '#' ∨ (l.drop cut).head? = some ';' := by
  intro st l
  induction st, l using iniCut.induct semi
  all_goals intro cut hcut
  all_goals simp_all [iniCut]
  all_goals try (obtain ⟨k, hk, he⟩ := hcut)
  all_goals try (subst he)
  all_goals simp_all

/-- Up to a found cut, the scan is a neutral code-to-code prefix: appending
anything after the kept part scans it from code state, with positions shifted. -/
theorem iniCut_take_append (semi : Bool) : ∀ (st : QMode) (l : List Char) (cut : Nat),
    iniCut semi st l = some cut → ∀ b : List Char,
    iniCut semi st (l.take cut ++ b) = (iniCut semi .code b).map (· + cut) := by
  intro st l
  induction st, l using iniCut.induct semi
  all_goals intro cut hcut b
  all_goals simp_all [iniCut]
  all_goals try (obtain ⟨k, hk, he⟩ := hcut)
  all_goals try (subst he)
  all_goals try (cases hb : iniCut semi QMode.code b <;> simp <;> omega)
  all_goals simp_all [iniCut]
  all_goals try (cases hb : iniCut semi QMode.code b <;> simp_all <;> omega)
  · rename_i head rest hdis hne ih
    by_cases hsl : head = '\\'
    · subst hsl
      rcases rest with _ | ⟨a, r⟩
      · simp [iniCut] at hk
      · exact absurd rfl (hdis a r rfl)
    · rw [iniCut]
      · rw [ih b]
        cases hb : iniCut semi QMode.code b <;> simp <;> omega
      all_goals (intros; simp_all)
  · rename_i head rest hdis hne ih
    by_cases hsl : head = '\\'
    · subst hsl
      rcases rest with _ | ⟨a, r⟩
      · simp [iniCut] at hk
      · exact absurd rfl (hdis a r rfl)
    · rw [iniCut]
      · rw [ih b]
        cases hb : iniCut semi QMode.code b <;> simp <;> omega
      all_goals (intros; simp_all)


/-- Dropping a run of trailing whitespace between a kept prefix and a `#` does
not change that the `#` is the first marker found: the whitespace is scanned
as single neutral characters in whatever state the prefix ends in. -/
theorem ws_drop (semi : Bool) (ws : List Char) (hws : ∀ c ∈ ws, isPySpace c = true) :
    ∀ n (st : QMode) (pref : List Char), pref.length = n →
    iniCut semi st (pref ++ ws ++ ['#']) = some (pref.length + ws.length) →
    iniCut semi st (pref ++ ['#']) = some pref.length := by
  intro n
  induction n using Nat.strong_induction_on with
  | _ n ih =>
    intro st pref hlen hcut
    rcases pref with _ | ⟨c, pref'⟩
    · simp only [List.nil_append, List.length_nil, Nat.zero_add] at hcut ⊢
      rw [ws_neutral semi ws st ['#'] hws] at hcut
      simp at hcut
      exact hcut
    · have hlt : pref'.length < n := by simp at hlen; omega
      cases st with
      | code =>
        by_cases h1 : c = '\''
        · subst h1
          simp only [List.cons_append] at hcut ⊢
          rw [iniCut] at hcut ⊢
          simp only [Option.map_eq_some'] at hcut
          obtain ⟨k, hk, he⟩ := hcut
          have hke : k = pref'.length + ws.length := by
            simp only [List.length_cons] at he; omega
          subst hke
          rw [ih pref'.length hlt .inSgl pref' rfl hk]
          simp
        · by_cases h2 : c = '"'
          · subst h2
            simp only [List.cons_append] at hcut ⊢
            rw [iniCut] at hcut ⊢
            simp only [Option.map_eq_some'] at hcut
            obtain ⟨k, hk, he⟩ := hcut
            have hke : k = pref'.length + ws.length := by
              simp only [List.length_cons] at he; omega
            subst hke
            rw [ih pref'.length hlt .inDbl pref' rfl hk]
            simp
          · by_cases h3 : c = '#'
            · subst h3
              simp only [List.cons_append] at hcut
              rw [iniCut] at hcut
              injection hcut with h
              simp only [List.length_cons] at h
              omega
            · by_cases h4 : c = ';'
              · subst h4
                simp only [List.cons_append] at hcut ⊢
                rw [iniCut] at hcut ⊢
                by_cases hsemi : semi
                · rw [if_pos hsemi] at hcut
                  injection hcut with h
                  simp only [List.length_cons] at h
                  omega
                · rw [if_neg hsemi] at hcut ⊢
                  simp only [Option.map_eq_some'] at hcut
                  obtain ⟨k, hk, he⟩ := hcut
                  have hke : k = pref'.length + ws.length := by
                    simp only [List.length_cons] at he; omega
                  subst hke
                  rw [ih pref'.length hlt .code pref' rfl hk]
                  simp
              · simp only [List.cons_append] at hcut ⊢
                rw [iniCut] at hcut ⊢
                · simp only [Option.map_eq_some'] at hcut
                  obtain ⟨k, hk, he⟩ := hcut
                  have hke : k = pref'.length + ws.length := by
                    simp only [List.length_cons] at he; omega
                  subst hke
                  rw [ih pref'.length hlt .code pref' rfl hk]
                  simp
                all_goals (intros; simp_all)
      | inSgl =>
        by_cases h1 : c = '\\'
        · subst h1
          rcases pref' with _ | ⟨c2, pref''⟩
          · rcases ws with _ | ⟨s0, ws'⟩
            · rw [show (['\\'] ++ [] ++ ['#'] : List Char) = ['\\', '#'] from rfl,
                iniCut] at hcut
              simp [iniCut] at hcut
            · rw [show (['\\'] ++ (s0 :: ws') ++ ['#'] : List Char) =
                '\\' :: s0 :: (ws' ++ ['#']) from by simp, iniCut] at hcut
              simp only [Option.map_eq_some'] at hcut
              obtain ⟨k, hk, he⟩ := hcut
              have hws' : ∀ c ∈ ws', isPySpace c = true :=
                fun c hc => hws c (List.mem_cons_of_mem s0 hc)
              have hnone : iniCut semi QMode.inSgl ['#'] = none := by
                rw [iniCut]
                · simp [iniCut]
                all_goals (intros; simp_all)
              rw [ws_neutral semi ws' .inSgl ['#'] hws', hnone] at hk
              simp at hk
          · simp only [List.cons_append] at hcut ⊢
            rw [iniCut] at hcut ⊢
            simp only [Option.map_eq_some'] at hcut
            obtain ⟨k, hk, he⟩ := hcut
            have hke : k = pref''.length + ws.length := by
              simp only [List.length_cons] at he; omega
            subst hke
            have hlt2 : pref''.length < n := by simp at hlen; omega
            rw [ih pref''.length hlt2 .inSgl pref'' rfl hk]
            simp
        · by_cases h2 : c = '\''
          · subst h2
            simp only [List.cons_append] at hcut ⊢
            rw [iniCut] at hcut ⊢
            simp only [Option.map_eq_some'] at hcut
            obtain ⟨k, hk, he⟩ := hcut
            have hke : k = pref'.length + ws.length := by
              simp only [List.length_cons] at he; omega
            subst hke
            rw [ih pref'.length hlt .code pref' rfl hk]
            simp
          · simp only [List.cons_append] at hcut ⊢
            rw [iniCut] at hcut ⊢
            · simp only [Option.map_eq_some'] at hcut
              obtain ⟨k, hk, he⟩ := hcut
              have hke : k = pref'.length + ws.length := by
                simp only [List.length_cons] at he; omega
              subst hke
              rw [ih pref'.length hlt .inSgl pref' rfl hk]
              simp
            all_goals (intros; simp_all)
      | inDbl =>
        by_cases h1 : c = '\\'
        · subst h1
          rcases pref' with _ | ⟨c2, pref''⟩
          · rcases ws with _ | ⟨s0, ws'⟩
            · rw [show (['\\'] ++ [] ++ ['#'] : List Char) = ['\\', '#'] from rfl,
                iniCut] at hcut
              simp [iniCut] at hcut
            · rw [show (['\\'] ++ (s0 :: ws') ++ ['#'] : List Char) =
                '\\' :: s0 :: (ws' ++ ['#']) from by simp, iniCut] at hcut
              simp only [Option.map_eq_some'] at hcut
              obtain ⟨k, hk, he⟩ := hcut
              have hws' : ∀ c ∈ ws', isPySpace c = true :=
                fun c hc => hws c (List.mem_cons_of_mem s0 hc)
              have hnone : iniCut semi QMode.inDbl ['#'] = none := by
                rw [iniCut]
                · simp [iniCut]
                all_goals (intros; simp_all)
              rw [ws_neutral semi ws' .inDbl ['#'] hws', hnone] at hk
              simp at hk
          · simp only [List.cons_append] at hcut ⊢
            rw [iniCut] at hcut ⊢
            simp only [Option.map_eq_some'] at hcut
            obtain ⟨k, hk, he⟩ := hcut
            have hke : k = pref''.length + ws.length := by
              simp only [List.length_cons] at he; omega
            subst hke
            have hlt2 : pref''.length < n := by simp at hlen; omega
            rw [ih pref''.length hlt2 .inDbl pref'' rfl hk]
            simp
        · by_cases h2 : c = '"'
          · subst h2
            simp only [List.cons_append] at hcut ⊢
            rw [iniCut] at hcut ⊢
            simp only [Option.map_eq_some'] at hcut
            obtain ⟨k, hk, he⟩ := hcut
            have hke : k = pref'.length + ws.length := by
              simp only [List.length_cons] at he; omega
            subst hke
            rw [ih pref'.length hlt .code pref' rfl hk]
            simp
          · simp only [List.cons_append] at hcut ⊢
            rw [iniCut] at hcut ⊢
            · simp only [Option.map_eq_some'] at hcut
              obtain ⟨k, hk, he⟩ := hcut
              have hke : k = pref'.length + ws.length := by
                simp only [List.length_cons] at he; omega
              subst hke
              rw [ih pref'.length hlt .inDbl pref' rfl hk]
              simp
            all_goals (intros; simp_all)

/-- A list of characters is neutral for the INI scanner if prepending it to any
input shifts the first marker position by its length without otherwise
changing the scan. -/
def iniNeutral (semi : Bool) (w : List Char) : Prop :=
  ∀ b : List Char, iniCut semi .code (w ++ b) = (iniCut semi .code b).map (· + w.length)

theorem iniNeutral_nil (semi : Bool) : iniNeutral semi [] := by
  intro b
  simp only [List.nil_append, List.length_nil]
  cases hb : iniCut semi QMode.code b <;> simp

theorem iniNeutral_append (semi : Bool) (w1 w2 : List Char)
    (h1 : iniNeutral semi w1) (h2 : iniNeutral semi w2) :
    iniNeutral semi (w1 ++ w2) := by
  intro b
  rw [List.append_assoc, h1, h2]
  cases hb : iniCut semi QMode.code b <;> simp [List.length_append] <;> omega

theorem iniNeutral_none (semi : Bool) (w : List Char) (h : iniNeutral semi w) :
    iniCut semi .code w = none := by
  have hb := h []
  simp only [List.append_nil] at hb
  rw [hb]
  rfl

theorem iniNeutral_of_hash (semi : Bool) (w : List Char)
    (h : iniCut semi .code (w ++ ['#']) = some w.length) :
    iniNeutral semi w := by
  intro b
  have htca := iniCut_take_append semi .code (w ++ ['#']) w.length h b
  rw [List.take_left] at htca
  exact htca

theorem iniCut_ws_none (semi : Bool) (ws : List Char)
    (hws : ∀ c ∈ ws, isPySpace c = true) (st : QMode) :
    iniCut semi st ws = none := by
  have hn := ws_neutral semi ws st [] hws
  rw [List.append_nil] at hn
  rw [hn]
  have h0 : iniCut semi st [] = none := by rw [iniCut]
  rw [h0]
  rfl

theorem iniCut_append_ws_none (semi : Bool) (ws : List Char)
    (hws : ∀ c ∈ ws, isPySpace c = true) :
    ∀ (st : QMode) (a : List Char), iniCut semi st a = none →
    iniCut semi st (a ++ ws) = none := by
  intro st a
  induction st, a using iniCut.induct semi
  all_goals intro h
  all_goals simp_all [iniCut]
  case case1 => exact iniCut_ws_none semi ws hws _
  case case4 =>
    rename_i head rest hdis hne ih1
    by_cases hsl : head = '\\'
    · subst hsl
      rcases hr : rest with _ | ⟨x, r⟩
      · simp only [List.nil_append]
        rcases hw : ws with _ | ⟨s0, ws'⟩
        · rw [iniCut]
          · rw [show iniCut semi QMode.inSgl [] = none from by rw [iniCut]]
            rfl
          all_goals (intros; simp_all)
        · rw [iniCut]
          have hws' : ∀ c ∈ ws', isPySpace c = true :=
            fun c hc => hws c (by rw [hw]; exact List.mem_cons_of_mem s0 hc)
          rw [iniCut_ws_none semi ws' hws' .inSgl]
          rfl
      · exact absurd hr (hdis x r rfl)
    · rw [iniCut]
      · rw [ih1]
        rfl
      all_goals (intros; simp_all)
  case case7 =>
    rename_i head rest hdis hne ih1
    by_cases hsl : head = '\\'
    · subst hsl
      rcases hr : rest with _ | ⟨x, r⟩
      · simp only [List.nil_append]
        rcases hw : ws with _ | ⟨s0, ws'⟩
        · rw [iniCut]
          · rw [show iniCut semi QMode.inDbl [] = none from by rw [iniCut]]
            rfl
          all_goals (intros; simp_all)
        · rw [iniCut]
          have hws' : ∀ c ∈ ws', isPySpace c = true :=
            fun c hc => hws c (by rw [hw]; exact List.mem_cons_of_mem s0 hc)
          rw [iniCut_ws_none semi ws' hws' .inDbl]
          rfl
      · exact absurd hr (hdis x r rfl)
    · rw [iniCut]
      · rw [ih1]
        rfl
      all_goals (intros; simp_all)

theorem iniCut_prefix_none (semi : Bool) : ∀ (st : QMode) (a : List Char),
    (∀ b : List Char, iniCut semi st (a ++ b) = none → iniCut semi st a = none) := by
  intro st a
  induction st, a using iniCut.induct semi
  all_goals intro b h
  all_goals simp_all [iniCut]
  all_goals try (rename_i ih1; exact ih1 b h)
  case case4 =>
    rename_i head rest hdis hne ih1
    by_cases hsl : head = '\\'
    · subst hsl
      rcases hr : rest with _ | ⟨x, r⟩
      · rw [iniCut]
      · exact absurd hr (hdis x r rfl)
    · rw [iniCut] at h
      · simp only [Option.map_eq_none'] at h
        exact ih1 b h
      all_goals (intros; simp_all)
  case case7 =>
    rename_i head rest hdis hne ih1
    by_cases hsl : head = '\\'
    · subst hsl
      rcases hr : rest with _ | ⟨x, r⟩
      · rw [iniCut]
      · exact absurd hr (hdis x r rfl)
    · rw [iniCut] at h
      · simp only [Option.map_eq_none'] at h
        exact ih1 b h
      all_goals (intros; simp_all)

theorem rstrip_decomp (l : List Char) :
    ∃ ws : List Char, l = rstripPy l ++ ws ∧ ∀ c ∈ ws, isPySpace c = true := by
  refine ⟨(l.reverse.takeWhile isPySpace).reverse, ?_, ?_⟩
  · unfold rstripPy
    conv_lhs => rw [← List.reverse_reverse l,
      ← List.takeWhile_append_dropWhile (p := isPySpace) (l := l.reverse)]
    rw [List.reverse_append]
  · intro c hc
    rw [List.mem_reverse] at hc
    exact List.mem_takeWhile_imp hc

theorem takeWhile_append_all (p : Char → Bool) (a l : List Char)
    (h : ∀ x ∈ a, p x = true) :
    (a ++ l).takeWhile p = a ++ l.takeWhile p := by
  induction a with
  | nil => simp
  | cons x a' ih =>
    have hx : p x = true := h x (List.mem_cons_self x a')
    simp only [List.cons_append, List.takeWhile_cons, hx, if_true]
    rw [ih (fun y hy => h y (List.mem_cons_of_mem x hy))]

theorem dropWhile_append_all (p : Char → Bool) (a l : List Char)
    (h : ∀ x ∈ a, p x = true) :
    (a ++ l).dropWhile p = l.dropWhile p := by
  induction a with
  | nil => simp
  | cons x a' ih =>
    have hx : p x = true := h x (List.mem_cons_self x a')
    simp only [List.cons_append, List.dropWhile_cons, hx, if_true]
    exact ih (fun y hy => h y (List.mem_cons_of_mem x hy))

/-- The maximal line-break-free chunks of a string: the pieces between
line-break characters (break characters themselves are dropped). -/
def breakChunks : List Char → List (List Char)
  | [] => []
  | s@(c0 :: rest0) =>
    let body := s.takeWhile (fun c => !isLineBreakChar c)
    match h : s.dropWhile (fun c => !isLineBreakChar c) with
    | _ :: r => body :: breakChunks r
    | [] => [body]
termination_by s => s.length
decreasing_by
  all_goals simp_wf
  all_goals (have hs : s.length = rest0.length + 1 := by rw [‹s = c0 :: rest0›]; simp)
  all_goals (have hdw : (s.dropWhile (fun c => !isLineBreakChar c)).length ≤ s.length :=
    length_dropWhile_le _ s)
  · rw [h] at hdw; simp at hdw; omega

set_option maxHeartbeats 1000000 in
theorem breakChunks_cons (c0 : Char) (rest0 : List Char) (c : Char) (r : List Char)
    (h : (c0 :: rest0).dropWhile (fun c => !isLineBreakChar c) = c :: r) :
    breakChunks (c0 :: rest0) =
      ((c0 :: rest0).takeWhile (fun c => !isLineBreakChar c)) :: breakChunks r := by
  conv_lhs => rw [breakChunks.eq_def]
  split
  · rename_i heq
    exact absurd heq (by simp)
  · rename_i c1 r1 heq
    obtain ⟨e1, e2⟩ := List.cons.inj heq
    subst e1
    subst e2
    split
    · rename_i c2 r2 heq2
      rw [h] at heq2
      obtain ⟨f1, f2⟩ := List.cons.inj heq2
      subst f2
      rfl
    · rename_i heq2
      rw [h] at heq2
      simp at heq2

set_option maxHeartbeats 1000000 in
theorem breakChunks_nilTail (c0 : Char) (rest0 : List Char)
    (h : (c0 :: rest0).dropWhile (fun c => !isLineBreakChar c) = []) :
    breakChunks (c0 :: rest0) =
      [(c0 :: rest0).takeWhile (fun c => !isLineBreakChar c)] := by
  conv_lhs => rw [breakChunks.eq_def]
  split
  · rename_i heq
    exact absurd heq (by simp)
  · rename_i c1 r1 heq
    obtain ⟨e1, e2⟩ := List.cons.inj heq
    subst e1
    subst e2
    split
    · rename_i c2 r2 heq2
      rw [h] at heq2
      simp at heq2
    · rfl

theorem breakChunks_break (a : List Char) (c : Char) (rest : List Char)
    (hBF : ∀ x ∈ a, isLineBreakChar x = false) (hc : isLineBreakChar c = true) :
    breakChunks (a ++ c :: rest) = a :: breakChunks rest := by
  have hpa : ∀ x ∈ a, (fun c => !isLineBreakChar c) x = true := by
    intro x hx
    simp [hBF x hx]
  have htw : (a ++ c :: rest).takeWhile (fun c => !isLineBreakChar c) = a := by
    rw [takeWhile_append_all _ a _ hpa]
    simp [List.takeWhile_cons, hc]
  have hdw : (a ++ c :: rest).dropWhile (fun c => !isLineBreakChar c) = c :: rest := by
    rw [dropWhile_append_all _ a _ hpa]
    simp [List.dropWhile_cons, hc]
  rcases ha : a ++ c :: rest with _ | ⟨c0, rest0⟩
  · cases a <;> simp at ha
  · rw [ha] at htw hdw
    rw [breakChunks_cons c0 rest0 c rest hdw, htw]

theorem breakChunks_all (a : List Char) (hBF : ∀ x ∈ a, isLineBreakChar x = false)
    (hne : a ≠ []) : breakChunks a = [a] := by
  rcases a with _ | ⟨c0, rest0⟩
  · exact absurd rfl hne
  · have hpa : ∀ x ∈ c0 :: rest0, (fun c => !isLineBreakChar c) x = true := by
      intro x hx
      simp [hBF x hx]
    have hdw : (c0 :: rest0).dropWhile (fun c => !isLineBreakChar c) = [] := by
      have hh := dropWhile_append_all _ (c0 :: rest0) [] hpa
      simpa using hh
    have htw : (c0 :: rest0).takeWhile (fun c => !isLineBreakChar c) = c0 :: rest0 := by
      have hh := takeWhile_append_all _ (c0 :: rest0) [] hpa
      simpa using hh
    rw [breakChunks_nilTail c0 rest0 hdw, htw]

theorem mem_takeWhile_break (l : List Char) (x : Char)
    (hx : x ∈ l.takeWhile (fun c => !isLineBreakChar c)) : isLineBreakChar x = false := by
  have hh := List.mem_takeWhile_imp hx
  simpa using hh

/-- Well-formedness of a line split: every line is a break-free body followed by
a terminator (`\r\n` or a single break character); only the last line may lack
a terminator. -/
def LinesOK : List (List Char) → Prop
  | [] => True
  | l :: L => (∃ body term, l = body ++ term ∧
      (∀ c ∈ body, isLineBreakChar c = false) ∧
      (term = ['\r', '\n'] ∨ (∃ c, isLineBreakChar c = true ∧ term = [c]) ∨
        (term = [] ∧ L = []))) ∧
      LinesOK L

theorem splitLinesKeep_LinesOK (X : List Char) : LinesOK (splitLinesKeep X) := by
  induction X using splitLinesKeep.induct
  case case1 =>
    rw [splitLinesKeep]
    exact trivial
  case case2 c0 rest0 r h ih =>
    rw [splitLinesKeep_crlf c0 rest0 r h]
    exact ⟨⟨(c0 :: rest0).takeWhile (fun c => !isLineBreakChar c), ['\r', '\n'], rfl,
      fun x hx => mem_takeWhile_break _ _ hx, Or.inl rfl⟩, ih⟩
  case case3 c0 rest0 c r hdis heq ih =>
    have hne : ∀ r2, c :: r ≠ '\r' :: '\n' :: r2 := by
      intro r2 hcc
      obtain ⟨a, b⟩ := List.cons.inj hcc
      exact hdis r2 a b
    rw [splitLinesKeep_single c0 rest0 c r heq hne]
    have hcbrk : isLineBreakChar c = true := by
      have hh := dropWhile_head_false _ _ _ _ heq
      simpa using hh
    exact ⟨⟨(c0 :: rest0).takeWhile (fun c => !isLineBreakChar c), [c], rfl,
      fun x hx => mem_takeWhile_break _ _ hx, Or.inr (Or.inl ⟨c, hcbrk, rfl⟩)⟩, ih⟩
  case case4 c0 rest0 h =>
    rw [splitLinesKeep_last c0 rest0 h]
    have htw := takeWhile_of_dropWhile_nil _ _ h
    refine ⟨⟨c0 :: rest0, [], by simp, ?_, Or.inr (Or.inr ⟨rfl, rfl⟩)⟩, trivial⟩
    intro x hx
    rw [← htw] at hx
    exact mem_takeWhile_break _ _ hx

theorem iniFold_none (semi : Bool) : ∀ L : List (List Char),
    (∀ l ∈ L, iniCut semi .code l = none) → iniFold semi L = ⟨L.join, 0, 0⟩ := by
  intro L
  induction L with
  | nil => intro h; rfl
  | cons line L' ih =>
    intro h
    have hline : iniCut semi .code line = none := h line (List.mem_cons_self _ _)
    have hL' := ih (fun l hl => h l (List.mem_cons_of_mem _ hl))
    simp [iniFold, iniLine, hline, hL']

theorem splitLines_cut_none (semi : Bool) : ∀ X : List Char,
    (∀ chunk ∈ breakChunks X, iniCut semi .code chunk = none) →
    ∀ l ∈ splitLinesKeep X, iniCut semi .code l = none := by
  intro X
  induction X using splitLinesKeep.induct
  case case1 =>
    intro hch l hl
    rw [splitLinesKeep] at hl
    simp at hl
  case case2 c0 rest0 r h ih =>
    intro hch l hl
    rw [splitLinesKeep_crlf c0 rest0 r h] at hl
    have hs := List.takeWhile_append_dropWhile (p := fun c => !isLineBreakChar c)
      (l := c0 :: rest0)
    rw [h] at hs
    rw [← hs] at hch
    have hb1 := breakChunks_break ((c0 :: rest0).takeWhile (fun c => !isLineBreakChar c))
      '\r' ('\n' :: r) (fun x hx => mem_takeWhile_break _ _ hx) (by decide)
    have hb2 : breakChunks ('\n' :: r) = [] :: breakChunks r := by
      have hh := breakChunks_break [] '\n' r (by simp) (by decide)
      simpa using hh
    rw [hb1, hb2] at hch
    rcases List.mem_cons.mp hl with hl1 | hl2
    · subst hl1
      have h1 : iniCut semi .code
          ((c0 :: rest0).takeWhile (fun c => !isLineBreakChar c)) = none :=
        hch _ (List.mem_cons_self _ _)
      exact iniCut_append_ws_none semi ['\r', '\n'] (by decide) .code _ h1
    · exact ih (fun chunk hc => hch chunk
        (List.mem_cons_of_mem _ (List.mem_cons_of_mem _ hc))) l hl2
  case case3 c0 rest0 c r hdis heq ih =>
    intro hch l hl
    have hne : ∀ r2, c :: r ≠ '\r' :: '\n' :: r2 := by
      intro r2 hcc
      obtain ⟨a, b⟩ := List.cons.inj hcc
      exact hdis r2 a b
    rw [splitLinesKeep_single c0 rest0 c r heq hne] at hl
    have hcbrk : isLineBreakChar c = true := by
      have hh := dropWhile_head_false _ _ _ _ heq
      simpa using hh
    have hs := List.takeWhile_append_dropWhile (p := fun c => !isLineBreakChar c)
      (l := c0 :: rest0)
    rw [heq] at hs
    rw [← hs] at hch
    have hb1 := breakChunks_break ((c0 :: rest0).takeWhile (fun c => !isLineBreakChar c))
      c r (fun x hx => mem_takeWhile_break _ _ hx) hcbrk
    rw [hb1] at hch
    rcases List.mem_cons.mp hl with hl1 | hl2
    · subst hl1
      have h1 : iniCut semi .code
          ((c0 :: rest0).takeWhile (fun c => !isLineBreakChar c)) = none :=
        hch _ (List.mem_cons_self _ _)
      exact iniCut_append_ws_none semi [c]
        (by intro x hx; simp at hx; subst hx; exact break_pySpace _ hcbrk) .code _ h1
    · exact ih (fun chunk hc => hch chunk (List.mem_cons_of_mem _ hc)) l hl2
  case case4 c0 rest0 h =>
    intro hch l hl
    rw [splitLinesKeep_last c0 rest0 h] at hl
    simp at hl
    subst hl
    have htw := takeWhile_of_dropWhile_nil _ _ h
    have hBF : ∀ x ∈ c0 :: rest0, isLineBreakChar x = false := by
      intro x hx
      rw [← htw] at hx
      exact mem_takeWhile_break _ _ hx
    have hbc : breakChunks (c0 :: rest0) = [c0 :: rest0] :=
      breakChunks_all _ hBF (by simp)
    exact hch _ (by rw [hbc]; exact List.mem_cons_self _ _)

set_option maxHeartbeats 1000000 in
theorem ini_main (semi : Bool) : ∀ L : List (List Char), LinesOK L →
    ∀ w : List Char, (∀ c ∈ w, isLineBreakChar c = false) → iniNeutral semi w →
    ∀ chunk ∈ breakChunks (w ++ (iniFold semi L).text), iniCut semi .code chunk = none := by
  intro L
  induction L with
  | nil =>
    intro hok w hBF hN chunk hch
    have hT : (iniFold semi ([] : List (List Char))).text = [] := rfl
    rw [hT, List.append_nil] at hch
    rcases hw : w with _ | ⟨w0, w'⟩
    · rw [hw, show breakChunks [] = [] from by rw [breakChunks]] at hch
      simp at hch
    · rw [hw, breakChunks_all _ (hw ▸ hBF) (by simp)] at hch
      simp at hch
      subst hch
      rw [← hw]
      exact iniNeutral_none semi w hN
  | cons line L' ih =>
    intro hok w hBF hN chunk hch
    obtain ⟨⟨body, term, hline, hBFb, hterm⟩, hok'⟩ := hok
    have hT : (iniFold semi (line :: L')).text =
        (iniLine semi line).text ++ (iniFold semi L').text := rfl
    rw [hT] at hch
    cases hcut : iniCut semi .code line with
    | none =>
      have ho : (iniLine semi line).text = line := by simp [iniLine, hcut]
      rw [ho] at hch
      have hbody_none : iniCut semi .code body = none := by
        rw [hline] at hcut
        exact iniCut_prefix_none semi .code body term hcut
      have hwb_none : iniCut semi .code (w ++ body) = none := by
        rw [hN body, hbody_none]
        rfl
      have hBFwb : ∀ x ∈ w ++ body, isLineBreakChar x = false := by
        intro x hx
        rcases List.mem_append.mp hx with h1 | h1
        · exact hBF x h1
        · exact hBFb x h1
      rcases hterm with h1 | ⟨c, hc, h2⟩ | ⟨h2, hL⟩
      · subst h1
        rw [hline] at hch
        have hre : w ++ ((body ++ ['\r', '\n']) ++ (iniFold semi L').text) =
            (w ++ body) ++ '\r' :: ('\n' :: (iniFold semi L').text) := by
          simp
        rw [hre, breakChunks_break _ _ _ hBFwb (by decide)] at hch
        have hb2 : breakChunks ('\n' :: (iniFold semi L').text) =
            [] :: breakChunks (iniFold semi L').text := by
          have hh := breakChunks_break [] '\n' (iniFold semi L').text (by simp) (by decide)
          simpa using hh
        rw [hb2] at hch
        rcases List.mem_cons.mp hch with he | hch2
        · subst he
          exact hwb_none
        rcases List.mem_cons.mp hch2 with he | hch3
        · subst he
          rw [iniCut]
        · have hih := ih hok' [] (by simp) (iniNeutral_nil semi) chunk
          apply hih
          simpa using hch3
      · subst h2
        rw [hline] at hch
        have hre : w ++ ((body ++ [c]) ++ (iniFold semi L').text) =
            (w ++ body) ++ c :: (iniFold semi L').text := by simp
        rw [hre, breakChunks_break _ _ _ hBFwb hc] at hch
        rcases List.mem_cons.mp hch with he | hch2
        · subst he
          exact hwb_none
        · have hih := ih hok' [] (by simp) (iniNeutral_nil semi) chunk
          apply hih
          simpa using hch2
      · subst h2
        subst hL
        rw [hline] at hch
        have hT0 : (iniFold semi ([] : List (List Char))).text = [] := rfl
        rw [hT0] at hch
        simp only [List.append_nil] at hch
        rcases hwb : w ++ body with _ | ⟨x0, xr⟩
        · rw [hwb, show breakChunks [] = [] from by rw [breakChunks]] at hch
          simp at hch
        · rw [hwb, breakChunks_all _ (hwb ▸ hBFwb) (by simp)] at hch
          simp at hch
          subst hch
          rw [← hwb]
          exact hwb_none
    | some cut =>
      have hm := iniCut_marker semi .code line cut hcut
      have hcl : cut < line.length := by
        by_contra hge
        push_neg at hge
        rw [List.drop_eq_nil_of_le hge] at hm
        simp at hm
      have hcb : cut ≤ body.length := by
        by_contra hgt
        push_neg at hgt
        rw [hline, List.drop_append_eq_append_drop,
          List.drop_eq_nil_of_le (le_of_lt hgt)] at hm
        simp only [List.nil_append] at hm
        have hmm : '#' ∈ term ∨ ';' ∈ term := by
          rcases hm with h | h
          · left
            rcases hdt : term.drop (cut - body.length) with _ | ⟨y, ys⟩
            · rw [hdt] at h; simp at h
            · rw [hdt] at h
              simp at h
              subst h
              exact List.mem_of_mem_drop (show _ ∈ term.drop (cut - body.length) from by
                rw [hdt]; exact List.mem_cons_self _ _)
          · right
            rcases hdt : term.drop (cut - body.length) with _ | ⟨y, ys⟩
            · rw [hdt] at h; simp at h
            · rw [hdt] at h
              simp at h
              subst h
              exact List.mem_of_mem_drop (show _ ∈ term.drop (cut - body.length) from by
                rw [hdt]; exact List.mem_cons_self _ _)
        rcases hterm with h1 | ⟨c, hcbr, h2⟩ | ⟨h2, hL⟩
        · subst h1
          rcases hmm with h | h <;> simp at h
        · subst h2
          rcases hmm with h | h <;> (simp at h; subst h; exact absurd hcbr (by decide))
        · subst h2
          rcases hmm with h | h <;> simp at h
      have htake_eq : line.take cut = body.take cut := by
        rw [hline, List.take_append_eq_append_take,
          show cut - body.length = 0 from Nat.sub_eq_zero_of_le hcb]
        simp
      have hBFtake : ∀ x ∈ line.take cut, isLineBreakChar x = false := by
        rw [htake_eq]
        intro x hx
        exact hBFb x (List.mem_of_mem_take hx)
      have htakelen : (line.take cut).length = cut := by
        rw [List.length_take]
        omega
      have htca := iniCut_take_append semi .code line cut hcut
      have hsharp : iniCut semi QMode.code ['#'] = some 0 := by rw [iniCut]
      have h1 := htca ['#']
      rw [hsharp] at h1
      simp only [Option.map_some', Nat.zero_add] at h1
      obtain ⟨ws, hdecomp, hws⟩ := rstrip_decomp (line.take cut)
      have hlen2 : (rstripPy (line.take cut)).length + ws.length = cut := by
        have hh := congrArg List.length hdecomp
        rw [List.length_append] at hh
        omega
      have h2 : iniCut semi QMode.code
          (rstripPy (line.take cut) ++ ws ++ ['#']) =
          some ((rstripPy (line.take cut)).length + ws.length) := by
        rw [← hdecomp, hlen2]
        exact h1
      have hwdrop := ws_drop semi ws hws (rstripPy (line.take cut)).length .code
        (rstripPy (line.take cut)) rfl h2
      have hNw' : iniNeutral semi (rstripPy (line.take cut)) :=
        iniNeutral_of_hash semi _ hwdrop
      have hBFw' : ∀ x ∈ rstripPy (line.take cut), isLineBreakChar x = false := by
        intro x hx
        apply hBFtake
        rw [hdecomp]
        exact List.mem_append_left _ hx
      have hBFww' : ∀ x ∈ w ++ rstripPy (line.take cut), isLineBreakChar x = false := by
        intro x hx
        rcases List.mem_append.mp hx with hx1 | hx1
        · exact hBF x hx1
        · exact hBFw' x hx1
      have ho : (iniLine semi line).text =
          rstripPy (line.take cut) ++ (if line.getLast? = some '\n' then ['\n'] else []) := by
        simp [iniLine, hcut]
      rw [ho] at hch
      by_cases hnl : line.getLast? = some '\n'
      · rw [if_pos hnl] at hch
        have hre : w ++ ((rstripPy (line.take cut) ++ ['\n']) ++ (iniFold semi L').text) =
            (w ++ rstripPy (line.take cut)) ++ '\n' :: (iniFold semi L').text := by
          simp
        rw [hre, breakChunks_break _ _ _ hBFww' (by decide)] at hch
        rcases List.mem_cons.mp hch with he | hch2
        · subst he
          exact iniNeutral_none semi _ (iniNeutral_append semi w _ hN hNw')
        · have hih := ih hok' [] (by simp) (iniNeutral_nil semi) chunk
          apply hih
          simpa using hch2
      · rw [if_neg hnl] at hch
        have hre : w ++ ((rstripPy (line.take cut) ++ []) ++ (iniFold semi L').text) =
            (w ++ rstripPy (line.take cut)) ++ (iniFold semi L').text := by simp
        rw [hre] at hch
        exact ih hok' (w ++ rstripPy (line.take cut)) hBFww'
          (iniNeutral_append semi w _ hN hNw') chunk hch

/-- `strip_comments_hash_and_semicolon` is idempotent: a second pass over its
output finds no further comment to strip. -/
theorem ini_idem (semi : Bool) (src : List Char) :
    strip_comments_hash_and_semicolon
        ((strip_comments_hash_and_semicolon src semi).text) semi =
      ⟨(strip_comments_hash_and_semicolon src semi).text, 0, 0⟩ := by
  rw [hashSemi_as_fold, hashSemi_as_fold]
  have hok := splitLinesKeep_LinesOK src
  have hchunks := ini_main semi (splitLinesKeep src) hok [] (by simp) (iniNeutral_nil semi)
  simp only [List.nil_append] at hchunks
  have hlines := splitLines_cut_none semi _ hchunks
  rw [iniFold_none semi _ hlines, splitLinesKeep_join]

/-- C5: idempotence of the scan on its own cleaned output. The claim as stated
over every profile is refuted by `counterexample_C5` (the HTML scanner is not
idempotent); the amended property proved here is that the C-like scanner (in
all its hash/backtick variants), the Python scanner, and the INI/TOML/YAML
line-cut scanner are idempotent: a second pass over their cleaned output
returns that text unchanged with no comments found and no characters
removed. -/
theorem claim_C5 :
    (∀ (hash bt : Bool) (src : List Char),
      strip_comments_c_like ((strip_comments_c_like src hash bt).text) hash bt =
        ⟨(strip_comments_c_like src hash bt).text, 0, 0⟩) ∧
    (∀ src : List Char,
      strip_comments_python ((strip_comments_python src).text) =
        ⟨(strip_comments_python src).text, 0, 0⟩) ∧
    (∀ (semi : Bool) (src : List Char),
      strip_comments_hash_and_semicolon
          ((strip_comments_hash_and_semicolon src semi).text) semi =
        ⟨(strip_comments_hash_and_semicolon src semi).text, 0, 0⟩) :=
  ⟨clike_idem, py_idem, ini_idem⟩

end CommentCleaner
